import Mathlib

/-!
# Local adaptive thresholding (`lathr.h`)

A shallow embedding of `tesseract::LocalAdaptiveThreshold` and the properties
of its integral images, interior sweep and boundary handler.

Conventions of the embedding:

* C `int` values are `Int` (no ROI considered here is large enough to wrap).
* `double`/`float` values are rationals: every statement is about exact
  arithmetic.
* The raster `imagedata` is a total map from byte offsets to byte values.
* A `double*` buffer is a map from indices to rationals; the initial contents
  of a freshly allocated buffer are an arbitrary argument.
* A counting loop `for (x = a; x < b; x++)` whose body does not assign `x`
  runs `(b - a).toNat` times; the remaining loop variables are threaded
  through as explicit state.
* The writes to the packed bitmap are collected in execution order and then
  applied to `pixdata`.
* `sqrt` is the square-root function of an ordered field given as an argument
  (the reals with `Real.sqrt` in the statements that need its value).
-/

namespace LocalAdaptiveThreshold

/-! ## Luma sampler -/

/-- The flag `toGrey = (bytes_per_pixel == 3 || bytes_per_pixel == 4)`. -/
def toGrey (bytes_per_pixel : Int) : Bool :=
  bytes_per_pixel == 3 || bytes_per_pixel == 4

/-- The macro `floatGrey(p)`, with the offsets `r`, `g`, `b` of the enclosing
scope passed explicitly. -/
def floatGrey (imagedata : Int → Nat) (r g b : Int) (p : Int) : ℚ :=
  ((imagedata (p + r) * 29 + imagedata (p + g) * 150 + imagedata (p + b) * 77 + 128 : Nat) : ℚ)
    / 256

/-- The expression `(toGrey ? floatGrey(pSrc + i) : pSrc[i])` used at every
sampling site, with `r`, `g`, `b` as each function computes them. -/
def sample (imagedata : Int → Nat) (bytes_per_pixel : Int) (i : Int) : ℚ :=
  let r : Int := if toGrey bytes_per_pixel then bytes_per_pixel - 1 else 0
  let g : Int := if toGrey bytes_per_pixel then bytes_per_pixel - 2 else 0
  let b : Int := if toGrey bytes_per_pixel then bytes_per_pixel - 3 else 0
  if toGrey bytes_per_pixel then floatGrey imagedata r g b i else (imagedata i : ℚ)

/-! ## Integral image builder, one table -/

/-- Loop state of the passes of the one-table `CalcIntegral`. -/
structure IntegralState where
  dst_index : Int
  image_index : Int
  pDst : Int → ℚ

/-- Body and increment of the "first line" loop. -/
def firstLineStep (imagedata : Int → Nat) (bytes_per_pixel : Int) (vNormalize : ℚ)
    (s : IntegralState) : IntegralState :=
  { dst_index := s.dst_index + 1
    image_index := s.image_index + bytes_per_pixel
    pDst := Function.update s.pDst s.dst_index
      (s.pDst (s.dst_index - 1) + (sample imagedata bytes_per_pixel s.image_index - vNormalize)) }

/-- Body and increment of the "first column" loop. -/
def firstColumnStep (imagedata : Int → Nat) (bytes_per_pixel bytes_per_line roiWidth : Int)
    (vNormalize : ℚ) (s : IntegralState) : IntegralState :=
  { dst_index := s.dst_index + roiWidth
    image_index := s.image_index + bytes_per_line
    pDst := Function.update s.pDst s.dst_index
      (s.pDst (s.dst_index - roiWidth)
        + (sample imagedata bytes_per_pixel s.image_index - vNormalize)) }

/-- Body and increment of the inner loop of the "remains" pass, with
`x_1y = -1`, `xy_1 = -roiWidth`, `x_1y_1 = -roiWidth - 1`. -/
def remainsStep (imagedata : Int → Nat) (bytes_per_pixel roiWidth : Int)
    (vNormalize : ℚ) (s : IntegralState) : IntegralState :=
  let x_1y_1 : Int := -roiWidth - 1
  let xy_1 : Int := -roiWidth
  let x_1y : Int := -1
  { dst_index := s.dst_index + 1
    image_index := s.image_index + bytes_per_pixel
    pDst := Function.update s.pDst s.dst_index
      (s.pDst (s.dst_index + x_1y) + s.pDst (s.dst_index + xy_1) - s.pDst (s.dst_index + x_1y_1)
        + (sample imagedata bytes_per_pixel s.image_index - vNormalize)) }

/-- The outer loop of the "remains" pass: `n` further rows starting at row `y`. -/
def remainsRows (imagedata : Int → Nat)
    (bytes_per_pixel bytes_per_line roiLeft roiTop roiWidth : Int) (vNormalize : ℚ) :
    Nat → Int → (Int → ℚ) → (Int → ℚ)
  | 0, _, pDst => pDst
  | n + 1, y, pDst =>
    let image_index := (roiTop + y) * bytes_per_line + (roiLeft + 1) * bytes_per_pixel
    let dst_index := y * roiWidth + 1
    let s := (remainsStep imagedata bytes_per_pixel roiWidth vNormalize)^[(roiWidth - 1).toNat]
      { dst_index := dst_index, image_index := image_index, pDst := pDst }
    remainsRows imagedata bytes_per_pixel bytes_per_line roiLeft roiTop roiWidth vNormalize
      n (y + 1) s.pDst

/-- The one-table `CalcIntegral`: the contents of `integral` on return. -/
def CalcIntegral (imagedata : Int → Nat) (bytes_per_pixel bytes_per_line : Int)
    (roiLeft roiTop roiWidth roiHeight : Int) (vNormalize : ℚ) (integral : Int → ℚ) :
    Int → ℚ :=
  let image_offset := roiTop * bytes_per_line + roiLeft * bytes_per_pixel
  let dst_offset : Int := 0
  if bytes_per_pixel = 1 ∨ bytes_per_pixel = 3 ∨ bytes_per_pixel = 4 then
    let pDst := Function.update integral dst_offset
      (sample imagedata bytes_per_pixel image_offset - vNormalize)
    -- first line
    let s1 := (firstLineStep imagedata bytes_per_pixel vNormalize)^[(roiWidth - 1).toNat]
      { dst_index := dst_offset + 1, image_index := image_offset + bytes_per_pixel, pDst := pDst }
    -- first column
    let s2 := (firstColumnStep imagedata bytes_per_pixel bytes_per_line roiWidth
        vNormalize)^[(roiHeight - 1).toNat]
      { dst_index := dst_offset + roiWidth
        image_index := (roiTop + 1) * bytes_per_line + roiLeft * bytes_per_pixel
        pDst := s1.pDst }
    -- remains
    remainsRows imagedata bytes_per_pixel bytes_per_line roiLeft roiTop roiWidth vNormalize
      (roiHeight - 1).toNat 1 s2.pDst
  else integral

/-! ## Reference sums over the ROI -/

/-- Intensity of the ROI pixel in column `i`, row `j` (relative to the ROI). -/
def roiIntensity (imagedata : Int → Nat) (bytes_per_pixel bytes_per_line roiLeft roiTop : Int)
    (i j : Nat) : ℚ :=
  sample imagedata bytes_per_pixel
    ((roiTop + j) * bytes_per_line + (roiLeft + i) * bytes_per_pixel)

/-- Naive double sum of `a` over columns `0..x` and rows `0..y`. -/
def cumSum (a : Nat → Nat → ℚ) (x y : Nat) : ℚ :=
  ∑ j ∈ Finset.range (y + 1), ∑ i ∈ Finset.range (x + 1), a i j

/-- Naive double sum of `a` over columns `x0 .. x0+w-1` and rows `y0 .. y0+h-1`. -/
def rectSum (a : Nat → Nat → ℚ) (x0 y0 w h : Nat) : ℚ :=
  ∑ j ∈ Finset.range h, ∑ i ∈ Finset.range w, a (x0 + i) (y0 + j)

/-- Normalised intensity `intensity - vNormalize` of the ROI pixel `(i, j)`. -/
def normIntensity (imagedata : Int → Nat) (bytes_per_pixel bytes_per_line roiLeft roiTop : Int)
    (vNormalize : ℚ) (i j : Nat) : ℚ :=
  roiIntensity imagedata bytes_per_pixel bytes_per_line roiLeft roiTop i j - vNormalize

/-! ## Integral image builder, two tables -/

/-- Loop state of the passes of the two-table `CalcIntegral`. -/
structure IntegralState2 where
  dst_index : Int
  image_index : Int
  pDst : Int → ℚ
  pVar : Int → ℚ

/-- Body and increment of the "first line" loop of the two-table overload.  The
intensity is sampled at `image_offset`, as the source does. -/
def firstLineStep2 (imagedata : Int → Nat) (bytes_per_pixel image_offset : Int)
    (vNormalize sqrV : ℚ) (s : IntegralState2) : IntegralState2 :=
  let intensity := sample imagedata bytes_per_pixel image_offset
  { dst_index := s.dst_index + 1
    image_index := s.image_index + bytes_per_pixel
    pDst := Function.update s.pDst s.dst_index
      (s.pDst (s.dst_index - 1) + (intensity - vNormalize))
    pVar := Function.update s.pVar s.dst_index
      (s.pVar (s.dst_index - 1) + intensity * intensity - sqrV) }

/-- Body and increment of the "first column" loop of the two-table overload. -/
def firstColumnStep2 (imagedata : Int → Nat)
    (bytes_per_pixel bytes_per_line roiWidth image_offset : Int)
    (vNormalize sqrV : ℚ) (s : IntegralState2) : IntegralState2 :=
  let intensity := sample imagedata bytes_per_pixel image_offset
  { dst_index := s.dst_index + roiWidth
    image_index := s.image_index + bytes_per_line
    pDst := Function.update s.pDst s.dst_index
      (s.pDst (s.dst_index - roiWidth) + (intensity - vNormalize))
    pVar := Function.update s.pVar s.dst_index
      (s.pVar (s.dst_index - roiWidth) + (intensity * intensity - sqrV)) }

/-- Body and increment of the inner loop of the "remains" pass of the two-table
overload. -/
def remainsStep2 (imagedata : Int → Nat) (bytes_per_pixel roiWidth image_offset : Int)
    (vNormalize sqrV : ℚ) (s : IntegralState2) : IntegralState2 :=
  let x_1y_1 : Int := -roiWidth - 1
  let xy_1 : Int := -roiWidth
  let x_1y : Int := -1
  let intensity := sample imagedata bytes_per_pixel image_offset
  { dst_index := s.dst_index + 1
    image_index := s.image_index + bytes_per_pixel
    pDst := Function.update s.pDst s.dst_index
      (s.pDst (s.dst_index + x_1y) + s.pDst (s.dst_index + xy_1) - s.pDst (s.dst_index + x_1y_1)
        + (intensity - vNormalize))
    pVar := Function.update s.pVar s.dst_index
      (s.pVar (s.dst_index + x_1y) + s.pVar (s.dst_index + xy_1) - s.pVar (s.dst_index + x_1y_1)
        + (intensity * intensity - sqrV)) }

/-- The outer loop of the "remains" pass of the two-table overload. -/
def remainsRows2 (imagedata : Int → Nat)
    (bytes_per_pixel bytes_per_line roiLeft roiTop roiWidth image_offset : Int)
    (vNormalize sqrV : ℚ) :
    Nat → Int → (Int → ℚ) × (Int → ℚ) → (Int → ℚ) × (Int → ℚ)
  | 0, _, tables => tables
  | n + 1, y, tables =>
    let image_index := (roiTop + y) * bytes_per_line + (roiLeft + 1) * bytes_per_pixel
    let dst_index := y * roiWidth + 1
    let s := (remainsStep2 imagedata bytes_per_pixel roiWidth image_offset vNormalize
        sqrV)^[(roiWidth - 1).toNat]
      { dst_index := dst_index, image_index := image_index, pDst := tables.1, pVar := tables.2 }
    remainsRows2 imagedata bytes_per_pixel bytes_per_line roiLeft roiTop roiWidth image_offset
      vNormalize sqrV n (y + 1) (s.pDst, s.pVar)

/-- The two-table overload of `CalcIntegral`: the contents of `integral` and
`varIntegral` on return. -/
def CalcIntegral2 (imagedata : Int → Nat) (bytes_per_pixel bytes_per_line : Int)
    (roiLeft roiTop roiWidth roiHeight : Int) (vNormalize : ℚ)
    (integral varIntegral : Int → ℚ) : (Int → ℚ) × (Int → ℚ) :=
  let image_offset := roiTop * bytes_per_line + roiLeft * bytes_per_pixel
  let dst_offset : Int := 0
  let sqrV := vNormalize * vNormalize
  if bytes_per_pixel = 1 ∨ bytes_per_pixel = 3 ∨ bytes_per_pixel = 4 then
    let intensity := sample imagedata bytes_per_pixel image_offset
    let pDst := Function.update integral dst_offset (intensity - vNormalize)
    let pVar := Function.update varIntegral dst_offset (intensity * intensity - sqrV)
    -- first line
    let s1 := (firstLineStep2 imagedata bytes_per_pixel image_offset vNormalize
        sqrV)^[(roiWidth - 1).toNat]
      { dst_index := dst_offset + 1, image_index := image_offset + bytes_per_pixel
        pDst := pDst, pVar := pVar }
    -- first column
    let s2 := (firstColumnStep2 imagedata bytes_per_pixel bytes_per_line roiWidth image_offset
        vNormalize sqrV)^[(roiHeight - 1).toNat]
      { dst_index := dst_offset + roiWidth
        image_index := (roiTop + 1) * bytes_per_line + roiLeft * bytes_per_pixel
        pDst := s1.pDst, pVar := s1.pVar }
    -- remains
    remainsRows2 imagedata bytes_per_pixel bytes_per_line roiLeft roiTop roiWidth image_offset
      vNormalize sqrV (roiHeight - 1).toNat 1 (s2.pDst, s2.pVar)
  else (integral, varIntegral)

/-! ## Window statistics -/

/-- The four relative offsets that `CalcOffsets` stores through its reference
parameters. -/
structure Offsets where
  offsetT_1L_1 : Int
  offsetT_1R : Int
  offsetB_L_1 : Int
  offsetBR : Int
  deriving DecidableEq, Repr

/-- `CalcOffsets`. -/
def CalcOffsets (imageStride kWidth kHeight : Int) : Offsets :=
  { offsetT_1L_1 := -imageStride - 1
    offsetT_1R := -imageStride + kWidth - 1
    offsetB_L_1 := (kHeight - 1) * imageStride - 1
    offsetBR := (kHeight - 1) * imageStride + kWidth - 1 }

/-- The four-corner expression
`I[i + offsetBR] - I[i + offsetT_1R] - I[i + offsetB_L_1] + I[i + offsetT_1L_1]`. -/
def cornerSum (table : Int → ℚ) (o : Offsets) (integral_index : Int) : ℚ :=
  table (integral_index + o.offsetBR) - table (integral_index + o.offsetT_1R)
    - table (integral_index + o.offsetB_L_1) + table (integral_index + o.offsetT_1L_1)

/-! ## Interior sweep -/

/-- The loop variables of one iteration of the interior sweep; `row` is the
bitmap row `y - roiTop + (kernelHeight >> 1)` of `pixline`. -/
structure SweepPos where
  row : Int
  x : Int
  integral_index : Int
  image_index : Int
  dstPixel : Int
  deriving DecidableEq, Repr

/-- The inner loop `for (x = xStart; x <= xEnd; x++, integral_index++,
image_index += bytes_per_pixel, dstPixel++)`, run for the given number of
iterations. -/
def sweepRow (bytes_per_pixel row : Int) : Nat → Int → Int → Int → Int → List SweepPos
  | 0, _, _, _, _ => []
  | n + 1, x, integral_index, image_index, dstPixel =>
    { row := row, x := x, integral_index := integral_index, image_index := image_index
      dstPixel := dstPixel }
      :: sweepRow bytes_per_pixel row n (x + 1) (integral_index + 1)
        (image_index + bytes_per_pixel) (dstPixel + 1)

/-- The iterations of the interior double loop shared by `Isodata` and
`Sauvola`, in execution order. -/
def interiorSweep (bytes_per_pixel bytes_per_line : Int)
    (roiLeft roiTop roiWidth roiHeight kernelWidth kernelHeight : Int) : List SweepPos :=
  let imgOffset := (kernelHeight >>> (1 : Nat)) * bytes_per_line + (kernelWidth >>> (1 : Nat)) * bytes_per_pixel
  let yStart := roiTop + 1
  let xStart := roiLeft + 1
  let yEnd := (roiTop + roiHeight) - kernelHeight - 1
  let xEnd := (roiLeft + roiWidth) - kernelWidth - 1
  (List.range (yEnd + 1 - yStart).toNat).flatMap fun (i : Nat) =>
    let y : Int := yStart + (i : Int)
    let row := y - roiTop + (kernelHeight >>> (1 : Nat))
    let image_index := imgOffset + y * bytes_per_line + xStart * bytes_per_pixel
    let integral_index := (y - roiTop) * roiWidth + 1
    let dstPixel := xStart - roiLeft + (kernelWidth >>> (1 : Nat))
    sweepRow bytes_per_pixel row (xEnd + 1 - xStart).toNat xStart integral_index image_index
      dstPixel

/-! ## Bit writer -/

/-- One execution of `CLEAR_DATA_BIT(pixline, dstPixel)` (`white_result` true)
or `SET_DATA_BIT(pixline, dstPixel)` (`white_result` false), where
`pixline = pixdata + row * wpl`. -/
structure BitWrite where
  row : Int
  dstPixel : Int
  white_result : Bool
  deriving DecidableEq, Repr

/-- Modelled from the spec: the bit of column `n` inside its 32-bit word; the
`CLEAR_DATA_BIT` / `SET_DATA_BIT` macros are not part of the sources.  The spec
only says the bit writer "sets or clears the corresponding bit in place"; the
order of the bits inside a word is taken most-significant first, and no
statement below depends on that order. -/
def dataBitMask (n : Int) : Nat :=
  0x80000000 >>> (n % 32).toNat

/-- Modelled from the spec: `CLEAR_DATA_BIT(pixline, n)` clears the bit of
column `n` of the line starting at word `pixline`; the macro is not part of the
sources. -/
def CLEAR_DATA_BIT (pixdata : Int → Nat) (pixline n : Int) : Int → Nat :=
  Function.update pixdata (pixline + n / 32)
    (pixdata (pixline + n / 32) &&& (0xFFFFFFFF ^^^ dataBitMask n))

/-- Modelled from the spec: `SET_DATA_BIT(pixline, n)` sets the bit of column
`n` of the line starting at word `pixline`; the macro is not part of the
sources. -/
def SET_DATA_BIT (pixdata : Int → Nat) (pixline n : Int) : Int → Nat :=
  Function.update pixdata (pixline + n / 32) (pixdata (pixline + n / 32) ||| dataBitMask n)

/-- The statement `if (white_result) CLEAR_DATA_BIT(..) else SET_DATA_BIT(..)`. -/
def applyWrite (wpl : Int) (pixdata : Int → Nat) (w : BitWrite) : Int → Nat :=
  if w.white_result then CLEAR_DATA_BIT pixdata (w.row * wpl) w.dstPixel
  else SET_DATA_BIT pixdata (w.row * wpl) w.dstPixel

/-- The bitmap after a sequence of bit writes, in order. -/
def applyWrites (wpl : Int) (pixdata : Int → Nat) (ws : List BitWrite) : Int → Nat :=
  ws.foldl (applyWrite wpl) pixdata

/-! ## Boundary handler -/

/-- One entry `(pY[i], pX0[i], pX1[i])` of the scan-line arrays. -/
structure ScanLine where
  y : Int
  x0 : Int
  x1 : Int
  deriving DecidableEq, Repr

/-- Result of `GetRemainScanLines`: the count `n` the three arrays are
allocated with, and the entries its three loops store at indices `0, 1, 2, ..`
in that order. -/
structure ScanLines where
  n : Int
  entries : List ScanLine
  deriving DecidableEq, Repr

/-- `GetRemainScanLines`.  `yStart0`, `yEnd0`, `n0` are `yStart`, `yEnd`, `n`
before the `if`, `whole` is its condition; `top`, `middle`, `bottom` are the
stores of the three loops, in the order of `index`.  Entries at positions `≥ n`
are stores past the end of the arrays. -/
def GetRemainScanLines (roiLeft roiTop roiWidth roiHeight kernelWidth kernelHeight : Int) :
    ScanLines :=
  let yStart0 := roiTop + (kernelHeight >>> (1 : Nat)) + 1
  let xStart := roiLeft + (kernelWidth >>> (1 : Nat)) + 1
  let yEnd0 := (roiTop + roiHeight) - (kernelHeight >>> (1 : Nat)) - 1
  let xEnd := (roiLeft + roiWidth) - (kernelWidth >>> (1 : Nat)) - 1
  let n0 := (yStart0 - roiTop) + ((roiTop + roiHeight) - (yEnd0 + 1))
    + 2 * (yEnd0 - yStart0 + 1)
  let whole : Bool := decide (n0 ≤ 0 ∨ roiWidth < kernelWidth ∨ roiHeight < kernelHeight)
  let n := if whole then roiHeight else n0
  let yStart := if whole then roiTop + roiHeight else yStart0
  let yEnd := if whole then yStart - 1 else yEnd0
  let top := (List.range (yStart - roiTop).toNat).map fun (i : Nat) =>
    ({ y := roiTop + (i : Int), x0 := roiLeft, x1 := roiLeft + roiWidth - 1 } : ScanLine)
  let middle := (List.range (yEnd + 1 - yStart).toNat).flatMap fun (i : Nat) =>
    [({ y := yStart + (i : Int), x0 := roiLeft, x1 := xStart - 1 } : ScanLine),
     ({ y := yStart + (i : Int), x0 := xEnd + 1, x1 := roiLeft + roiWidth - 1 } : ScanLine)]
  let bottom := (List.range (roiTop + roiHeight - (yEnd + 1)).toNat).map fun (i : Nat) =>
    ({ y := yEnd + 1 + (i : Int), x0 := roiLeft, x1 := roiLeft + roiWidth - 1 } : ScanLine)
  { n := n, entries := top ++ middle ++ bottom }

/-- The entries `i = 0 .. n-1` that `ThresholdRemainRegions` reads back
(`pY[i]`, `pX0[i]`, `pX1[i]` for `i < n`). -/
def returnedScanLines (roiLeft roiTop roiWidth roiHeight kernelWidth kernelHeight : Int) :
    List ScanLine :=
  let r := GetRemainScanLines roiLeft roiTop roiWidth roiHeight kernelWidth kernelHeight
  r.entries.take r.n.toNat

/-- The inner loop `for (x = xStart; x <= xEnd; x++, image_index +=
bytes_per_pixel, dstPixel++)` of `ThresholdRemainRegions`. -/
def remainRow (imagedata : Int → Nat) (bytes_per_pixel : Int) (threshold : ℚ) (row : Int) :
    Nat → Int → Int → List BitWrite
  | 0, _, _ => []
  | n + 1, image_index, dstPixel =>
    { row := row, dstPixel := dstPixel
      white_result := decide (sample imagedata bytes_per_pixel image_index ≥ threshold) }
      :: remainRow imagedata bytes_per_pixel threshold row n (image_index + bytes_per_pixel)
        (dstPixel + 1)

/-- `ThresholdRemainRegions`: the bit writes it performs, in order. -/
def ThresholdRemainRegions (imagedata : Int → Nat) (bytes_per_pixel bytes_per_line : Int)
    (roiLeft roiTop roiWidth roiHeight kernelWidth kernelHeight : Int) (threshold : ℚ) :
    List BitWrite :=
  (returnedScanLines roiLeft roiTop roiWidth roiHeight kernelWidth kernelHeight).flatMap
    fun sl =>
      let y := sl.y
      let xStart := sl.x0
      let xEnd := sl.x1
      let image_index := y * bytes_per_line + xStart * bytes_per_pixel
      let dstPixel := xStart - roiLeft
      remainRow imagedata bytes_per_pixel threshold (y - roiTop) (xEnd + 1 - xStart).toNat
        image_index dstPixel

/-! ## Isodata -/

/-- The value of `threshold` inside the interior loop of `Isodata`. -/
def IsodataThreshold (integral : Int → ℚ) (roiWidth roiHeight kernelWidth kernelHeight : Int)
    (integral_index : Int) : ℚ :=
  let roiLength := roiWidth * roiHeight
  let vNormalize : ℚ := 160
  let backgroundAmplitude := (integral (roiLength - 1) / roiLength) + vNormalize
  let vNormalize_BkgAmplitude := vNormalize + backgroundAmplitude
  let kLength := kernelWidth * kernelHeight
  let v := cornerSum integral (CalcOffsets roiWidth kernelWidth kernelHeight) integral_index
  ((v / kLength) + vNormalize_BkgAmplitude) * 0.5

/-- The value of `threshold` that `Isodata` passes to `ThresholdRemainRegions`. -/
def IsodataRemainThreshold (integral : Int → ℚ) (roiWidth roiHeight : Int) : ℚ :=
  let roiLength := roiWidth * roiHeight
  let vNormalize : ℚ := 160
  (integral (roiLength - 1) / roiLength) + vNormalize

/-- The bit writes of `Isodata`, in order: interior sweep, then remain regions.
`integral0` is the initial content of the freshly allocated `integral`. -/
def IsodataWrites (imagedata : Int → Nat) (bytes_per_pixel bytes_per_line : Int)
    (roiLeft roiTop roiWidth roiHeight kernelWidth kernelHeight : Int)
    (integral0 : Int → ℚ) : List BitWrite :=
  let vNormalize : ℚ := 160
  let integral := CalcIntegral imagedata bytes_per_pixel bytes_per_line
    roiLeft roiTop roiWidth roiHeight vNormalize integral0
  let interior :=
    (interiorSweep bytes_per_pixel bytes_per_line roiLeft roiTop roiWidth roiHeight
      kernelWidth kernelHeight).map fun p =>
      let threshold := IsodataThreshold integral roiWidth roiHeight kernelWidth kernelHeight
        p.integral_index
      ({ row := p.row, dstPixel := p.dstPixel
         white_result := decide (sample imagedata bytes_per_pixel p.image_index ≥ threshold) }
        : BitWrite)
  interior ++ ThresholdRemainRegions imagedata bytes_per_pixel bytes_per_line
    roiLeft roiTop roiWidth roiHeight kernelWidth kernelHeight
    (IsodataRemainThreshold integral roiWidth roiHeight)

/-- `Isodata`: the contents of `pixdata` on return. -/
def Isodata (imagedata : Int → Nat) (bytes_per_pixel bytes_per_line : Int)
    (roiLeft roiTop roiWidth roiHeight kernelWidth kernelHeight : Int)
    (pixdata : Int → Nat) (wpl : Int) (integral0 : Int → ℚ) : Int → Nat :=
  applyWrites wpl pixdata
    (IsodataWrites imagedata bytes_per_pixel bytes_per_line roiLeft roiTop roiWidth roiHeight
      kernelWidth kernelHeight integral0)

/-! ## Sauvola

The square root is taken in an ordered field `K` supplied with its square-root
function; tables and window sums stay rational. -/

/-- The value of `localMean` after `localMean = (localMean / kLength) + vNormalize`. -/
def SauvolaLocalMean (integral : Int → ℚ) (roiWidth kernelWidth kernelHeight : Int)
    (integral_index : Int) : ℚ :=
  let vNormalize : ℚ := 160
  let kLength := kernelWidth * kernelHeight
  let localMean := cornerSum integral (CalcOffsets roiWidth kernelWidth kernelHeight)
    integral_index
  (localMean / kLength) + vNormalize

/-- The value of `localVar` after `localVar = (localVar + kSqrV) / kSub1`. -/
def SauvolaLocalVar (varIntegral : Int → ℚ) (roiWidth kernelWidth kernelHeight : Int)
    (integral_index : Int) : ℚ :=
  let vNormalize : ℚ := 160
  let sqrV := vNormalize * vNormalize
  let kLength := kernelWidth * kernelHeight
  let kSqrV : ℚ := kLength * sqrV
  let kSub1 : ℚ := kLength - 1.0
  let localVar := cornerSum varIntegral (CalcOffsets roiWidth kernelWidth kernelHeight)
    integral_index
  (localVar + kSqrV) / kSub1

/-- The argument `localVar - localMean * localMean` of `sqrt`. -/
def SauvolaRadicand (integral varIntegral : Int → ℚ) (roiWidth kernelWidth kernelHeight : Int)
    (integral_index : Int) : ℚ :=
  SauvolaLocalVar varIntegral roiWidth kernelWidth kernelHeight integral_index
    - SauvolaLocalMean integral roiWidth kernelWidth kernelHeight integral_index
      * SauvolaLocalMean integral roiWidth kernelWidth kernelHeight integral_index

/-- The value of `threshold` inside the interior loop of `Sauvola`. -/
def SauvolaThreshold {K : Type} [LinearOrderedField K] (sqrtK : K → K)
    (integral varIntegral : Int → ℚ) (roiWidth kernelWidth kernelHeight : Int)
    (integral_index : Int) : K :=
  let sauvola_k : K := 0.34
  let sauvola_r : K := 128
  let localMean : K :=
    (SauvolaLocalMean integral roiWidth kernelWidth kernelHeight integral_index : ℚ)
  let v := sqrtK
    ((SauvolaRadicand integral varIntegral roiWidth kernelWidth kernelHeight integral_index : ℚ) : K)
  localMean * (1 + sauvola_k * (-1 + v / sauvola_r))

/-- The value of `threshold` that `Sauvola` passes to `ThresholdRemainRegions`. -/
def SauvolaRemainThreshold (integral : Int → ℚ) (roiWidth roiHeight : Int) : ℚ :=
  let roiLength := roiWidth * roiHeight
  let vNormalize : ℚ := 160
  (integral (roiLength - 1) / roiLength) + vNormalize

/-- The bit writes of `Sauvola`, in order: interior sweep, then remain regions.
`integral0`, `varIntegral0` are the initial contents of the fresh buffers. -/
def SauvolaWrites {K : Type} [LinearOrderedField K] (sqrtK : K → K)
    (imagedata : Int → Nat) (bytes_per_pixel bytes_per_line : Int)
    (roiLeft roiTop roiWidth roiHeight kernelWidth kernelHeight : Int)
    (integral0 varIntegral0 : Int → ℚ) : List BitWrite :=
  let vNormalize : ℚ := 160
  let tables := CalcIntegral2 imagedata bytes_per_pixel bytes_per_line
    roiLeft roiTop roiWidth roiHeight vNormalize integral0 varIntegral0
  let interior :=
    (interiorSweep bytes_per_pixel bytes_per_line roiLeft roiTop roiWidth roiHeight
      kernelWidth kernelHeight).map fun p =>
      let threshold : K := SauvolaThreshold sqrtK tables.1 tables.2 roiWidth
        kernelWidth kernelHeight p.integral_index
      ({ row := p.row, dstPixel := p.dstPixel
         white_result :=
          decide (((sample imagedata bytes_per_pixel p.image_index : ℚ) : K) ≥ threshold) }
        : BitWrite)
  interior ++ ThresholdRemainRegions imagedata bytes_per_pixel bytes_per_line
    roiLeft roiTop roiWidth roiHeight kernelWidth kernelHeight
    (SauvolaRemainThreshold tables.1 roiWidth roiHeight)

/-- `Sauvola`: the contents of `pixdata` on return. -/
def Sauvola {K : Type} [LinearOrderedField K] (sqrtK : K → K)
    (imagedata : Int → Nat) (bytes_per_pixel bytes_per_line : Int)
    (roiLeft roiTop roiWidth roiHeight kernelWidth kernelHeight : Int)
    (pixdata : Int → Nat) (wpl : Int) (integral0 varIntegral0 : Int → ℚ) : Int → Nat :=
  applyWrites wpl pixdata
    (SauvolaWrites sqrtK imagedata bytes_per_pixel bytes_per_line roiLeft roiTop roiWidth
      roiHeight kernelWidth kernelHeight integral0 varIntegral0)

/-! ## Coverage of the ROI -/

/-- Destination pixels `(row, column)` of the interior sweep, in order. -/
def interiorPixels (bytes_per_pixel bytes_per_line : Int)
    (roiLeft roiTop roiWidth roiHeight kernelWidth kernelHeight : Int) : List (Int × Int) :=
  (interiorSweep bytes_per_pixel bytes_per_line roiLeft roiTop roiWidth roiHeight
    kernelWidth kernelHeight).map fun p => (p.row, p.dstPixel)

/-- Destination pixels `(row, column)` of one scan-line segment, as
`ThresholdRemainRegions` walks it. -/
def scanLinePixels (roiLeft roiTop : Int) (sl : ScanLine) : List (Int × Int) :=
  (List.range (sl.x1 + 1 - sl.x0).toNat).map fun (i : Nat) =>
    (sl.y - roiTop, sl.x0 - roiLeft + (i : Int))

/-- Destination pixels `(row, column)` of the segments returned by
`GetRemainScanLines`. -/
def remainPixels (roiLeft roiTop roiWidth roiHeight kernelWidth kernelHeight : Int) :
    List (Int × Int) :=
  (returnedScanLines roiLeft roiTop roiWidth roiHeight kernelWidth kernelHeight).flatMap
    (scanLinePixels roiLeft roiTop)

/-- How often the destination pixel in bitmap row `r`, column `c` is written by
the interior sweep and the boundary handler together. -/
def writeCount (bytes_per_pixel bytes_per_line : Int)
    (roiLeft roiTop roiWidth roiHeight kernelWidth kernelHeight : Int) (r c : Int) : Nat :=
  (interiorPixels bytes_per_pixel bytes_per_line roiLeft roiTop roiWidth roiHeight
      kernelWidth kernelHeight
    ++ remainPixels roiLeft roiTop roiWidth roiHeight kernelWidth kernelHeight).count (r, c)

/-! ## Shapes and rasters used in the statements -/

/-- The scan lines as the specification describes them: a top band and a
bottom band of `⌊kernelHeight/2⌋ + 1` full-width rows each and, for every row
in between, a left and a right segment of `⌊kernelWidth/2⌋ + 1` columns each. -/
def symmetricScanLines (roiLeft roiTop : Int) (W H kW kH : Nat) : List ScanLine :=
  ((List.range (kH / 2 + 1)).map fun (i : Nat) =>
    ({ y := roiTop + (i : Int), x0 := roiLeft, x1 := roiLeft + W - 1 } : ScanLine))
  ++ ((List.range (H - 2 * (kH / 2 + 1))).flatMap fun (i : Nat) =>
    [({ y := roiTop + ((kH / 2 + 1 + i : Nat) : Int), x0 := roiLeft
        x1 := roiLeft + ((kW / 2 : Nat) : Int) } : ScanLine),
     ({ y := roiTop + ((kH / 2 + 1 + i : Nat) : Int)
        x0 := roiLeft + W - ((kW / 2 + 1 : Nat) : Int), x1 := roiLeft + W - 1 } : ScanLine)])
  ++ ((List.range (kH / 2 + 1)).map fun (i : Nat) =>
    ({ y := roiTop + H - ((kH / 2 + 1 : Nat) : Int) + (i : Int), x0 := roiLeft
       x1 := roiLeft + W - 1 } : ScanLine))

/-- A 1-byte raster whose first byte is 10 and whose other bytes are 20. -/
def twoPixelRaster : Int → Nat := fun i => if i = 0 then 10 else 20

/-- A 1-byte raster of constant value 200. -/
def uniformRaster : Int → Nat := fun _ => 200

/-- Modelled from the spec: position, counted from the least significant bit,
of the bit of column `n` inside its 32-bit word (the bit `dataBitMask n`
selects); the bit macros are not part of the sources. -/
def dataBitIndex (n : Int) : Nat :=
  31 - (n % 32).toNat

/-- A 1-byte raster of value 200 everywhere except byte 55, which is 0: with
`bytes_per_line = 10` and the ROI at the origin, the pixel in column 5 of
row 5. -/
def spikeRaster : Int → Nat := fun i => if i = 55 then 0 else 200

/-- Position `(row, column)` of a bit write. -/
def BitWrite.pos (w : BitWrite) : Int × Int := (w.row, w.dstPixel)

/-! ## Recurrences of the reference sums -/

theorem cumSum_zero_zero (a : Nat → Nat → ℚ) : cumSum a 0 0 = a 0 0 := by
  simp [cumSum]

theorem cumSum_succ_zero (a : Nat → Nat → ℚ) (x : Nat) :
    cumSum a (x + 1) 0 = cumSum a x 0 + a (x + 1) 0 := by
  simp [cumSum, Finset.sum_range_succ]

theorem cumSum_zero_succ (a : Nat → Nat → ℚ) (y : Nat) :
    cumSum a 0 (y + 1) = cumSum a 0 y + a 0 (y + 1) := by
  simp [cumSum, Finset.sum_range_succ]

theorem cumSum_succ_succ (a : Nat → Nat → ℚ) (x y : Nat) :
    cumSum a (x + 1) (y + 1)
      = cumSum a x (y + 1) + cumSum a (x + 1) y - cumSum a x y + a (x + 1) (y + 1) := by
  simp only [cumSum]
  rw [Finset.sum_range_succ (fun j => ∑ i ∈ Finset.range (x + 1 + 1), a i j),
    Finset.sum_range_succ (fun j => ∑ i ∈ Finset.range (x + 1), a i j)]
  have h : ∀ j, ∑ i ∈ Finset.range (x + 1 + 1), a i j
      = ∑ i ∈ Finset.range (x + 1), a i j + a (x + 1) j := fun j => Finset.sum_range_succ _ _
  simp only [h, Finset.sum_add_distrib]
  ring

/-- Row-major indices of two cells of a table of width `W` agree only for the
same cell. -/
theorem index_inj (W : Int) (x y x' y' : Nat) (hx : (x : Int) < W) (hx' : (x' : Int) < W)
    (h : (y : Int) * W + x = (y' : Int) * W + x') : y = y' ∧ x = x' := by
  have hW : 0 < W := by omega
  rcases Nat.lt_trichotomy y y' with hlt | heq | hgt
  · exfalso
    have h1 : (y : Int) + 1 ≤ y' := by exact_mod_cast hlt
    have h2 : ((y : Int) + 1) * W ≤ (y' : Int) * W := Int.mul_le_mul_of_nonneg_right h1 hW.le
    have h3 : (0 : Int) ≤ x' := Int.ofNat_nonneg _
    nlinarith
  · subst heq
    refine ⟨rfl, ?_⟩
    have : (x : Int) = x' := by linarith
    exact_mod_cast this
  · exfalso
    have h1 : (y' : Int) + 1 ≤ y := by exact_mod_cast hgt
    have h2 : ((y' : Int) + 1) * W ≤ (y : Int) * W := Int.mul_le_mul_of_nonneg_right h1 hW.le
    have h3 : (0 : Int) ≤ x := Int.ofNat_nonneg _
    nlinarith

/-! ## The three passes, for any loop that follows the recurrence

`f` is a loop body, `idx` reads its destination index and `tab` the table it
fills; `a` gives the value each cell adds. -/

section Passes
variable {σ : Type} (f : σ → σ) (idx : σ → Int) (tab : σ → Int → ℚ) (a : Nat → Nat → ℚ)
variable (W : Int)

theorem line_pass (s0 : σ) (hd : idx s0 = 1) (h0 : tab s0 0 = a 0 0)
    (hidx : ∀ s, idx (f s) = idx s + 1)
    (htab : ∀ n, tab (f (f^[n] s0)) = Function.update (tab (f^[n] s0)) (idx (f^[n] s0))
        (tab (f^[n] s0) (idx (f^[n] s0) - 1) + a (n + 1) 0))
    (n : Nat) :
    idx (f^[n] s0) = 1 + n ∧ ∀ k : Nat, k ≤ n → tab (f^[n] s0) k = cumSum a k 0 := by
  induction n with
  | zero =>
    refine ⟨by simpa using hd, ?_⟩
    intro k hk
    have : k = 0 := by omega
    subst this
    simpa [cumSum_zero_zero] using h0
  | succ n ih =>
    obtain ⟨h1, h3⟩ := ih
    have ht := htab n
    rw [Function.iterate_succ_apply']
    generalize f^[n] s0 = s at h1 h3 ht
    refine ⟨?_, ?_⟩
    · rw [hidx, h1]; push_cast; ring
    · intro k hk
      rw [ht, h1]
      by_cases hkn : k = n + 1
      · subst hkn
        have e1 : ((n + 1 : Nat) : Int) = 1 + (n : Int) := by push_cast; ring
        rw [e1, Function.update_same]
        have e2 : (1 + (n : Int) - 1) = (n : Int) := by ring
        rw [e2, h3 n le_rfl, cumSum_succ_zero]
      · have hne : (k : Int) ≠ 1 + (n : Int) := by omega
        rw [Function.update_noteq hne]
        exact h3 k (by omega)

theorem column_pass (hW : 1 ≤ W) (s0 : σ) (hd : idx s0 = W)
    (hrow : ∀ k : Nat, (k : Int) < W → tab s0 k = cumSum a k 0)
    (hidx : ∀ s, idx (f s) = idx s + W)
    (htab : ∀ n, tab (f (f^[n] s0)) = Function.update (tab (f^[n] s0)) (idx (f^[n] s0))
        (tab (f^[n] s0) (idx (f^[n] s0) - W) + a 0 (n + 1)))
    (m : Nat) :
    idx (f^[m] s0) = (1 + m) * W ∧
      (∀ k : Nat, (k : Int) < W → tab (f^[m] s0) k = cumSum a k 0) ∧
      ∀ j : Nat, j ≤ m → tab (f^[m] s0) (j * W) = cumSum a 0 j := by
  induction m with
  | zero =>
    refine ⟨by simpa using hd, hrow, ?_⟩
    intro j hj
    have : j = 0 := by omega
    subst this
    simpa using hrow 0 (by simpa using hW)
  | succ m ih =>
    obtain ⟨h1, h3, h4⟩ := ih
    have ht := htab m
    rw [Function.iterate_succ_apply']
    generalize f^[m] s0 = s at h1 h3 h4 ht
    have hm : (0 : Int) ≤ m := Int.ofNat_nonneg _
    refine ⟨?_, ?_, ?_⟩
    · rw [hidx, h1]; push_cast; ring
    · intro k hk
      rw [ht, h1]
      have hne : (k : Int) ≠ (1 + (m : Int)) * W := by nlinarith
      rw [Function.update_noteq hne]
      exact h3 k hk
    · intro j hj
      rw [ht, h1]
      by_cases hjm : j = m + 1
      · subst hjm
        have e1 : (((m + 1 : Nat) : Int)) * W = (1 + (m : Int)) * W := by
          push_cast; ring
        rw [e1, Function.update_same]
        have e2 : (1 + (m : Int)) * W - W = (m : Int) * W := by ring
        rw [e2, h4 m le_rfl, cumSum_zero_succ]
      · have hjm2 : j ≤ m := by omega
        have hj1 : (j : Int) + 1 ≤ 1 + m := by omega
        have hne : (j : Int) * W ≠ (1 + (m : Int)) * W := by nlinarith
        rw [Function.update_noteq hne]
        exact h4 j hjm2

theorem inner_pass (Hn y0 : Nat) (hy0 : 1 ≤ y0) (hyH : y0 < Hn) (s0 : σ)
    (hd : idx s0 = y0 * W + 1)
    (hfill : ∀ x y : Nat, (x : Int) < W → y < Hn → (y = 0 ∨ x = 0 ∨ y < y0) →
      tab s0 (y * W + x) = cumSum a x y)
    (hidx : ∀ s, idx (f s) = idx s + 1)
    (htab : ∀ n, tab (f (f^[n] s0)) = Function.update (tab (f^[n] s0)) (idx (f^[n] s0))
        (tab (f^[n] s0) (idx (f^[n] s0) + -1) + tab (f^[n] s0) (idx (f^[n] s0) + -W)
          - tab (f^[n] s0) (idx (f^[n] s0) + (-W - 1)) + a (n + 1) y0))
    (n : Nat) (hn : (n : Int) + 1 ≤ W) :
    idx (f^[n] s0) = y0 * W + 1 + n ∧
    ∀ x y : Nat, (x : Int) < W → y < Hn →
        (y = 0 ∨ x = 0 ∨ y < y0 ∨ (y = y0 ∧ x ≤ n)) →
      tab (f^[n] s0) (y * W + x) = cumSum a x y := by
  induction n with
  | zero =>
    refine ⟨by simpa using hd, ?_⟩
    intro x y hx hyn h
    apply hfill x y hx hyn
    rcases h with h | h | h | ⟨_, h⟩
    · exact Or.inl h
    · exact Or.inr (Or.inl h)
    · exact Or.inr (Or.inr h)
    · exact Or.inr (Or.inl (by omega))
  | succ n ih =>
    have hn1 : (n : Int) + 1 ≤ W := by push_cast at hn; omega
    obtain ⟨h1, h3⟩ := ih hn1
    have ht := htab n
    rw [Function.iterate_succ_apply']
    generalize f^[n] s0 = s at h1 h3 ht
    obtain ⟨y1, rfl⟩ : ∃ y1, y0 = y1 + 1 := ⟨y0 - 1, by omega⟩
    refine ⟨?_, ?_⟩
    · rw [hidx, h1]; push_cast; ring
    · intro x y hx hyn h
      rw [ht, h1]
      have hxn : ((n + 1 : Nat) : Int) < W := by push_cast at hn ⊢; omega
      by_cases hxy : y = y1 + 1 ∧ x = n + 1
      · obtain ⟨rfl, rfl⟩ := hxy
        have e1 : ((y1 + 1 : Nat) : Int) * W + ((n + 1 : Nat) : Int)
            = ((y1 + 1 : Nat) : Int) * W + 1 + n := by push_cast; ring
        rw [e1, Function.update_same]
        have a1 : ((y1 + 1 : Nat) : Int) * W + 1 + n + (-1 : Int)
            = ((y1 + 1 : Nat) : Int) * W + (n : Nat) := by push_cast; ring
        have a2 : ((y1 + 1 : Nat) : Int) * W + 1 + n + (-W)
            = ((y1 : Nat) : Int) * W + ((n + 1 : Nat) : Int) := by push_cast; ring
        have a3 : ((y1 + 1 : Nat) : Int) * W + 1 + n + (-W - 1)
            = ((y1 : Nat) : Int) * W + (n : Nat) := by push_cast; ring
        have hnW : ((n : Nat) : Int) < W := by omega
        rw [a1, a2, a3, h3 n (y1 + 1) hnW hyH (Or.inr (Or.inr (Or.inr ⟨rfl, le_rfl⟩))),
          h3 (n + 1) y1 hxn (by omega) (Or.inr (Or.inr (Or.inl (by omega)))),
          h3 n y1 hnW (by omega) (Or.inr (Or.inr (Or.inl (by omega)))),
          cumSum_succ_succ]
      · have hne : (y : Int) * W + x ≠ ((y1 + 1 : Nat) : Int) * W + 1 + n := by
          intro heq
          apply hxy
          exact index_inj W x y (n + 1) (y1 + 1) hx hxn (by rw [heq]; push_cast; ring)
        rw [Function.update_noteq hne]
        apply h3 x y hx hyn
        rcases h with h | h | h | ⟨h, h'⟩
        · exact Or.inl h
        · exact Or.inr (Or.inl h)
        · exact Or.inr (Or.inr (Or.inl h))
        · refine Or.inr (Or.inr (Or.inr ⟨h, ?_⟩))
          by_contra hc
          exact hxy ⟨h, by omega⟩

end Passes

/-! ## The one-table `CalcIntegral` -/

section OneTable
variable (imagedata : Int → Nat) (bpp bpl roiLeft roiTop roiWidth : Int) (vN : ℚ)

theorem sample_roi (i j : Nat) (p : Int)
    (hp : p = (roiTop + j) * bpl + (roiLeft + i) * bpp) :
    sample imagedata bpp p - vN = normIntensity imagedata bpp bpl roiLeft roiTop vN i j := by
  subst hp; rfl

theorem firstLineStep_pDst (s : IntegralState) :
    (firstLineStep imagedata bpp vN s).pDst = Function.update s.pDst s.dst_index
      (s.pDst (s.dst_index - 1) + (sample imagedata bpp s.image_index - vN)) := rfl

theorem firstColumnStep_pDst (s : IntegralState) :
    (firstColumnStep imagedata bpp bpl roiWidth vN s).pDst = Function.update s.pDst s.dst_index
      (s.pDst (s.dst_index - roiWidth) + (sample imagedata bpp s.image_index - vN)) := rfl

theorem remainsStep_pDst (s : IntegralState) :
    (remainsStep imagedata bpp roiWidth vN s).pDst = Function.update s.pDst s.dst_index
      (s.pDst (s.dst_index + -1) + s.pDst (s.dst_index + -roiWidth)
        - s.pDst (s.dst_index + (-roiWidth - 1))
        + (sample imagedata bpp s.image_index - vN)) := rfl

theorem firstLineStep_image_index (s0 : IntegralState) (n : Nat) :
    ((firstLineStep imagedata bpp vN)^[n] s0).image_index = s0.image_index + n * bpp := by
  induction n with
  | zero => simp
  | succ n ih =>
    rw [Function.iterate_succ_apply']
    show ((firstLineStep imagedata bpp vN)^[n] s0).image_index + bpp = _
    rw [ih]; push_cast; ring

theorem firstColumnStep_image_index (s0 : IntegralState) (n : Nat) :
    ((firstColumnStep imagedata bpp bpl roiWidth vN)^[n] s0).image_index
      = s0.image_index + n * bpl := by
  induction n with
  | zero => simp
  | succ n ih =>
    rw [Function.iterate_succ_apply']
    show ((firstColumnStep imagedata bpp bpl roiWidth vN)^[n] s0).image_index + bpl = _
    rw [ih]; push_cast; ring

theorem remainsStep_image_index (s0 : IntegralState) (n : Nat) :
    ((remainsStep imagedata bpp roiWidth vN)^[n] s0).image_index = s0.image_index + n * bpp := by
  induction n with
  | zero => simp
  | succ n ih =>
    rw [Function.iterate_succ_apply']
    show ((remainsStep imagedata bpp roiWidth vN)^[n] s0).image_index + bpp = _
    rw [ih]; push_cast; ring

theorem firstLineStep_rec (s0 : IntegralState)
    (hi : s0.image_index = roiTop * bpl + roiLeft * bpp + bpp) (k : Nat) :
    (firstLineStep imagedata bpp vN ((firstLineStep imagedata bpp vN)^[k] s0)).pDst
      = Function.update ((firstLineStep imagedata bpp vN)^[k] s0).pDst
        ((firstLineStep imagedata bpp vN)^[k] s0).dst_index
        (((firstLineStep imagedata bpp vN)^[k] s0).pDst
            (((firstLineStep imagedata bpp vN)^[k] s0).dst_index - 1)
          + normIntensity imagedata bpp bpl roiLeft roiTop vN (k + 1) 0) := by
  rw [firstLineStep_pDst, sample_roi imagedata bpp bpl roiLeft roiTop vN (k + 1) 0
    ((firstLineStep imagedata bpp vN)^[k] s0).image_index
    (by rw [firstLineStep_image_index, hi]; push_cast; ring)]

theorem firstColumnStep_rec (s0 : IntegralState)
    (hi : s0.image_index = (roiTop + 1) * bpl + roiLeft * bpp) (k : Nat) :
    (firstColumnStep imagedata bpp bpl roiWidth vN
        ((firstColumnStep imagedata bpp bpl roiWidth vN)^[k] s0)).pDst
      = Function.update ((firstColumnStep imagedata bpp bpl roiWidth vN)^[k] s0).pDst
        ((firstColumnStep imagedata bpp bpl roiWidth vN)^[k] s0).dst_index
        (((firstColumnStep imagedata bpp bpl roiWidth vN)^[k] s0).pDst
            (((firstColumnStep imagedata bpp bpl roiWidth vN)^[k] s0).dst_index - roiWidth)
          + normIntensity imagedata bpp bpl roiLeft roiTop vN 0 (k + 1)) := by
  rw [firstColumnStep_pDst, sample_roi imagedata bpp bpl roiLeft roiTop vN 0 (k + 1)
    ((firstColumnStep imagedata bpp bpl roiWidth vN)^[k] s0).image_index
    (by rw [firstColumnStep_image_index, hi]; push_cast; ring)]

theorem remainsStep_rec (y0 : Nat) (s0 : IntegralState)
    (hi : s0.image_index = (roiTop + y0) * bpl + (roiLeft + 1) * bpp) (k : Nat) :
    (remainsStep imagedata bpp roiWidth vN ((remainsStep imagedata bpp roiWidth vN)^[k] s0)).pDst
      = Function.update ((remainsStep imagedata bpp roiWidth vN)^[k] s0).pDst
        ((remainsStep imagedata bpp roiWidth vN)^[k] s0).dst_index
        (((remainsStep imagedata bpp roiWidth vN)^[k] s0).pDst
            (((remainsStep imagedata bpp roiWidth vN)^[k] s0).dst_index + -1)
          + ((remainsStep imagedata bpp roiWidth vN)^[k] s0).pDst
            (((remainsStep imagedata bpp roiWidth vN)^[k] s0).dst_index + -roiWidth)
          - ((remainsStep imagedata bpp roiWidth vN)^[k] s0).pDst
            (((remainsStep imagedata bpp roiWidth vN)^[k] s0).dst_index + (-roiWidth - 1))
          + normIntensity imagedata bpp bpl roiLeft roiTop vN (k + 1) y0) := by
  rw [remainsStep_pDst, sample_roi imagedata bpp bpl roiLeft roiTop vN (k + 1) y0
    ((remainsStep imagedata bpp roiWidth vN)^[k] s0).image_index
    (by rw [remainsStep_image_index, hi]; push_cast; ring)]

theorem remainsRows_fill (hW : 1 ≤ roiWidth) (Hn n : Nat) :
    ∀ (y0 : Nat) (_ : 1 ≤ y0) (_ : y0 + n ≤ Hn) (P : Int → ℚ),
      (∀ x y : Nat, (x : Int) < roiWidth → y < Hn → (y = 0 ∨ x = 0 ∨ y < y0) →
        P (y * roiWidth + x) = cumSum (normIntensity imagedata bpp bpl roiLeft roiTop vN) x y) →
      ∀ x y : Nat, (x : Int) < roiWidth → y < y0 + n →
        remainsRows imagedata bpp bpl roiLeft roiTop roiWidth vN n y0 P (y * roiWidth + x)
          = cumSum (normIntensity imagedata bpp bpl roiLeft roiTop vN) x y := by
  induction n with
  | zero =>
    intro y0 _ hH P hfill x y hx hy
    exact hfill x y hx (by omega) (Or.inr (Or.inr (by omega)))
  | succ n ih =>
    intro y0 hy0 hH P hfill x y hx hy
    show remainsRows imagedata bpp bpl roiLeft roiTop roiWidth vN n ((y0 : Int) + 1) _ _ = _
    have hinner := inner_pass (remainsStep imagedata bpp roiWidth vN)
      IntegralState.dst_index IntegralState.pDst
      (normIntensity imagedata bpp bpl roiLeft roiTop vN) roiWidth Hn y0 hy0 (by omega)
      { dst_index := (y0 : Int) * roiWidth + 1
        image_index := (roiTop + y0) * bpl + (roiLeft + 1) * bpp, pDst := P }
      rfl hfill (fun _ => rfl)
      (remainsStep_rec imagedata bpp bpl roiLeft roiTop roiWidth vN y0 _ rfl)
      (roiWidth - 1).toNat (by omega)
    obtain ⟨-, h3⟩ := hinner
    have e : ((y0 : Int) + 1) = ((y0 + 1 : Nat) : Int) := by push_cast; ring
    rw [e]
    apply ih (y0 + 1) (by omega) (by omega) _ _ x y hx (by omega)
    intro x' y' hx' hy' h
    apply h3 x' y' hx' hy'
    rcases h with h | h | h
    · exact Or.inl h
    · exact Or.inr (Or.inl h)
    · by_cases hlt : y' < y0
      · exact Or.inr (Or.inr (Or.inl hlt))
      · exact Or.inr (Or.inr (Or.inr ⟨by omega, by omega⟩))

/-- Every cell of the table built by the one-table `CalcIntegral` is the
cumulative sum of the normalised intensities. -/
theorem CalcIntegral_cell (hbpp : bpp = 1 ∨ bpp = 3 ∨ bpp = 4)
    (roiHeight : Int) (hW : 1 ≤ roiWidth) (integral : Int → ℚ)
    (x y : Nat) (hx : (x : Int) < roiWidth) (hy : (y : Int) < roiHeight) :
    CalcIntegral imagedata bpp bpl roiLeft roiTop roiWidth roiHeight vN integral
        (y * roiWidth + x)
      = cumSum (normIntensity imagedata bpp bpl roiLeft roiTop vN) x y := by
  unfold CalcIntegral
  simp only [if_pos hbpp]
  have hyn : y < 1 + (roiHeight - 1).toNat := by omega
  refine remainsRows_fill imagedata bpp bpl roiLeft roiTop roiWidth vN hW
    (1 + (roiHeight - 1).toNat) (roiHeight - 1).toNat 1 le_rfl le_rfl _ ?_ x y hx hyn
  intro x' y' hx' hy' h
  have hline := line_pass (firstLineStep imagedata bpp vN)
    IntegralState.dst_index IntegralState.pDst
    (normIntensity imagedata bpp bpl roiLeft roiTop vN)
    { dst_index := 0 + 1, image_index := roiTop * bpl + roiLeft * bpp + bpp
      pDst := Function.update integral 0 (sample imagedata bpp (roiTop * bpl + roiLeft * bpp) - vN) }
    (by simp)
    (by
      show Function.update integral 0 _ 0 = _
      rw [Function.update_same]
      exact sample_roi imagedata bpp bpl roiLeft roiTop vN 0 0 _ (by push_cast; ring))
    (fun _ => rfl)
    (firstLineStep_rec imagedata bpp bpl roiLeft roiTop vN _ rfl)
    (roiWidth - 1).toNat
  obtain ⟨-, hl3⟩ := hline
  have hcol := column_pass (firstColumnStep imagedata bpp bpl roiWidth vN)
    IntegralState.dst_index IntegralState.pDst
    (normIntensity imagedata bpp bpl roiLeft roiTop vN) roiWidth hW
    { dst_index := 0 + roiWidth, image_index := (roiTop + 1) * bpl + roiLeft * bpp
      pDst := ((firstLineStep imagedata bpp vN)^[(roiWidth - 1).toNat]
        { dst_index := 0 + 1, image_index := roiTop * bpl + roiLeft * bpp + bpp
          pDst := Function.update integral 0
            (sample imagedata bpp (roiTop * bpl + roiLeft * bpp) - vN) }).pDst }
    (by simp) (fun k hk => hl3 k (by omega)) (fun _ => rfl)
    (firstColumnStep_rec imagedata bpp bpl roiLeft roiTop roiWidth vN _ rfl)
    (roiHeight - 1).toNat
  obtain ⟨-, hc3, hc4⟩ := hcol
  rcases h with h | h | h
  · subst h
    simpa using hc3 x' hx'
  · subst h
    simpa using hc4 y' (by omega)
  · have : y' = 0 := by omega
    subst this
    simpa using hc3 x' hx'

end OneTable

/-! ## The two-table `CalcIntegral` -/

theorem cumSum_const (c : ℚ) (x y : Nat) :
    cumSum (fun _ _ => c) x y = ((x : ℚ) + 1) * ((y : ℚ) + 1) * c := by
  simp [cumSum]
  ring

section TwoTable
variable (imagedata : Int → Nat) (bpp bpl roiLeft roiTop roiWidth off : Int) (vN sqrV : ℚ)

theorem firstLineStep2_pVar (s : IntegralState2) :
    (firstLineStep2 imagedata bpp off vN sqrV s).pVar = Function.update s.pVar s.dst_index
      (s.pVar (s.dst_index - 1)
        + (sample imagedata bpp off * sample imagedata bpp off - sqrV)) := by
  show Function.update _ _ _ = _
  rw [add_sub_assoc]

theorem remainsRows2_fill (hW : 1 ≤ roiWidth) (Hn n : Nat) :
    ∀ (y0 : Nat) (_ : 1 ≤ y0) (_ : y0 + n ≤ Hn) (T : (Int → ℚ) × (Int → ℚ)),
      (∀ x y : Nat, (x : Int) < roiWidth → y < Hn → (y = 0 ∨ x = 0 ∨ y < y0) →
        T.1 (y * roiWidth + x) = cumSum (fun _ _ => sample imagedata bpp off - vN) x y) →
      (∀ x y : Nat, (x : Int) < roiWidth → y < Hn → (y = 0 ∨ x = 0 ∨ y < y0) →
        T.2 (y * roiWidth + x)
          = cumSum (fun _ _ => sample imagedata bpp off * sample imagedata bpp off - sqrV) x y) →
      ∀ x y : Nat, (x : Int) < roiWidth → y < y0 + n →
        (remainsRows2 imagedata bpp bpl roiLeft roiTop roiWidth off vN sqrV n y0 T).1
            (y * roiWidth + x)
          = cumSum (fun _ _ => sample imagedata bpp off - vN) x y ∧
        (remainsRows2 imagedata bpp bpl roiLeft roiTop roiWidth off vN sqrV n y0 T).2
            (y * roiWidth + x)
          = cumSum (fun _ _ => sample imagedata bpp off * sample imagedata bpp off - sqrV) x y := by
  induction n with
  | zero =>
    intro y0 _ hH T hf1 hf2 x y hx hy
    exact ⟨hf1 x y hx (by omega) (Or.inr (Or.inr (by omega))),
      hf2 x y hx (by omega) (Or.inr (Or.inr (by omega)))⟩
  | succ n ih =>
    intro y0 hy0 hH T hf1 hf2 x y hx hy
    show (remainsRows2 imagedata bpp bpl roiLeft roiTop roiWidth off vN sqrV n
        ((y0 : Int) + 1) _).1 _ = _ ∧
      (remainsRows2 imagedata bpp bpl roiLeft roiTop roiWidth off vN sqrV n
        ((y0 : Int) + 1) _).2 _ = _
    have hin1 := inner_pass (remainsStep2 imagedata bpp roiWidth off vN sqrV)
      IntegralState2.dst_index IntegralState2.pDst
      (fun _ _ => sample imagedata bpp off - vN) roiWidth Hn y0 hy0 (by omega)
      { dst_index := (y0 : Int) * roiWidth + 1
        image_index := (roiTop + y0) * bpl + (roiLeft + 1) * bpp, pDst := T.1, pVar := T.2 }
      rfl hf1 (fun _ => rfl) (fun _ => rfl) (roiWidth - 1).toNat (by omega)
    have hin2 := inner_pass (remainsStep2 imagedata bpp roiWidth off vN sqrV)
      IntegralState2.dst_index IntegralState2.pVar
      (fun _ _ => sample imagedata bpp off * sample imagedata bpp off - sqrV)
      roiWidth Hn y0 hy0 (by omega)
      { dst_index := (y0 : Int) * roiWidth + 1
        image_index := (roiTop + y0) * bpl + (roiLeft + 1) * bpp, pDst := T.1, pVar := T.2 }
      rfl hf2 (fun _ => rfl) (fun _ => rfl) (roiWidth - 1).toNat (by omega)
    obtain ⟨-, h31⟩ := hin1
    obtain ⟨-, h32⟩ := hin2
    have e : ((y0 : Int) + 1) = ((y0 + 1 : Nat) : Int) := by push_cast; ring
    rw [e]
    have hcase : ∀ x' y' : Nat, (y' = 0 ∨ x' = 0 ∨ y' < y0 + 1) →
        (y' = 0 ∨ x' = 0 ∨ y' < y0 ∨ (y' = y0 ∧ x' ≤ (roiWidth - 1).toNat)) ∨
          ¬ ((x' : Int) < roiWidth) := by
      intro x' y' h
      by_cases hx' : (x' : Int) < roiWidth
      · left
        rcases h with h | h | h
        · exact Or.inl h
        · exact Or.inr (Or.inl h)
        · by_cases hlt : y' < y0
          · exact Or.inr (Or.inr (Or.inl hlt))
          · exact Or.inr (Or.inr (Or.inr ⟨by omega, by omega⟩))
      · exact Or.inr hx'
    apply ih (y0 + 1) (by omega) (by omega) _ _ _ x y hx (by omega)
    · intro x' y' hx' hy' h
      rcases hcase x' y' h with h' | h'
      · exact h31 x' y' hx' hy' h'
      · exact absurd hx' h'
    · intro x' y' hx' hy' h
      rcases hcase x' y' h with h' | h'
      · exact h32 x' y' hx' hy' h'
      · exact absurd hx' h'

/-- Every cell of both tables built by the two-table `CalcIntegral` is a
cumulative sum in which each pixel contributes the value sampled at
`image_offset`, the first pixel of the ROI. -/
theorem CalcIntegral2_cell (hbpp : bpp = 1 ∨ bpp = 3 ∨ bpp = 4)
    (roiHeight : Int) (hW : 1 ≤ roiWidth) (integral varIntegral : Int → ℚ)
    (x y : Nat) (hx : (x : Int) < roiWidth) (hy : (y : Int) < roiHeight) :
    (CalcIntegral2 imagedata bpp bpl roiLeft roiTop roiWidth roiHeight vN integral varIntegral).1
        (y * roiWidth + x)
      = cumSum (fun _ _ => sample imagedata bpp (roiTop * bpl + roiLeft * bpp) - vN) x y ∧
    (CalcIntegral2 imagedata bpp bpl roiLeft roiTop roiWidth roiHeight vN integral varIntegral).2
        (y * roiWidth + x)
      = cumSum (fun _ _ => sample imagedata bpp (roiTop * bpl + roiLeft * bpp)
          * sample imagedata bpp (roiTop * bpl + roiLeft * bpp) - vN * vN) x y := by
  unfold CalcIntegral2
  simp only [if_pos hbpp]
  have hyn : y < 1 + (roiHeight - 1).toNat := by omega
  generalize hoff : roiTop * bpl + roiLeft * bpp = off
  generalize hs0 : IntegralState2.mk (0 + 1) (off + bpp)
      (Function.update integral 0 (sample imagedata bpp off - vN))
      (Function.update varIntegral 0
        (sample imagedata bpp off * sample imagedata bpp off - vN * vN)) = s0
  have hd0 : s0.dst_index = 1 := by rw [← hs0]; simp
  have h01 : s0.pDst 0 = sample imagedata bpp off - vN := by
    subst hs0; exact Function.update_same (0 : Int) _ integral
  have h02 : s0.pVar 0 = sample imagedata bpp off * sample imagedata bpp off - vN * vN := by
    subst hs0; exact Function.update_same (0 : Int) _ varIntegral
  have hl1 := (line_pass (firstLineStep2 imagedata bpp off vN (vN * vN))
    IntegralState2.dst_index IntegralState2.pDst (fun _ _ => sample imagedata bpp off - vN)
    s0 hd0 h01 (fun _ => rfl) (fun _ => rfl) (roiWidth - 1).toNat).2
  have hl2 := (line_pass (firstLineStep2 imagedata bpp off vN (vN * vN))
    IntegralState2.dst_index IntegralState2.pVar
    (fun _ _ => sample imagedata bpp off * sample imagedata bpp off - vN * vN)
    s0 hd0 h02 (fun _ => rfl)
    (fun _ => firstLineStep2_pVar imagedata bpp off vN (vN * vN) _) (roiWidth - 1).toNat).2
  generalize (firstLineStep2 imagedata bpp off vN (vN * vN))^[(roiWidth - 1).toNat] s0 = s1
    at hl1 hl2
  generalize hs2 : IntegralState2.mk (0 + roiWidth) ((roiTop + 1) * bpl + roiLeft * bpp)
      s1.pDst s1.pVar = s2
  have hd2 : s2.dst_index = roiWidth := by rw [← hs2]; simp
  have hc1 := (column_pass (firstColumnStep2 imagedata bpp bpl roiWidth off vN (vN * vN))
    IntegralState2.dst_index IntegralState2.pDst (fun _ _ => sample imagedata bpp off - vN)
    roiWidth hW s2 hd2 (fun k hk => by rw [← hs2]; exact hl1 k (by omega))
    (fun _ => rfl) (fun _ => rfl) (roiHeight - 1).toNat).2
  have hc2 := (column_pass (firstColumnStep2 imagedata bpp bpl roiWidth off vN (vN * vN))
    IntegralState2.dst_index IntegralState2.pVar
    (fun _ _ => sample imagedata bpp off * sample imagedata bpp off - vN * vN)
    roiWidth hW s2 hd2 (fun k hk => by rw [← hs2]; exact hl2 k (by omega))
    (fun _ => rfl) (fun _ => rfl) (roiHeight - 1).toNat).2
  generalize (firstColumnStep2 imagedata bpp bpl roiWidth off vN
    (vN * vN))^[(roiHeight - 1).toNat] s2 = s3 at hc1 hc2
  refine remainsRows2_fill imagedata bpp bpl roiLeft roiTop roiWidth off vN (vN * vN) hW
    (1 + (roiHeight - 1).toNat) (roiHeight - 1).toNat 1 le_rfl le_rfl _ ?_ ?_ x y hx hyn
  · intro x' y' hx' hy' h
    rcases h with h | h | h
    · subst h
      simpa using hc1.1 x' hx'
    · subst h
      simpa using hc1.2 y' (by omega)
    · have : y' = 0 := by omega
      subst this
      simpa using hc1.1 x' hx'
  · intro x' y' hx' hy' h
    rcases h with h | h | h
    · subst h
      simpa using hc2.1 x' hx'
    · subst h
      simpa using hc2.2 y' (by omega)
    · have : y' = 0 := by omega
      subst this
      simpa using hc2.1 x' hx'

end TwoTable

/-! ## The interior sweep as a list -/

theorem sweepRow_eq (bpp row : Int) (n : Nat) :
    ∀ x integral_index image_index dstPixel : Int,
      sweepRow bpp row n x integral_index image_index dstPixel
        = (List.range n).map fun i : Nat =>
            ({ row := row, x := x + i, integral_index := integral_index + i
               image_index := image_index + i * bpp, dstPixel := dstPixel + i } : SweepPos) := by
  induction n with
  | zero => intro x ii im d; rfl
  | succ n ih =>
    intro x ii im d
    rw [sweepRow, ih, List.range_succ_eq_map, List.map_cons, List.map_map]
    congr 1
    · simp
    · apply List.map_congr_left
      intro i _
      simp only [Function.comp, Nat.succ_eq_add_one]
      congr 1 <;> (push_cast; ring)

/-- The iterations of the interior sweep: window row `1 + j`, window column
`1 + i`, for `j < roiHeight - kernelHeight - 1` and
`i < roiWidth - kernelWidth - 1`. -/
theorem mem_interiorSweep (bpp bpl roiLeft roiTop roiWidth roiHeight kW kH : Int)
    (p : SweepPos) :
    p ∈ interiorSweep bpp bpl roiLeft roiTop roiWidth roiHeight kW kH ↔
      ∃ j i : Nat, (j : Int) < roiHeight - kH - 1 ∧ (i : Int) < roiWidth - kW - 1 ∧
        p = { row := 1 + (j : Int) + (kH >>> (1 : Nat))
              x := roiLeft + 1 + i
              integral_index := (1 + (j : Int)) * roiWidth + 1 + i
              image_index := (roiTop + (1 + (j : Int)) + (kH >>> (1 : Nat))) * bpl
                + (roiLeft + (1 + (i : Int)) + (kW >>> (1 : Nat))) * bpp
              dstPixel := 1 + (i : Int) + (kW >>> (1 : Nat)) } := by
  unfold interiorSweep
  simp only [List.mem_flatMap, List.mem_range, sweepRow_eq, List.mem_map]
  constructor
  · rintro ⟨j, hj, i, hi, rfl⟩
    refine ⟨j, i, by omega, by omega, ?_⟩
    congr 1 <;> ring
  · rintro ⟨j, i, hj, hi, rfl⟩
    refine ⟨j, by omega, i, by omega, ?_⟩
    congr 1 <;> ring

/-! ## The four-corner difference -/

theorem cumSum_rect (a : Nat → Nat → ℚ) (x y w h : Nat) :
    cumSum a (x + w) (y + h) - cumSum a (x + w) y - cumSum a x (y + h) + cumSum a x y
      = rectSum a (x + 1) (y + 1) w h := by
  have hc : ∀ j, ∑ i ∈ Finset.range (x + w + 1), a i j
      = ∑ i ∈ Finset.range (x + 1), a i j + ∑ i ∈ Finset.range w, a (x + 1 + i) j := by
    intro j
    rw [show x + w + 1 = (x + 1) + w by ring, Finset.sum_range_add]
  have hr : ∀ f : Nat → ℚ, ∑ j ∈ Finset.range (y + h + 1), f j
      = ∑ j ∈ Finset.range (y + 1), f j + ∑ j ∈ Finset.range h, f (y + 1 + j) := by
    intro f
    rw [show y + h + 1 = (y + 1) + h by ring, Finset.sum_range_add]
  simp only [cumSum, rectSum, hc, hr, Finset.sum_add_distrib]
  ring

/-- On a table holding cumulative sums, the four-corner expression with the
offsets of `CalcOffsets` is the sum over the `kW × kH` rectangle whose top-left
cell is `(cx, ry)`. -/
theorem cornerSum_of_cumSum (T : Int → ℚ) (a : Nat → Nat → ℚ) (W H : Int)
    (hT : ∀ x y : Nat, (x : Int) < W → (y : Int) < H → T (y * W + x) = cumSum a x y)
    (kW kH cx ry : Nat) (hkW : 1 ≤ kW) (hkH : 1 ≤ kH) (hcx : 1 ≤ cx) (hry : 1 ≤ ry)
    (hx : (cx : Int) + kW ≤ W) (hy : (ry : Int) + kH ≤ H) :
    cornerSum T (CalcOffsets W kW kH) (ry * W + cx) = rectSum a cx ry kW kH := by
  obtain ⟨x, rfl⟩ : ∃ x, cx = x + 1 := ⟨cx - 1, by omega⟩
  obtain ⟨y, rfl⟩ : ∃ y, ry = y + 1 := ⟨ry - 1, by omega⟩
  obtain ⟨w, rfl⟩ : ∃ w, kW = w + 1 := ⟨kW - 1, by omega⟩
  obtain ⟨h, rfl⟩ : ∃ h, kH = h + 1 := ⟨kH - 1, by omega⟩
  have e1 : ((y + 1 : Nat) : Int) * W + ((x + 1 : Nat) : Int)
      + ((((h + 1 : Nat) : Int) - 1) * W + ((w + 1 : Nat) : Int) - 1)
      = ((y + 1 + h : Nat) : Int) * W + ((x + 1 + w : Nat) : Int) := by push_cast; ring
  have e2 : ((y + 1 : Nat) : Int) * W + ((x + 1 : Nat) : Int)
      + (-W + ((w + 1 : Nat) : Int) - 1)
      = ((y : Nat) : Int) * W + ((x + 1 + w : Nat) : Int) := by push_cast; ring
  have e3 : ((y + 1 : Nat) : Int) * W + ((x + 1 : Nat) : Int)
      + ((((h + 1 : Nat) : Int) - 1) * W - 1)
      = ((y + 1 + h : Nat) : Int) * W + ((x : Nat) : Int) := by push_cast; ring
  have e4 : ((y + 1 : Nat) : Int) * W + ((x + 1 : Nat) : Int) + (-W - 1)
      = ((y : Nat) : Int) * W + ((x : Nat) : Int) := by push_cast; ring
  have hx' : ((x + 1 + w : Nat) : Int) < W := by push_cast at hx ⊢; omega
  have hy' : ((y + 1 + h : Nat) : Int) < H := by push_cast at hy ⊢; omega
  have hx0 : ((x : Nat) : Int) < W := by push_cast at hx ⊢; omega
  have hy0 : ((y : Nat) : Int) < H := by push_cast at hy ⊢; omega
  simp only [cornerSum, CalcOffsets]
  rw [e1, e2, e3, e4, hT _ _ hx' hy', hT _ _ hx' hy0,
    hT _ _ hx0 hy', hT _ _ hx0 hy0, ← cumSum_rect]
  have c1 : x + 1 + w = x + (w + 1) := by ring
  have c2 : y + 1 + h = y + (h + 1) := by ring
  rw [c1, c2]

theorem shiftRight_one (k : Int) : k >>> (1 : Nat) = k / 2 := by
  rw [Int.shiftRight_eq_div_pow]; norm_num

theorem shiftRight_one_natCast (k : Nat) :
    ((k : Int) >>> (1 : Nat)) = ((k / 2 : Nat) : Int) := by
  rw [shiftRight_one]; norm_cast

/-! ## Claims about the integral image -/

/-- C2: for `bytes_per_pixel` in {1, 3, 4} and every cell `(x, y)` of the ROI
(`0 ≤ x < roiWidth`, `0 ≤ y < roiHeight`), the one-table `CalcIntegral` stores
in `integral[y*roiWidth + x]` the sum of `intensity(i, j) - vNormalize` over all
ROI pixels with `i ≤ x` and `j ≤ y`, in exact arithmetic. -/
theorem CalcIntegral_cumulative_sums (imagedata : Int → Nat)
    (bytes_per_pixel bytes_per_line roiLeft roiTop roiWidth roiHeight : Int)
    (vNormalize : ℚ) (integral : Int → ℚ)
    (hbpp : bytes_per_pixel = 1 ∨ bytes_per_pixel = 3 ∨ bytes_per_pixel = 4)
    (x y : Nat) (hx : (x : Int) < roiWidth) (hy : (y : Int) < roiHeight) :
    CalcIntegral imagedata bytes_per_pixel bytes_per_line roiLeft roiTop roiWidth roiHeight
        vNormalize integral (y * roiWidth + x)
      = ∑ j ∈ Finset.range (y + 1), ∑ i ∈ Finset.range (x + 1),
          (roiIntensity imagedata bytes_per_pixel bytes_per_line roiLeft roiTop i j
            - vNormalize) :=
  CalcIntegral_cell imagedata bytes_per_pixel bytes_per_line roiLeft roiTop roiWidth vNormalize
    hbpp roiHeight (by omega) integral x y hx hy

/-- C2, at a 4×3 ROI of a 3-byte raster, cell `(3, 2)`. -/
theorem CalcIntegral_cumulative_sums_witness :
    CalcIntegral (fun i => (i % 251).toNat) 3 40 2 1 4 3 160 (fun _ => 0)
        (((2 : Nat) : Int) * 4 + ((3 : Nat) : Int))
      = ∑ j ∈ Finset.range (2 + 1), ∑ i ∈ Finset.range (3 + 1),
          (roiIntensity (fun i => (i % 251).toNat) 3 40 2 1 i j - 160) :=
  CalcIntegral_cumulative_sums (fun i => (i % 251).toNat) 3 40 2 1 4 3 160 (fun _ => 0)
    (Or.inr (Or.inl rfl)) 3 2 (by decide) (by decide)

/-- C3: on the table of the one-table `CalcIntegral`, at an interior index
`idx = ry*roiWidth + cx` (`1 ≤ ry ≤ roiHeight-kH-1`, `1 ≤ cx ≤ roiWidth-kW-1`)
the four-corner value with the offsets of `CalcOffsets` is the naive double sum
of `intensity - vNormalize` over columns `cx..cx+kW-1` and rows `ry..ry+kH-1`;
that rectangle contains the pixel `(cx + kW/2, ry + kH/2)`, and this is the
pixel the sweep samples and writes at the iteration that uses `idx`. -/
theorem cornerSum_CalcIntegral_eq_rectSum (imagedata : Int → Nat)
    (bytes_per_pixel bytes_per_line roiLeft roiTop roiWidth roiHeight : Int)
    (vNormalize : ℚ) (integral : Int → ℚ) (kW kH cx ry : Nat)
    (hbpp : bytes_per_pixel = 1 ∨ bytes_per_pixel = 3 ∨ bytes_per_pixel = 4)
    (hkW : 1 ≤ kW) (hkH : 1 ≤ kH)
    (hry1 : 1 ≤ ry) (hry2 : (ry : Int) ≤ roiHeight - kH - 1)
    (hcx1 : 1 ≤ cx) (hcx2 : (cx : Int) ≤ roiWidth - kW - 1) :
    (let I := CalcIntegral imagedata bytes_per_pixel bytes_per_line roiLeft roiTop roiWidth
        roiHeight vNormalize integral
     let o := CalcOffsets roiWidth kW kH
     let idx : Int := ry * roiWidth + cx
     I (idx + o.offsetBR) - I (idx + o.offsetT_1R) - I (idx + o.offsetB_L_1)
        + I (idx + o.offsetT_1L_1)
      = ∑ j ∈ Finset.range kH, ∑ i ∈ Finset.range kW,
          (roiIntensity imagedata bytes_per_pixel bytes_per_line roiLeft roiTop (cx + i) (ry + j)
            - vNormalize)) ∧
    (cx ≤ cx + kW / 2 ∧ cx + kW / 2 ≤ cx + kW - 1) ∧
    (ry ≤ ry + kH / 2 ∧ ry + kH / 2 ≤ ry + kH - 1) ∧
    (∃ p ∈ interiorSweep bytes_per_pixel bytes_per_line roiLeft roiTop roiWidth roiHeight kW kH,
      p.integral_index = ry * roiWidth + cx) ∧
    ∀ p ∈ interiorSweep bytes_per_pixel bytes_per_line roiLeft roiTop roiWidth roiHeight kW kH,
      p.integral_index = ry * roiWidth + cx →
        p.row = ((ry + kH / 2 : Nat) : Int) ∧ p.dstPixel = ((cx + kW / 2 : Nat) : Int) ∧
        p.image_index = (roiTop + ((ry + kH / 2 : Nat) : Int)) * bytes_per_line
          + (roiLeft + ((cx + kW / 2 : Nat) : Int)) * bytes_per_pixel := by
  refine ⟨?_, ⟨by omega, by omega⟩, ⟨by omega, by omega⟩, ?_, ?_⟩
  · have h := cornerSum_of_cumSum
      (CalcIntegral imagedata bytes_per_pixel bytes_per_line roiLeft roiTop roiWidth roiHeight
        vNormalize integral)
      (normIntensity imagedata bytes_per_pixel bytes_per_line roiLeft roiTop vNormalize)
      roiWidth roiHeight
      (fun x y hx hy => CalcIntegral_cell imagedata bytes_per_pixel bytes_per_line roiLeft roiTop
        roiWidth vNormalize hbpp roiHeight (by omega) integral x y hx hy)
      kW kH cx ry hkW hkH hcx1 hry1 (by omega) (by omega)
    simpa [cornerSum, rectSum, normIntensity, sub_eq_add_neg, add_assoc] using h
  · obtain ⟨j, rfl⟩ : ∃ j, ry = 1 + j := ⟨ry - 1, by omega⟩
    obtain ⟨i, rfl⟩ : ∃ i, cx = 1 + i := ⟨cx - 1, by omega⟩
    refine ⟨_, (mem_interiorSweep _ _ _ _ _ _ _ _ _).2 ⟨j, i, by omega, by omega, rfl⟩, ?_⟩
    push_cast; ring
  · intro p hp hidx
    rw [mem_interiorSweep] at hp
    obtain ⟨j, i, hj, hi, rfl⟩ := hp
    simp only at hidx
    have e : ((1 + j : Nat) : Int) * roiWidth + ((1 + i : Nat) : Int)
        = (ry : Int) * roiWidth + cx := by rw [← hidx]; push_cast; ring
    obtain ⟨hjr, hic⟩ := index_inj roiWidth (1 + i) (1 + j) cx ry
      (by push_cast; omega) (by omega) e
    subst hjr hic
    simp only [shiftRight_one_natCast]
    refine ⟨by push_cast; ring, by push_cast; ring, by push_cast; ring⟩

/-- C3, at a 10×10 ROI with a 3×3 kernel and the window whose top-left pixel
is `(1, 1)`. -/
theorem cornerSum_CalcIntegral_eq_rectSum_witness :
    (let I := CalcIntegral uniformRaster 1 10 0 0 10 10 160 (fun _ => 0)
     let o := CalcOffsets 10 ((3 : Nat) : Int) ((3 : Nat) : Int)
     let idx : Int := ((1 : Nat) : Int) * 10 + ((1 : Nat) : Int)
     I (idx + o.offsetBR) - I (idx + o.offsetT_1R) - I (idx + o.offsetB_L_1)
        + I (idx + o.offsetT_1L_1)
      = ∑ j ∈ Finset.range 3, ∑ i ∈ Finset.range 3,
          (roiIntensity uniformRaster 1 10 0 0 (1 + i) (1 + j) - 160)) ∧
    (1 ≤ 1 + 3 / 2 ∧ 1 + 3 / 2 ≤ 1 + 3 - 1) ∧
    (1 ≤ 1 + 3 / 2 ∧ 1 + 3 / 2 ≤ 1 + 3 - 1) ∧
    (∃ p ∈ interiorSweep 1 10 0 0 10 10 ((3 : Nat) : Int) ((3 : Nat) : Int),
      p.integral_index = ((1 : Nat) : Int) * 10 + ((1 : Nat) : Int)) ∧
    ∀ p ∈ interiorSweep 1 10 0 0 10 10 ((3 : Nat) : Int) ((3 : Nat) : Int),
      p.integral_index = ((1 : Nat) : Int) * 10 + ((1 : Nat) : Int) →
        p.row = ((1 + 3 / 2 : Nat) : Int) ∧ p.dstPixel = ((1 + 3 / 2 : Nat) : Int) ∧
        p.image_index = (0 + ((1 + 3 / 2 : Nat) : Int)) * 10
          + (0 + ((1 + 3 / 2 : Nat) : Int)) * 1 :=
  cornerSum_CalcIntegral_eq_rectSum uniformRaster 1 10 0 0 10 10 160 (fun _ => 0) 3 3 1 1
    (Or.inl rfl) (by decide) (by decide) (by decide) (by decide) (by decide) (by decide)

/-! ## Means from normalised sums -/

theorem rectSum_sub_const (f : Nat → Nat → ℚ) (c : ℚ) (x0 y0 w h : Nat) :
    rectSum (fun i j => f i j - c) x0 y0 w h = rectSum f x0 y0 w h - (w : ℚ) * h * c := by
  simp [rectSum, Finset.sum_sub_distrib]
  ring

theorem cumSum_eq_rectSum (f : Nat → Nat → ℚ) (x y : Nat) :
    cumSum f x y = rectSum f 0 0 (x + 1) (y + 1) := by
  simp [cumSum, rectSum]

theorem rectSum_normIntensity (imagedata : Int → Nat) (bpp bpl roiLeft roiTop : Int) (vN : ℚ)
    (x0 y0 w h : Nat) :
    rectSum (normIntensity imagedata bpp bpl roiLeft roiTop vN) x0 y0 w h
      = rectSum (roiIntensity imagedata bpp bpl roiLeft roiTop) x0 y0 w h - (w : ℚ) * h * vN :=
  rectSum_sub_const _ vN x0 y0 w h

/-- The last cell of the one-table integral holds the normalised sum of the
whole ROI. -/
theorem CalcIntegral_last (imagedata : Int → Nat) (bpp bpl roiLeft roiTop : Int) (vN : ℚ)
    (hbpp : bpp = 1 ∨ bpp = 3 ∨ bpp = 4) (W H : Nat) (hW : 1 ≤ W) (hH : 1 ≤ H)
    (integral : Int → ℚ) :
    CalcIntegral imagedata bpp bpl roiLeft roiTop W H vN integral ((W : Int) * H - 1)
      = rectSum (roiIntensity imagedata bpp bpl roiLeft roiTop) 0 0 W H - (W : ℚ) * H * vN := by
  obtain ⟨w, rfl⟩ : ∃ w, W = w + 1 := ⟨W - 1, by omega⟩
  obtain ⟨h, rfl⟩ : ∃ h, H = h + 1 := ⟨H - 1, by omega⟩
  have e : ((w + 1 : Nat) : Int) * ((h + 1 : Nat) : Int) - 1
      = ((h : Nat) : Int) * ((w + 1 : Nat) : Int) + ((w : Nat) : Int) := by push_cast; ring
  rw [e, CalcIntegral_cell imagedata bpp bpl roiLeft roiTop _ vN hbpp _ (by push_cast; omega)
    integral w h (by push_cast; omega) (by push_cast; omega), cumSum_eq_rectSum,
    rectSum_normIntensity]

/-- The value `integral[roiLength-1] / roiLength + vNormalize` is the mean
intensity of the ROI. -/
theorem CalcIntegral_mean (imagedata : Int → Nat) (bpp bpl roiLeft roiTop : Int) (vN : ℚ)
    (hbpp : bpp = 1 ∨ bpp = 3 ∨ bpp = 4) (W H : Nat) (hW : 1 ≤ W) (hH : 1 ≤ H)
    (integral : Int → ℚ) :
    CalcIntegral imagedata bpp bpl roiLeft roiTop W H vN integral ((W : Int) * H - 1)
        / (((W : Int) * (H : Int) : Int) : ℚ) + vN
      = rectSum (roiIntensity imagedata bpp bpl roiLeft roiTop) 0 0 W H / ((W : ℚ) * H) := by
  rw [CalcIntegral_last imagedata bpp bpl roiLeft roiTop vN hbpp W H hW hH]
  have hWq : (W : ℚ) ≠ 0 := by positivity
  have hHq : (H : ℚ) ≠ 0 := by positivity
  push_cast
  field_simp
  ring

/-- The threshold of the interior loop of `Isodata`, in terms of the mean of
the window and the mean of the ROI. -/
theorem IsodataThreshold_means (imagedata : Int → Nat) (bpp bpl roiLeft roiTop : Int)
    (hbpp : bpp = 1 ∨ bpp = 3 ∨ bpp = 4) (W H kW kH cx ry : Nat)
    (hkW : 1 ≤ kW) (hkH : 1 ≤ kH) (hcx : 1 ≤ cx) (hry : 1 ≤ ry)
    (hx : cx + kW ≤ W) (hy : ry + kH ≤ H) (integral : Int → ℚ) :
    IsodataThreshold (CalcIntegral imagedata bpp bpl roiLeft roiTop W H 160 integral)
        W H kW kH (ry * W + cx)
      = (rectSum (roiIntensity imagedata bpp bpl roiLeft roiTop) cx ry kW kH / ((kW : ℚ) * kH)
          + rectSum (roiIntensity imagedata bpp bpl roiLeft roiTop) 0 0 W H / ((W : ℚ) * H))
        * (1 / 2) := by
  have hcorner := cornerSum_of_cumSum
    (CalcIntegral imagedata bpp bpl roiLeft roiTop W H 160 integral)
    (normIntensity imagedata bpp bpl roiLeft roiTop 160) W H
    (fun x y hx hy => CalcIntegral_cell imagedata bpp bpl roiLeft roiTop W 160 hbpp H
      (by omega) integral x y hx hy)
    kW kH cx ry hkW hkH hcx hry (by exact_mod_cast hx) (by exact_mod_cast hy)
  have hmean := CalcIntegral_mean imagedata bpp bpl roiLeft roiTop 160 hbpp W H
    (by omega) (by omega) integral
  simp only [IsodataThreshold]
  rw [hcorner, rectSum_normIntensity, ← hmean]
  have hkWq : (kW : ℚ) ≠ 0 := by positivity
  have hkHq : (kH : ℚ) ≠ 0 := by positivity
  push_cast
  field_simp
  ring

/-! ## The scan lines of the boundary handler -/

/-- When the kernel is strictly larger than the ROI in one dimension, the whole
ROI is returned, one full-width entry per row. -/
theorem GetRemainScanLines_whole (roiLeft roiTop roiWidth roiHeight kW kH : Int)
    (hbig : roiWidth < kW ∨ roiHeight < kH) :
    GetRemainScanLines roiLeft roiTop roiWidth roiHeight kW kH
      = { n := roiHeight
          entries := (List.range roiHeight.toNat).map fun (i : Nat) =>
            ({ y := roiTop + (i : Int), x0 := roiLeft, x1 := roiLeft + roiWidth - 1 } : ScanLine) } := by
  unfold GetRemainScanLines
  have hw : (decide (roiTop + (kH >>> (1 : Nat)) + 1 - roiTop
      + (roiTop + roiHeight - (roiTop + roiHeight - (kH >>> (1 : Nat)) - 1 + 1))
      + 2 * (roiTop + roiHeight - (kH >>> (1 : Nat)) - 1 - (roiTop + (kH >>> (1 : Nat)) + 1) + 1)
        ≤ 0 ∨ roiWidth < kW ∨ roiHeight < kH)) = true := by
    simp only [decide_eq_true_eq]
    exact Or.inr hbig
  simp only [hw, if_true]
  have e1 : (roiTop + roiHeight - roiTop).toNat = roiHeight.toNat := by congr 1; ring
  have e2 : (roiTop + roiHeight - 1 + 1 - (roiTop + roiHeight)).toNat = 0 := by
    have : roiTop + roiHeight - 1 + 1 - (roiTop + roiHeight) = 0 := by ring
    rw [this]; rfl
  have e3 : (roiTop + roiHeight - (roiTop + roiHeight - 1 + 1)).toNat = 0 := by
    have : roiTop + roiHeight - (roiTop + roiHeight - 1 + 1) = 0 := by ring
    rw [this]; rfl
  rw [e1, e2, e3]
  simp

/-- When the kernel is strictly smaller than the ROI in both dimensions, the
entries are a top band of `kH/2 + 1` full-width rows, a left and a right
segment for each row in between, and a bottom band of `kH/2` full-width rows. -/
theorem GetRemainScanLines_bands (roiLeft roiTop : Int) (W H kW kH : Nat)
    (hW : kW < W) (hH : kH < H) :
    GetRemainScanLines roiLeft roiTop W H kW kH
      = { n := ((kH / 2 + 1 + 2 * (H - 2 * (kH / 2) - 1) + kH / 2 : Nat) : Int)
          entries :=
            ((List.range (kH / 2 + 1)).map fun (i : Nat) =>
              ({ y := roiTop + (i : Int), x0 := roiLeft, x1 := roiLeft + W - 1 } : ScanLine))
            ++ ((List.range (H - 2 * (kH / 2) - 1)).flatMap fun (i : Nat) =>
              [({ y := roiTop + ((kH / 2 + 1 + i : Nat) : Int), x0 := roiLeft
                  x1 := roiLeft + ((kW / 2 : Nat) : Int) } : ScanLine),
               ({ y := roiTop + ((kH / 2 + 1 + i : Nat) : Int)
                  x0 := roiLeft + W - ((kW / 2 : Nat) : Int), x1 := roiLeft + W - 1 } : ScanLine)])
            ++ ((List.range (kH / 2)).map fun (i : Nat) =>
              ({ y := roiTop + H - ((kH / 2 : Nat) : Int) + (i : Int), x0 := roiLeft
                 x1 := roiLeft + W - 1 } : ScanLine)) } := by
  unfold GetRemainScanLines
  simp only [shiftRight_one_natCast]
  have hk : 2 * (kH / 2) ≤ kH := by omega
  have hw : (decide (roiTop + ((kH / 2 : Nat) : Int) + 1 - roiTop
      + (roiTop + (H : Int) - (roiTop + (H : Int) - ((kH / 2 : Nat) : Int) - 1 + 1))
      + 2 * (roiTop + (H : Int) - ((kH / 2 : Nat) : Int) - 1
          - (roiTop + ((kH / 2 : Nat) : Int) + 1) + 1)
        ≤ 0 ∨ (W : Int) < kW ∨ (H : Int) < kH)) = false := by
    simp only [decide_eq_false_iff_not]
    omega
  simp only [hw, Bool.false_eq_true, if_false]
  have e1 : (roiTop + ((kH / 2 : Nat) : Int) + 1 - roiTop).toNat = kH / 2 + 1 := by omega
  have e2 : (roiTop + (H : Int) - ((kH / 2 : Nat) : Int) - 1 + 1
      - (roiTop + ((kH / 2 : Nat) : Int) + 1)).toNat = H - 2 * (kH / 2) - 1 := by omega
  have e3 : (roiTop + (H : Int) - (roiTop + (H : Int) - ((kH / 2 : Nat) : Int) - 1 + 1)).toNat
      = kH / 2 := by omega
  rw [e1, e2, e3]
  congr 1
  · omega
  · congr 1
    · congr 1
      apply List.flatMap_congr
      intro i _
      simp only [List.cons.injEq, ScanLine.mk.injEq, and_true, true_and]
      refine ⟨⟨by push_cast; ring, by ring⟩, by push_cast; ring, by ring⟩
    · apply List.map_congr_left
      intro i _
      simp only [ScanLine.mk.injEq, and_true]
      ring

theorem length_flatMap_pair {α β : Type} (l : List α) (f g : α → β) :
    (l.flatMap fun a => [f a, g a]).length = 2 * l.length := by
  induction l with
  | nil => rfl
  | cons a l ih => simp only [List.flatMap_cons, List.length_append, List.length_cons,
      List.length_nil, ih]; omega

theorem returnedScanLines_whole (roiLeft roiTop roiWidth roiHeight kW kH : Int)
    (hbig : roiWidth < kW ∨ roiHeight < kH) :
    returnedScanLines roiLeft roiTop roiWidth roiHeight kW kH
      = (List.range roiHeight.toNat).map fun (i : Nat) =>
          ({ y := roiTop + (i : Int), x0 := roiLeft, x1 := roiLeft + roiWidth - 1 } : ScanLine) := by
  unfold returnedScanLines
  rw [GetRemainScanLines_whole roiLeft roiTop roiWidth roiHeight kW kH hbig]
  apply List.take_of_length_le
  simp

theorem returnedScanLines_bands (roiLeft roiTop : Int) (W H kW kH : Nat)
    (hW : kW < W) (hH : kH < H) :
    returnedScanLines roiLeft roiTop W H kW kH
      = ((List.range (kH / 2 + 1)).map fun (i : Nat) =>
          ({ y := roiTop + (i : Int), x0 := roiLeft, x1 := roiLeft + W - 1 } : ScanLine))
        ++ ((List.range (H - 2 * (kH / 2) - 1)).flatMap fun (i : Nat) =>
          [({ y := roiTop + ((kH / 2 + 1 + i : Nat) : Int), x0 := roiLeft
              x1 := roiLeft + ((kW / 2 : Nat) : Int) } : ScanLine),
           ({ y := roiTop + ((kH / 2 + 1 + i : Nat) : Int)
              x0 := roiLeft + W - ((kW / 2 : Nat) : Int), x1 := roiLeft + W - 1 } : ScanLine)])
        ++ ((List.range (kH / 2)).map fun (i : Nat) =>
          ({ y := roiTop + H - ((kH / 2 : Nat) : Int) + (i : Int), x0 := roiLeft
             x1 := roiLeft + W - 1 } : ScanLine)) := by
  unfold returnedScanLines
  rw [GetRemainScanLines_bands roiLeft roiTop W H kW kH hW hH]
  apply List.take_of_length_le
  simp only [List.length_append, List.length_map, List.length_range, length_flatMap_pair]
  omega

/-- Every entry the loops of `GetRemainScanLines` store lies inside the ROI. -/
theorem GetRemainScanLines_entries_inside (roiLeft roiTop roiWidth roiHeight kW kH : Int)
    (hkW : 1 ≤ kW) (hkH : 1 ≤ kH) (sl : ScanLine)
    (hsl : sl ∈ (GetRemainScanLines roiLeft roiTop roiWidth roiHeight kW kH).entries) :
    roiTop ≤ sl.y ∧ sl.y < roiTop + roiHeight ∧ roiLeft ≤ sl.x0 ∧
      sl.x1 ≤ roiLeft + roiWidth - 1 := by
  unfold GetRemainScanLines at hsl
  simp only [shiftRight_one] at hsl
  by_cases hw : (roiTop + kH / 2 + 1 - roiTop
      + (roiTop + roiHeight - (roiTop + roiHeight - kH / 2 - 1 + 1))
      + 2 * (roiTop + roiHeight - kH / 2 - 1 - (roiTop + kH / 2 + 1) + 1)
        ≤ 0 ∨ roiWidth < kW ∨ roiHeight < kH)
  · simp only [hw, decide_True, if_true, List.mem_append, List.mem_map, List.mem_range,
      List.mem_flatMap] at hsl
    rcases hsl with (⟨i, hi, rfl⟩ | ⟨i, hi, hm⟩) | ⟨i, hi, rfl⟩
    · simp only
      omega
    · exfalso; omega
    · exfalso; omega
  · simp only [hw, decide_False, Bool.false_eq_true, if_false, List.mem_append, List.mem_map,
      List.mem_range, List.mem_flatMap, List.mem_cons, List.mem_singleton,
      List.not_mem_nil, or_false] at hsl
    rcases hsl with (⟨i, hi, rfl⟩ | ⟨i, hi, rfl | rfl⟩) | ⟨i, hi, rfl⟩ <;> simp only <;> omega

/-- The entries read back by `ThresholdRemainRegions` lie inside the ROI. -/
theorem returnedScanLines_inside (roiLeft roiTop roiWidth roiHeight kW kH : Int)
    (hkW : 1 ≤ kW) (hkH : 1 ≤ kH) (sl : ScanLine)
    (hsl : sl ∈ returnedScanLines roiLeft roiTop roiWidth roiHeight kW kH) :
    roiTop ≤ sl.y ∧ sl.y < roiTop + roiHeight ∧ roiLeft ≤ sl.x0 ∧
      sl.x1 ≤ roiLeft + roiWidth - 1 :=
  GetRemainScanLines_entries_inside roiLeft roiTop roiWidth roiHeight kW kH hkW hkH sl
    (List.mem_of_mem_take hsl)

/-! ## Claims about coverage, thresholds and scan lines -/

/-- C1 (at the failing input): with a 10×10 ROI and a 3×3 kernel, the pixel in
row 8, column 8 of the ROI is written neither by the interior sweep nor through
any segment returned by `GetRemainScanLines`, while the pixel in row 2,
column 2 is written once; of the 100 ROI pixels, 13 are never written and 87
are written exactly once. -/
theorem odd_kernel_leaves_pixel_unwritten :
    writeCount 1 10 0 0 10 10 3 3 8 8 = 0 ∧ writeCount 1 10 0 0 10 10 3 3 2 2 = 1 ∧
    ((List.range 10).flatMap fun (r : Nat) => (List.range 10).map fun (c : Nat) =>
        writeCount 1 10 0 0 10 10 3 3 r c).count 0 = 13 ∧
    ((List.range 10).flatMap fun (r : Nat) => (List.range 10).map fun (c : Nat) =>
        writeCount 1 10 0 0 10 10 3 3 r c).count 1 = 87 := by
  decide

/-- C4 (at the failing input): on a 2×1 ROI with pixel values 10 and 20 and
`vNormalize = 160`, the two-table `CalcIntegral` stores `-300` in `integral[1]`
and `-51000` in `varIntegral[1]`, whereas the sums over the two ROI pixels are
`-290` (the value the one-table `CalcIntegral` stores) and `-50700`. -/
theorem CalcIntegral2_uses_first_pixel_only :
    (CalcIntegral2 twoPixelRaster 1 2 0 0 2 1 160 (fun _ => 0) (fun _ => 0)).1 1 = -300 ∧
    CalcIntegral twoPixelRaster 1 2 0 0 2 1 160 (fun _ => 0) 1 = -290 ∧
    (roiIntensity twoPixelRaster 1 2 0 0 0 0 - 160)
      + (roiIntensity twoPixelRaster 1 2 0 0 1 0 - 160) = -290 ∧
    (CalcIntegral2 twoPixelRaster 1 2 0 0 2 1 160 (fun _ => 0) (fun _ => 0)).2 1 = -51000 ∧
    (roiIntensity twoPixelRaster 1 2 0 0 0 0 ^ 2 - 160 ^ 2)
      + (roiIntensity twoPixelRaster 1 2 0 0 1 0 ^ 2 - 160 ^ 2) = -50700 := by
  refine ⟨?_, ?_, ?_, ?_, ?_⟩
  · simp [CalcIntegral2, firstLineStep2, firstColumnStep2, remainsRows2, sample, toGrey,
      twoPixelRaster]
    try norm_num
  · simp [CalcIntegral, firstLineStep, firstColumnStep, remainsRows, sample, toGrey,
      twoPixelRaster]
    try norm_num
  · simp [roiIntensity, sample, toGrey, twoPixelRaster]
    try norm_num
  · simp [CalcIntegral2, firstLineStep2, firstColumnStep2, remainsRows2, sample, toGrey,
      twoPixelRaster]
    try norm_num
  · simp [roiIntensity, sample, toGrey, twoPixelRaster]
    try norm_num

/-- C5 (as stated, refuted): on the uniform raster of value 200 with a 3×3 ROI
and a 1×1 kernel, the single interior iteration uses threshold 200, while
`(windowMean + backgroundAmplitude + vNormalize) * 0.5` is 280. -/
theorem Isodata_threshold_without_extra_vNormalize :
    (∃ p ∈ interiorSweep 1 3 0 0 3 3 1 1, p.integral_index = 4) ∧
    IsodataThreshold (CalcIntegral uniformRaster 1 3 0 0 3 3 160 (fun _ => 0)) 3 3 1 1 4 = 200 ∧
    (rectSum (roiIntensity uniformRaster 1 3 0 0) 1 1 1 1 / (1 * 1)
      + rectSum (roiIntensity uniformRaster 1 3 0 0) 0 0 3 3 / (3 * 3) + 160) * 0.5 = 280 ∧
    IsodataThreshold (CalcIntegral uniformRaster 1 3 0 0 3 3 160 (fun _ => 0)) 3 3 1 1 4
      ≠ (rectSum (roiIntensity uniformRaster 1 3 0 0) 1 1 1 1 / (1 * 1)
        + rectSum (roiIntensity uniformRaster 1 3 0 0) 0 0 3 3 / (3 * 3) + 160) * 0.5 := by
  have h := IsodataThreshold_means uniformRaster 1 3 0 0 (Or.inl rfl) 3 3 1 1 1 1
    le_rfl le_rfl le_rfl le_rfl (by decide) (by decide) (fun _ => 0)
  have e1 : rectSum (roiIntensity uniformRaster 1 3 0 0) 1 1 1 1 = 200 := by
    simp [rectSum, roiIntensity, sample, toGrey, uniformRaster]
  have e2 : rectSum (roiIntensity uniformRaster 1 3 0 0) 0 0 3 3 = 1800 := by
    simp [rectSum, roiIntensity, sample, toGrey, uniformRaster]
    norm_num
  have h200 : IsodataThreshold (CalcIntegral uniformRaster 1 3 0 0 3 3 160 (fun _ => 0))
      3 3 1 1 4 = 200 := by
    have := h
    norm_num [e1, e2] at this
    exact this
  refine ⟨⟨_, (mem_interiorSweep _ _ _ _ _ _ _ _ _).2 ⟨0, 0, by decide, by decide, rfl⟩, by decide⟩,
    h200, by rw [e1, e2]; norm_num, ?_⟩
  rw [h200, e1, e2]
  norm_num

/-- C5 (amended): at every iteration of the interior sweep, with `(cx, ry)` the
top-left pixel of its window, the threshold `Isodata` compares the pixel
`(cx + kW/2, ry + kH/2)` against is
`(windowSum/kernelArea + backgroundAmplitude + vNormalize) * 0.5`, where
`windowSum` is the sum of `intensity - vNormalize` over the window (so that
`windowSum/kernelArea + vNormalize` is the mean intensity of the window),
`backgroundAmplitude` is the mean intensity of the ROI and `vNormalize = 160`. -/
theorem Isodata_interior_threshold (imagedata : Int → Nat)
    (bytes_per_pixel bytes_per_line roiLeft roiTop : Int) (roiWidth roiHeight kW kH : Nat)
    (integral : Int → ℚ)
    (hbpp : bytes_per_pixel = 1 ∨ bytes_per_pixel = 3 ∨ bytes_per_pixel = 4)
    (hkW : 1 ≤ kW) (hkH : 1 ≤ kH) (p : SweepPos)
    (hp : p ∈ interiorSweep bytes_per_pixel bytes_per_line roiLeft roiTop roiWidth roiHeight
      kW kH) :
    ∃ cx ry : Nat, p.integral_index = ry * roiWidth + cx ∧
      p.row = ((ry + kH / 2 : Nat) : Int) ∧ p.dstPixel = ((cx + kW / 2 : Nat) : Int) ∧
      (let vNormalize : ℚ := 160
       let windowSum := rectSum
          (normIntensity imagedata bytes_per_pixel bytes_per_line roiLeft roiTop vNormalize)
          cx ry kW kH
       let backgroundAmplitude :=
          rectSum (roiIntensity imagedata bytes_per_pixel bytes_per_line roiLeft roiTop)
            0 0 roiWidth roiHeight / ((roiWidth : ℚ) * roiHeight)
       windowSum / ((kW : ℚ) * kH) + vNormalize
          = rectSum (roiIntensity imagedata bytes_per_pixel bytes_per_line roiLeft roiTop)
              cx ry kW kH / ((kW : ℚ) * kH) ∧
       IsodataThreshold
          (CalcIntegral imagedata bytes_per_pixel bytes_per_line roiLeft roiTop roiWidth
            roiHeight 160 integral)
          roiWidth roiHeight kW kH p.integral_index
        = (windowSum / ((kW : ℚ) * kH) + backgroundAmplitude + vNormalize) * 0.5) := by
  rw [mem_interiorSweep] at hp
  obtain ⟨j, i, hj, hi, rfl⟩ := hp
  have hkWq : (kW : ℚ) ≠ 0 := by positivity
  have hkHq : (kH : ℚ) ≠ 0 := by positivity
  refine ⟨1 + i, 1 + j, by push_cast; ring, ?_, ?_, ?_, ?_⟩
  · simp only [shiftRight_one_natCast]; push_cast; ring
  · simp only [shiftRight_one_natCast]; push_cast; ring
  · simp only [rectSum_normIntensity]
    field_simp
    ring
  · have e : (1 + (j : Int)) * (roiWidth : Int) + 1 + (i : Int)
        = ((1 + j : Nat) : Int) * (roiWidth : Int) + ((1 + i : Nat) : Int) := by
      push_cast; ring
    simp only [e]
    rw [IsodataThreshold_means imagedata bytes_per_pixel bytes_per_line roiLeft roiTop hbpp
      roiWidth roiHeight kW kH (1 + i) (1 + j) hkW hkH (by omega) (by omega) (by omega)
      (by omega) integral, rectSum_normIntensity]
    field_simp
    ring

/-- C5 (amended), at a 10×10 ROI with a 3×3 kernel, first interior iteration. -/
theorem Isodata_interior_threshold_witness :
    ∃ cx ry : Nat, (11 : Int) = ry * ((10 : Nat) : Int) + cx ∧
      (2 : Int) = ((ry + 3 / 2 : Nat) : Int) ∧ (2 : Int) = ((cx + 3 / 2 : Nat) : Int) ∧
      (let vNormalize : ℚ := 160
       let windowSum := rectSum (normIntensity uniformRaster 1 10 0 0 vNormalize) cx ry 3 3
       let backgroundAmplitude :=
          rectSum (roiIntensity uniformRaster 1 10 0 0) 0 0 10 10 / (((10 : Nat) : ℚ) * (10 : Nat))
       windowSum / (((3 : Nat) : ℚ) * (3 : Nat)) + vNormalize
          = rectSum (roiIntensity uniformRaster 1 10 0 0) cx ry 3 3
              / (((3 : Nat) : ℚ) * (3 : Nat)) ∧
       IsodataThreshold (CalcIntegral uniformRaster 1 10 0 0 (10 : Nat) (10 : Nat) 160
            (fun _ => 0)) (10 : Nat) (10 : Nat) (3 : Nat) (3 : Nat) 11
        = (windowSum / (((3 : Nat) : ℚ) * (3 : Nat)) + backgroundAmplitude + vNormalize) * 0.5) :=
  Isodata_interior_threshold uniformRaster 1 10 0 0 10 10 3 3 (fun _ => 0) (Or.inl rfl)
    (by decide) (by decide)
    { row := 2, x := 1, integral_index := 11, image_index := 22, dstPixel := 2 } (by decide)

/-! ## Window statistics of `Sauvola` -/

theorem rectSum_const (c : ℚ) (x0 y0 w h : Nat) :
    rectSum (fun _ _ => c) x0 y0 w h = (w : ℚ) * h * c := by
  simp [rectSum]
  ring

/-- The window sums `Sauvola` reads from the two tables: each pixel of the
window counts with the value of the first ROI pixel. -/
theorem cornerSum_CalcIntegral2 (imagedata : Int → Nat) (bpp bpl roiLeft roiTop : Int)
    (hbpp : bpp = 1 ∨ bpp = 3 ∨ bpp = 4) (W H kW kH cx ry : Nat)
    (hkW : 1 ≤ kW) (hkH : 1 ≤ kH) (hcx : 1 ≤ cx) (hry : 1 ≤ ry)
    (hx : cx + kW ≤ W) (hy : ry + kH ≤ H) (vN : ℚ) (integral varIntegral : Int → ℚ) :
    cornerSum (CalcIntegral2 imagedata bpp bpl roiLeft roiTop W H vN integral varIntegral).1
        (CalcOffsets W kW kH) (ry * W + cx)
      = (kW : ℚ) * kH * (sample imagedata bpp (roiTop * bpl + roiLeft * bpp) - vN) ∧
    cornerSum (CalcIntegral2 imagedata bpp bpl roiLeft roiTop W H vN integral varIntegral).2
        (CalcOffsets W kW kH) (ry * W + cx)
      = (kW : ℚ) * kH * (sample imagedata bpp (roiTop * bpl + roiLeft * bpp)
          * sample imagedata bpp (roiTop * bpl + roiLeft * bpp) - vN * vN) := by
  have hcell := fun x y hx hy => CalcIntegral2_cell imagedata bpp bpl roiLeft roiTop W vN hbpp H
    (by omega) integral varIntegral x y hx hy
  constructor
  · rw [cornerSum_of_cumSum _ _ W H (fun x y hx hy => (hcell x y hx hy).1) kW kH cx ry hkW hkH
      hcx hry (by exact_mod_cast hx) (by exact_mod_cast hy), rectSum_const]
  · rw [cornerSum_of_cumSum _ _ W H (fun x y hx hy => (hcell x y hx hy).2) kW kH cx ry hkW hkH
      hcx hry (by exact_mod_cast hx) (by exact_mod_cast hy), rectSum_const]

/-- `localMean` and the argument of `sqrt` in `Sauvola`, in terms of the value
`q` sampled at the first ROI pixel. -/
theorem Sauvola_stats (imagedata : Int → Nat) (bpp bpl roiLeft roiTop : Int)
    (hbpp : bpp = 1 ∨ bpp = 3 ∨ bpp = 4) (W H kW kH cx ry : Nat)
    (hk : 2 ≤ kW * kH) (hcx : 1 ≤ cx) (hry : 1 ≤ ry)
    (hx : cx + kW ≤ W) (hy : ry + kH ≤ H) (integral varIntegral : Int → ℚ) :
    SauvolaLocalMean
        (CalcIntegral2 imagedata bpp bpl roiLeft roiTop W H 160 integral varIntegral).1
        W kW kH (ry * W + cx)
      = sample imagedata bpp (roiTop * bpl + roiLeft * bpp) ∧
    SauvolaRadicand
        (CalcIntegral2 imagedata bpp bpl roiLeft roiTop W H 160 integral varIntegral).1
        (CalcIntegral2 imagedata bpp bpl roiLeft roiTop W H 160 integral varIntegral).2
        W kW kH (ry * W + cx)
      = sample imagedata bpp (roiTop * bpl + roiLeft * bpp) ^ 2 / ((kW : ℚ) * kH - 1) := by
  have hkW : 1 ≤ kW := by
    rcases Nat.eq_zero_or_pos kW with h | h
    · rw [h] at hk; omega
    · exact h
  have hkH : 1 ≤ kH := by
    rcases Nat.eq_zero_or_pos kH with h | h
    · rw [h] at hk; omega
    · exact h
  obtain ⟨h1, h2⟩ := cornerSum_CalcIntegral2 imagedata bpp bpl roiLeft roiTop hbpp W H kW kH cx ry
    hkW hkH hcx hry hx hy 160 integral varIntegral
  have hkq : (2 : ℚ) ≤ (kW : ℚ) * kH := by exact_mod_cast hk
  have hk0 : (kW : ℚ) * kH ≠ 0 := by linarith
  have hk1 : (kW : ℚ) * kH - 1 ≠ 0 := by linarith
  have hmean : SauvolaLocalMean
      (CalcIntegral2 imagedata bpp bpl roiLeft roiTop W H 160 integral varIntegral).1
      W kW kH (ry * W + cx) = sample imagedata bpp (roiTop * bpl + roiLeft * bpp) := by
    simp only [SauvolaLocalMean]
    rw [h1]
    push_cast
    field_simp
  refine ⟨hmean, ?_⟩
  simp only [SauvolaRadicand]
  rw [hmean]
  simp only [SauvolaLocalVar]
  rw [h2]
  push_cast
  have e : ((kW : ℚ) * kH - 1.0) = (kW : ℚ) * kH - 1 := by norm_num
  rw [e]
  field_simp
  ring

/-! ## The writes of the boundary handler and the bit writer -/

theorem remainRow_eq (imagedata : Int → Nat) (bpp : Int) (threshold : ℚ) (row : Int) (n : Nat) :
    ∀ image_index dstPixel : Int,
      remainRow imagedata bpp threshold row n image_index dstPixel
        = (List.range n).map fun (k : Nat) =>
            ({ row := row, dstPixel := dstPixel + (k : Int)
               white_result :=
                decide (sample imagedata bpp (image_index + (k : Int) * bpp) ≥ threshold) }
              : BitWrite) := by
  induction n with
  | zero => intro im d; rfl
  | succ n ih =>
    intro im d
    rw [remainRow, ih, List.range_succ_eq_map, List.map_cons, List.map_map]
    congr 1
    · simp
    · apply List.map_congr_left
      intro k _
      simp only [Function.comp, Nat.succ_eq_add_one]
      have e1 : d + 1 + (k : Int) = d + ((k + 1 : Nat) : Int) := by push_cast; ring
      have e2 : im + bpp + (k : Int) * bpp = im + ((k + 1 : Nat) : Int) * bpp := by
        push_cast; ring
      rw [e1, e2]

/-- The writes of `ThresholdRemainRegions`: one per pixel of each returned
scan line. -/
theorem mem_ThresholdRemainRegions (imagedata : Int → Nat)
    (bpp bpl roiLeft roiTop roiWidth roiHeight kW kH : Int) (threshold : ℚ) (w : BitWrite) :
    w ∈ ThresholdRemainRegions imagedata bpp bpl roiLeft roiTop roiWidth roiHeight kW kH
        threshold ↔
      ∃ sl ∈ returnedScanLines roiLeft roiTop roiWidth roiHeight kW kH,
        ∃ k : Nat, (k : Int) < sl.x1 + 1 - sl.x0 ∧
          w = { row := sl.y - roiTop, dstPixel := sl.x0 - roiLeft + (k : Int)
                white_result := decide
                  (sample imagedata bpp (sl.y * bpl + sl.x0 * bpp + (k : Int) * bpp)
                    ≥ threshold) } := by
  unfold ThresholdRemainRegions
  simp only [List.mem_flatMap, remainRow_eq, List.mem_map, List.mem_range]
  constructor
  · rintro ⟨sl, hsl, k, hk, rfl⟩
    exact ⟨sl, hsl, k, by omega, rfl⟩
  · rintro ⟨sl, hsl, k, hk, rfl⟩
    exact ⟨sl, hsl, k, by omega, rfl⟩

/-- Clearing bits of an all-zero bitmap leaves it all zero. -/
theorem applyWrites_cleared (wpl : Int) (ws : List BitWrite)
    (hws : ∀ w ∈ ws, w.white_result = true) :
    ∀ pixdata : Int → Nat, (∀ k, pixdata k = 0) → ∀ k, applyWrites wpl pixdata ws k = 0 := by
  induction ws with
  | nil => intro pixdata h k; exact h k
  | cons w ws ih =>
    intro pixdata h k
    show applyWrites wpl (applyWrite wpl pixdata w) ws k = 0
    apply ih (fun w' hw' => hws w' (List.mem_cons_of_mem _ hw'))
    intro k'
    have hw : w.white_result = true := hws w (List.mem_cons_self _ _)
    simp only [applyWrite, hw, if_true, CLEAR_DATA_BIT]
    by_cases hk : k' = w.row * wpl + w.dstPixel / 32
    · subst hk
      rw [Function.update_same, h, Nat.zero_and]
    · rw [Function.update_noteq hk]
      exact h k'

/-! ## Uniform ROIs -/

theorem rectSum_uniform (f : Nat → Nat → ℚ) (c : ℚ) (W H x0 y0 w h : Nat)
    (huni : ∀ i j : Nat, i < W → j < H → f i j = c) (hx : x0 + w ≤ W) (hy : y0 + h ≤ H) :
    rectSum f x0 y0 w h = (w : ℚ) * h * c := by
  rw [← rectSum_const c x0 y0 w h]
  unfold rectSum
  apply Finset.sum_congr rfl
  intro j hj
  apply Finset.sum_congr rfl
  intro i hi
  rw [Finset.mem_range] at hi hj
  exact huni _ _ (by omega) (by omega)

/-- On a ROI of uniform intensity `c`, every threshold `Isodata` derives is `c`. -/
theorem Isodata_uniform_thresholds (imagedata : Int → Nat) (bpp bpl roiLeft roiTop : Int)
    (hbpp : bpp = 1 ∨ bpp = 3 ∨ bpp = 4) (W H kW kH : Nat) (c : ℚ)
    (hW : 1 ≤ W) (hH : 1 ≤ H) (hkW : 1 ≤ kW) (hkH : 1 ≤ kH)
    (huni : ∀ i j : Nat, i < W → j < H → roiIntensity imagedata bpp bpl roiLeft roiTop i j = c)
    (integral : Int → ℚ) :
    (∀ p ∈ interiorSweep bpp bpl roiLeft roiTop W H kW kH,
      IsodataThreshold (CalcIntegral imagedata bpp bpl roiLeft roiTop W H 160 integral)
        W H kW kH p.integral_index = c) ∧
    IsodataRemainThreshold (CalcIntegral imagedata bpp bpl roiLeft roiTop W H 160 integral) W H
      = c := by
  have hWq : (W : ℚ) ≠ 0 := by positivity
  have hHq : (H : ℚ) ≠ 0 := by positivity
  have hkWq : (kW : ℚ) ≠ 0 := by positivity
  have hkHq : (kH : ℚ) ≠ 0 := by positivity
  have hall : rectSum (roiIntensity imagedata bpp bpl roiLeft roiTop) 0 0 W H = (W : ℚ) * H * c :=
    rectSum_uniform _ c W H 0 0 W H huni (by omega) (by omega)
  constructor
  · intro p hp
    rw [mem_interiorSweep] at hp
    obtain ⟨j, i, hj, hi, rfl⟩ := hp
    have e : (1 + (j : Int)) * (W : Int) + 1 + (i : Int)
        = ((1 + j : Nat) : Int) * (W : Int) + ((1 + i : Nat) : Int) := by
      push_cast; ring
    simp only [e]
    rw [IsodataThreshold_means imagedata bpp bpl roiLeft roiTop hbpp W H kW kH (1 + i) (1 + j)
      hkW hkH (by omega) (by omega) (by omega) (by omega) integral, hall,
      rectSum_uniform _ c W H (1 + i) (1 + j) kW kH huni (by omega) (by omega)]
    field_simp
  · have hmean := CalcIntegral_mean imagedata bpp bpl roiLeft roiTop 160 hbpp W H hW hH integral
    simp only [IsodataRemainThreshold]
    rw [hmean, hall]
    field_simp

/-- C6 (at the failing input): on a 2×1 ROI with pixel values 10 and 20, the
fallback threshold `Isodata` hands to `ThresholdRemainRegions` is 15, the mean
intensity of the ROI, while the one `Sauvola` hands over is 10, the intensity
of the first pixel. -/
theorem remain_threshold_Sauvola_differs :
    IsodataRemainThreshold (CalcIntegral twoPixelRaster 1 2 0 0 2 1 160 (fun _ => 0)) 2 1 = 15 ∧
    SauvolaRemainThreshold
      (CalcIntegral2 twoPixelRaster 1 2 0 0 2 1 160 (fun _ => 0) (fun _ => 0)).1 2 1 = 10 ∧
    (roiIntensity twoPixelRaster 1 2 0 0 0 0 + roiIntensity twoPixelRaster 1 2 0 0 1 0) / 2
      = 15 := by
  refine ⟨?_, ?_, ?_⟩
  · simp [IsodataRemainThreshold, CalcIntegral, firstLineStep, firstColumnStep, remainsRows,
      sample, toGrey, twoPixelRaster]
    try norm_num
  · simp [SauvolaRemainThreshold, CalcIntegral2, firstLineStep2, firstColumnStep2, remainsRows2,
      sample, toGrey, twoPixelRaster]
    try norm_num
  · simp [roiIntensity, sample, toGrey, twoPixelRaster]
    try norm_num

/-- C7 (as stated, refuted): with a 3×3 ROI and a 3×1 kernel (kernel width equal
to the ROI width) `GetRemainScanLines` returns 5 entries, not one full-width
entry per row. -/
theorem GetRemainScanLines_equal_width_splits_rows :
    (3 : Int) ≥ 3 ∧ (GetRemainScanLines 0 0 3 3 3 1).n = 5 ∧
    returnedScanLines 0 0 3 3 3 1
      = [⟨0, 0, 2⟩, ⟨1, 0, 1⟩, ⟨1, 2, 2⟩, ⟨2, 0, 1⟩, ⟨2, 2, 2⟩] ∧
    returnedScanLines 0 0 3 3 3 1
      ≠ (List.range 3).map fun (i : Nat) =>
          ({ y := 0 + (i : Int), x0 := 0, x1 := 0 + 3 - 1 } : ScanLine) := by
  decide

/-- C7 (amended): whenever the kernel is strictly larger than the ROI in either
dimension (`kernelWidth > roiWidth` or `kernelHeight > roiHeight`),
`GetRemainScanLines` returns exactly `roiHeight` segments, one per ROI row in
order, the `i`-th being `(roiTop + i, roiLeft, roiLeft + roiWidth - 1)`. -/
theorem GetRemainScanLines_kernel_larger (roiLeft roiTop roiWidth roiHeight : Int)
    (kernelWidth kernelHeight : Int)
    (hbig : roiWidth < kernelWidth ∨ roiHeight < kernelHeight) :
    (GetRemainScanLines roiLeft roiTop roiWidth roiHeight kernelWidth kernelHeight).n
      = roiHeight ∧
    (returnedScanLines roiLeft roiTop roiWidth roiHeight kernelWidth kernelHeight).length
      = roiHeight.toNat ∧
    returnedScanLines roiLeft roiTop roiWidth roiHeight kernelWidth kernelHeight
      = (List.range roiHeight.toNat).map fun (i : Nat) =>
          ({ y := roiTop + (i : Int), x0 := roiLeft, x1 := roiLeft + roiWidth - 1 }
            : ScanLine) := by
  refine ⟨?_, ?_, ?_⟩
  · rw [GetRemainScanLines_whole _ _ _ _ _ _ hbig]
  · rw [returnedScanLines_whole _ _ _ _ _ _ hbig]
    simp
  · exact returnedScanLines_whole _ _ _ _ _ _ hbig

/-- C7 (amended), at a 4×3 ROI with a 5×1 kernel. -/
theorem GetRemainScanLines_kernel_larger_witness :
    (GetRemainScanLines 2 1 4 3 5 1).n = 3 ∧
    (returnedScanLines 2 1 4 3 5 1).length = (3 : Int).toNat ∧
    returnedScanLines 2 1 4 3 5 1
      = (List.range (3 : Int).toNat).map fun (i : Nat) =>
          ({ y := 1 + (i : Int), x0 := 2, x1 := 2 + 4 - 1 } : ScanLine) :=
  GetRemainScanLines_kernel_larger 2 1 4 3 5 1 (Or.inl (by decide))

/-- C9 (as stated, refuted): on the uniform raster of value 200 with a 10×10
ROI and a 3×3 kernel, at the first interior iteration the argument of `sqrt` is
5000, not 0, and the threshold (with the real square root) is not
`localMean * (1 - 0.34)`. -/
theorem Sauvola_uniform_variance_nonzero :
    (∃ p ∈ interiorSweep 1 10 0 0 10 10 3 3, p.integral_index = 11) ∧
    SauvolaRadicand
      (CalcIntegral2 uniformRaster 1 10 0 0 10 10 160 (fun _ => 0) (fun _ => 0)).1
      (CalcIntegral2 uniformRaster 1 10 0 0 10 10 160 (fun _ => 0) (fun _ => 0)).2
      10 3 3 11 = 5000 ∧
    SauvolaThreshold Real.sqrt
      (CalcIntegral2 uniformRaster 1 10 0 0 10 10 160 (fun _ => 0) (fun _ => 0)).1
      (CalcIntegral2 uniformRaster 1 10 0 0 10 10 160 (fun _ => 0) (fun _ => 0)).2
      10 3 3 11
      ≠ ((SauvolaLocalMean
          (CalcIntegral2 uniformRaster 1 10 0 0 10 10 160 (fun _ => 0) (fun _ => 0)).1
          10 3 3 11 : ℚ) : ℝ) * (1 - 0.34) := by
  obtain ⟨hm, hr⟩ := Sauvola_stats uniformRaster 1 10 0 0 (Or.inl rfl) 10 10 3 3 1 1
    (by decide) le_rfl le_rfl (by decide) (by decide) (fun _ => 0) (fun _ => 0)
  have hs : sample uniformRaster 1 (0 * 10 + 0 * 1) = 200 := by
    simp [sample, toGrey, uniformRaster]
  rw [hs] at hm hr
  have hm' : SauvolaLocalMean
      (CalcIntegral2 uniformRaster 1 10 0 0 10 10 160 (fun _ => 0) (fun _ => 0)).1
      10 3 3 11 = 200 := by
    have := hm
    norm_num at this
    exact this
  have hr' : SauvolaRadicand
      (CalcIntegral2 uniformRaster 1 10 0 0 10 10 160 (fun _ => 0) (fun _ => 0)).1
      (CalcIntegral2 uniformRaster 1 10 0 0 10 10 160 (fun _ => 0) (fun _ => 0)).2
      10 3 3 11 = 5000 := by
    have := hr
    norm_num at this
    exact this
  refine ⟨⟨_, (mem_interiorSweep _ _ _ _ _ _ _ _ _).2 ⟨0, 0, by decide, by decide, rfl⟩,
    by decide⟩, hr', ?_⟩
  simp only [SauvolaThreshold]
  rw [hm', hr']
  have h5 : ((5000 : ℚ) : ℝ) = 5000 := by norm_num
  have h3 : ((200 : ℚ) : ℝ) = 200 := by norm_num
  rw [h5, h3]
  have hpos : (0 : ℝ) < Real.sqrt 5000 := Real.sqrt_pos.2 (by norm_num)
  intro h
  norm_num at h
  linarith

/-- C9 (amended): for every ROI of uniform intensity `c` and every kernel with
`kernelArea ≥ 2`, at every iteration of the interior sweep of `Sauvola` the
local mean is `c`, the quantity `localVar - localMean^2` whose square root is
`stdDev` equals `c^2 / (kernelArea - 1)` in exact arithmetic (it is 0 only for
`c = 0`), and therefore the threshold equals
`localMean * (1 + k * (sqrt (c^2 / (kernelArea - 1)) / R - 1))` with `k = 0.34`
and `R = 128`. -/
theorem Sauvola_uniform_threshold (imagedata : Int → Nat)
    (bytes_per_pixel bytes_per_line roiLeft roiTop : Int) (roiWidth roiHeight kW kH : Nat)
    (c : ℚ) (integral varIntegral : Int → ℚ)
    (hbpp : bytes_per_pixel = 1 ∨ bytes_per_pixel = 3 ∨ bytes_per_pixel = 4)
    (hk : 2 ≤ kW * kH)
    (huni : ∀ i j : Nat, i < roiWidth → j < roiHeight →
      roiIntensity imagedata bytes_per_pixel bytes_per_line roiLeft roiTop i j = c)
    (p : SweepPos)
    (hp : p ∈ interiorSweep bytes_per_pixel bytes_per_line roiLeft roiTop roiWidth roiHeight
      kW kH) :
    SauvolaLocalMean
        (CalcIntegral2 imagedata bytes_per_pixel bytes_per_line roiLeft roiTop roiWidth
          roiHeight 160 integral varIntegral).1
        roiWidth kW kH p.integral_index = c ∧
    SauvolaRadicand
        (CalcIntegral2 imagedata bytes_per_pixel bytes_per_line roiLeft roiTop roiWidth
          roiHeight 160 integral varIntegral).1
        (CalcIntegral2 imagedata bytes_per_pixel bytes_per_line roiLeft roiTop roiWidth
          roiHeight 160 integral varIntegral).2
        roiWidth kW kH p.integral_index = c ^ 2 / ((kW : ℚ) * kH - 1) ∧
    (c ^ 2 / ((kW : ℚ) * kH - 1) = 0 ↔ c = 0) ∧
    ∀ (K : Type) [LinearOrderedField K] (sqrtK : K → K),
      SauvolaThreshold sqrtK
          (CalcIntegral2 imagedata bytes_per_pixel bytes_per_line roiLeft roiTop roiWidth
            roiHeight 160 integral varIntegral).1
          (CalcIntegral2 imagedata bytes_per_pixel bytes_per_line roiLeft roiTop roiWidth
            roiHeight 160 integral varIntegral).2
          roiWidth kW kH p.integral_index
        = (c : K) * (1 + 0.34 * (sqrtK ((c ^ 2 / ((kW : ℚ) * kH - 1) : ℚ) : K) / 128 - 1)) := by
  rw [mem_interiorSweep] at hp
  obtain ⟨j, i, hj, hi, rfl⟩ := hp
  have e : (1 + (j : Int)) * (roiWidth : Int) + 1 + (i : Int)
      = ((1 + j : Nat) : Int) * (roiWidth : Int) + ((1 + i : Nat) : Int) := by
    push_cast; ring
  simp only [e]
  obtain ⟨hm, hr⟩ := Sauvola_stats imagedata bytes_per_pixel bytes_per_line roiLeft roiTop hbpp
    roiWidth roiHeight kW kH (1 + i) (1 + j) hk (by omega) (by omega) (by omega) (by omega)
    integral varIntegral
  have hc : sample imagedata bytes_per_pixel (roiTop * bytes_per_line + roiLeft * bytes_per_pixel)
      = c := by
    rw [← huni 0 0 (by omega) (by omega)]
    simp [roiIntensity]
  rw [hc] at hm hr
  have hkq : (2 : ℚ) ≤ (kW : ℚ) * kH := by exact_mod_cast hk
  have hk1 : (kW : ℚ) * kH - 1 ≠ 0 := by linarith
  refine ⟨hm, hr, ?_, ?_⟩
  · rw [div_eq_zero_iff]
    constructor
    · rintro (h | h)
      · exact pow_eq_zero_iff (two_ne_zero) |>.1 h
      · exact absurd h hk1
    · intro h
      left
      rw [h]
      ring
  · intro K _ sqrtK
    simp only [SauvolaThreshold]
    rw [hm, hr]
    ring

/-- C9 (amended), at the uniform raster of value 200, 10×10 ROI, 3×3 kernel,
first interior iteration. -/
theorem Sauvola_uniform_threshold_witness :
    SauvolaLocalMean
        (CalcIntegral2 uniformRaster 1 10 0 0 ((10 : Nat) : Int) ((10 : Nat) : Int) 160
          (fun _ => 0) (fun _ => 0)).1
        ((10 : Nat) : Int) ((3 : Nat) : Int) ((3 : Nat) : Int) 11 = 200 ∧
    SauvolaRadicand
        (CalcIntegral2 uniformRaster 1 10 0 0 ((10 : Nat) : Int) ((10 : Nat) : Int) 160
          (fun _ => 0) (fun _ => 0)).1
        (CalcIntegral2 uniformRaster 1 10 0 0 ((10 : Nat) : Int) ((10 : Nat) : Int) 160
          (fun _ => 0) (fun _ => 0)).2
        ((10 : Nat) : Int) ((3 : Nat) : Int) ((3 : Nat) : Int) 11
      = (200 : ℚ) ^ 2 / (((3 : Nat) : ℚ) * ((3 : Nat) : ℚ) - 1) ∧
    ((200 : ℚ) ^ 2 / (((3 : Nat) : ℚ) * ((3 : Nat) : ℚ) - 1) = 0 ↔ (200 : ℚ) = 0) ∧
    ∀ (K : Type) [LinearOrderedField K] (sqrtK : K → K),
      SauvolaThreshold sqrtK
          (CalcIntegral2 uniformRaster 1 10 0 0 ((10 : Nat) : Int) ((10 : Nat) : Int) 160
            (fun _ => 0) (fun _ => 0)).1
          (CalcIntegral2 uniformRaster 1 10 0 0 ((10 : Nat) : Int) ((10 : Nat) : Int) 160
            (fun _ => 0) (fun _ => 0)).2
          ((10 : Nat) : Int) ((3 : Nat) : Int) ((3 : Nat) : Int) 11
        = ((200 : ℚ) : K) * (1 + 0.34
            * (sqrtK (((200 : ℚ) ^ 2 / (((3 : Nat) : ℚ) * ((3 : Nat) : ℚ) - 1) : ℚ) : K) / 128
              - 1)) :=
  Sauvola_uniform_threshold uniformRaster 1 10 0 0 10 10 3 3 200 (fun _ => 0) (fun _ => 0)
    (Or.inl rfl) (by decide)
    (fun i j _ _ => by simp [roiIntensity, sample, toGrey, uniformRaster])
    { row := 2, x := 1, integral_index := 11, image_index := 22, dstPixel := 2 } (by decide)

theorem sample_eq_roiIntensity (imagedata : Int → Nat) (bpp bpl roiLeft roiTop : Int)
    (i j : Nat) (p : Int) (hp : p = (roiTop + j) * bpl + (roiLeft + i) * bpp) :
    sample imagedata bpp p = roiIntensity imagedata bpp bpl roiLeft roiTop i j := by
  subst hp; rfl

/-- On a ROI of uniform intensity `c`, every bit `Isodata` writes is cleared. -/
theorem IsodataWrites_uniform_white (imagedata : Int → Nat) (bpp bpl roiLeft roiTop : Int)
    (hbpp : bpp = 1 ∨ bpp = 3 ∨ bpp = 4) (W H kW kH : Nat) (c : ℚ)
    (hW : 1 ≤ W) (hH : 1 ≤ H) (hkW : 1 ≤ kW) (hkH : 1 ≤ kH)
    (huni : ∀ i j : Nat, i < W → j < H → roiIntensity imagedata bpp bpl roiLeft roiTop i j = c)
    (integral : Int → ℚ) :
    ∀ w ∈ IsodataWrites imagedata bpp bpl roiLeft roiTop W H kW kH integral,
      w.white_result = true := by
  obtain ⟨hint, hrem⟩ := Isodata_uniform_thresholds imagedata bpp bpl roiLeft roiTop hbpp
    W H kW kH c hW hH hkW hkH huni integral
  intro w hw
  unfold IsodataWrites at hw
  simp only [List.mem_append, List.mem_map] at hw
  rcases hw with ⟨p, hp, rfl⟩ | hw
  · simp only [decide_eq_true_eq, ge_iff_le]
    rw [hint p hp]
    rw [mem_interiorSweep] at hp
    obtain ⟨j, i, hj, hi, rfl⟩ := hp
    simp only [shiftRight_one_natCast]
    rw [sample_eq_roiIntensity imagedata bpp bpl roiLeft roiTop (1 + i + kW / 2) (1 + j + kH / 2)
      _ (by push_cast; ring), huni _ _ (by omega) (by omega)]
  · rw [hrem, mem_ThresholdRemainRegions] at hw
    obtain ⟨sl, hsl, k, hk, rfl⟩ := hw
    obtain ⟨h1, h2, h3, h4⟩ := returnedScanLines_inside roiLeft roiTop W H kW kH
      (by exact_mod_cast hkW) (by exact_mod_cast hkH) sl hsl
    simp only [decide_eq_true_eq, ge_iff_le]
    have ej : (((sl.y - roiTop).toNat : Nat) : Int) = sl.y - roiTop :=
      Int.toNat_of_nonneg (by omega)
    have ei : (((sl.x0 - roiLeft + (k : Int)).toNat : Nat) : Int) = sl.x0 - roiLeft + (k : Int) :=
      Int.toNat_of_nonneg (by omega)
    rw [sample_eq_roiIntensity imagedata bpp bpl roiLeft roiTop
      (sl.x0 - roiLeft + (k : Int)).toNat (sl.y - roiTop).toNat _ (by rw [ej, ei]; ring),
      huni _ _ (by omega) (by omega)]

/-- C10: for every ROI of uniform 1-byte intensity `c` (any ROI size ≥ 1×1, any
kernel ≥ 1×1), every threshold `Isodata` derives, interior and fallback, is
`≤ c`, every bit it writes is cleared, and a bitmap that is all-cleared before
the call has every word equal to 0 after it. -/
theorem Isodata_uniform_all_background (imagedata : Int → Nat)
    (bytes_per_line roiLeft roiTop : Int) (roiWidth roiHeight kW kH : Nat) (c : Nat)
    (integral : Int → ℚ)
    (hW : 1 ≤ roiWidth) (hH : 1 ≤ roiHeight) (hkW : 1 ≤ kW) (hkH : 1 ≤ kH)
    (huni : ∀ i j : Nat, i < roiWidth → j < roiHeight →
      roiIntensity imagedata 1 bytes_per_line roiLeft roiTop i j = (c : ℚ)) :
    (∀ p ∈ interiorSweep 1 bytes_per_line roiLeft roiTop roiWidth roiHeight kW kH,
      IsodataThreshold
        (CalcIntegral imagedata 1 bytes_per_line roiLeft roiTop roiWidth roiHeight 160 integral)
        roiWidth roiHeight kW kH p.integral_index ≤ (c : ℚ)) ∧
    IsodataRemainThreshold
      (CalcIntegral imagedata 1 bytes_per_line roiLeft roiTop roiWidth roiHeight 160 integral)
      roiWidth roiHeight ≤ (c : ℚ) ∧
    (∀ w ∈ IsodataWrites imagedata 1 bytes_per_line roiLeft roiTop roiWidth roiHeight kW kH
        integral, w.white_result = true) ∧
    ∀ (pixdata : Int → Nat) (wpl : Int), (∀ k, pixdata k = 0) →
      ∀ k, Isodata imagedata 1 bytes_per_line roiLeft roiTop roiWidth roiHeight kW kH
        pixdata wpl integral k = 0 := by
  obtain ⟨hint, hrem⟩ := Isodata_uniform_thresholds imagedata 1 bytes_per_line roiLeft roiTop
    (Or.inl rfl) roiWidth roiHeight kW kH c hW hH hkW hkH huni integral
  have hwhite := IsodataWrites_uniform_white imagedata 1 bytes_per_line roiLeft roiTop
    (Or.inl rfl) roiWidth roiHeight kW kH c hW hH hkW hkH huni integral
  refine ⟨fun p hp => le_of_eq (hint p hp), le_of_eq hrem, hwhite, ?_⟩
  intro pixdata wpl hz k
  exact applyWrites_cleared wpl _ hwhite pixdata hz k

/-- C10, at the 10×10 ROI of constant intensity 200 with a 3×3 kernel. -/
theorem Isodata_uniform_all_background_witness :
    (∀ p ∈ interiorSweep 1 10 0 0 ((10 : Nat) : Int) ((10 : Nat) : Int) ((3 : Nat) : Int)
        ((3 : Nat) : Int),
      IsodataThreshold
        (CalcIntegral uniformRaster 1 10 0 0 ((10 : Nat) : Int) ((10 : Nat) : Int) 160
          (fun _ => 0))
        ((10 : Nat) : Int) ((10 : Nat) : Int) ((3 : Nat) : Int) ((3 : Nat) : Int)
        p.integral_index ≤ ((200 : Nat) : ℚ)) ∧
    IsodataRemainThreshold
      (CalcIntegral uniformRaster 1 10 0 0 ((10 : Nat) : Int) ((10 : Nat) : Int) 160
        (fun _ => 0))
      ((10 : Nat) : Int) ((10 : Nat) : Int) ≤ ((200 : Nat) : ℚ) ∧
    (∀ w ∈ IsodataWrites uniformRaster 1 10 0 0 ((10 : Nat) : Int) ((10 : Nat) : Int)
        ((3 : Nat) : Int) ((3 : Nat) : Int) (fun _ => 0), w.white_result = true) ∧
    ∀ (pixdata : Int → Nat) (wpl : Int), (∀ k, pixdata k = 0) →
      ∀ k, Isodata uniformRaster 1 10 0 0 ((10 : Nat) : Int) ((10 : Nat) : Int)
        ((3 : Nat) : Int) ((3 : Nat) : Int) pixdata wpl (fun _ => 0) k = 0 :=
  Isodata_uniform_all_background uniformRaster 10 0 0 10 10 3 3 200 (fun _ => 0)
    (by decide) (by decide) (by decide) (by decide)
    (fun i j _ _ => by simp [roiIntensity, sample, toGrey, uniformRaster])

/-! ## Uniform rasters, the Isodata midpoint and the sampled intensity -/

/-! ## Claims about the final cell, the midpoint threshold and the sampler -/

/-- The last cell of the first table of the two-table `CalcIntegral`. -/
theorem CalcIntegral2_last (imagedata : Int → Nat) (bpp bpl roiLeft roiTop : Int) (vN : ℚ)
    (hbpp : bpp = 1 ∨ bpp = 3 ∨ bpp = 4) (W H : Nat) (hW : 1 ≤ W) (hH : 1 ≤ H)
    (integral varIntegral : Int → ℚ) :
    (CalcIntegral2 imagedata bpp bpl roiLeft roiTop W H vN integral varIntegral).1
        ((W : Int) * H - 1)
      = (W : ℚ) * H * (sample imagedata bpp (roiTop * bpl + roiLeft * bpp) - vN) := by
  obtain ⟨w, rfl⟩ : ∃ w, W = w + 1 := ⟨W - 1, by omega⟩
  obtain ⟨h, rfl⟩ : ∃ h, H = h + 1 := ⟨H - 1, by omega⟩
  have e : ((w + 1 : Nat) : Int) * ((h + 1 : Nat) : Int) - 1
      = ((h : Nat) : Int) * ((w + 1 : Nat) : Int) + ((w : Nat) : Int) := by push_cast; ring
  rw [e, (CalcIntegral2_cell imagedata bpp bpl roiLeft roiTop _ vN hbpp _ (by push_cast; omega)
    integral varIntegral w h (by push_cast; omega) (by push_cast; omega)).1, cumSum_const]
  push_cast
  ring

/-- C13: for every ROI (width, height ≥ 1) in which every pixel has the same
intensity `c`, and for both the one-table and the two-table `CalcIntegral` with
any `vNormalize`, the final cell `integral[roiWidth*roiHeight - 1]` divided by
`roiWidth*roiHeight` plus `vNormalize` equals `c` in exact arithmetic. -/
theorem uniform_final_cell_mean (imagedata : Int → Nat)
    (bytes_per_pixel bytes_per_line roiLeft roiTop : Int) (roiWidth roiHeight : Nat)
    (vNormalize c : ℚ) (integral varIntegral : Int → ℚ)
    (hbpp : bytes_per_pixel = 1 ∨ bytes_per_pixel = 3 ∨ bytes_per_pixel = 4)
    (hW : 1 ≤ roiWidth) (hH : 1 ≤ roiHeight)
    (huni : ∀ i j : Nat, i < roiWidth → j < roiHeight →
      roiIntensity imagedata bytes_per_pixel bytes_per_line roiLeft roiTop i j = c) :
    CalcIntegral imagedata bytes_per_pixel bytes_per_line roiLeft roiTop roiWidth roiHeight
        vNormalize integral ((roiWidth : Int) * roiHeight - 1)
        / (((roiWidth : Int) * (roiHeight : Int) : Int) : ℚ) + vNormalize = c ∧
    (CalcIntegral2 imagedata bytes_per_pixel bytes_per_line roiLeft roiTop roiWidth roiHeight
        vNormalize integral varIntegral).1 ((roiWidth : Int) * roiHeight - 1)
        / (((roiWidth : Int) * (roiHeight : Int) : Int) : ℚ) + vNormalize = c := by
  have hWq : (roiWidth : ℚ) ≠ 0 := by positivity
  have hHq : (roiHeight : ℚ) ≠ 0 := by positivity
  constructor
  · rw [CalcIntegral_mean imagedata bytes_per_pixel bytes_per_line roiLeft roiTop vNormalize hbpp
      roiWidth roiHeight hW hH integral,
      rectSum_uniform _ c roiWidth roiHeight 0 0 roiWidth roiHeight huni (by omega) (by omega)]
    field_simp
  · have hc : sample imagedata bytes_per_pixel
        (roiTop * bytes_per_line + roiLeft * bytes_per_pixel) = c := by
      rw [← huni 0 0 (by omega) (by omega)]
      simp [roiIntensity]
    rw [CalcIntegral2_last imagedata bytes_per_pixel bytes_per_line roiLeft roiTop vNormalize hbpp
      roiWidth roiHeight hW hH integral varIntegral, hc]
    push_cast
    field_simp

/-- C13, at the 10×10 ROI of constant intensity 200 with `vNormalize = 160`. -/
theorem uniform_final_cell_mean_witness :
    CalcIntegral uniformRaster 1 10 0 0 ((10 : Nat) : Int) ((10 : Nat) : Int) 160 (fun _ => 0)
        ((((10 : Nat) : Int)) * ((10 : Nat) : Int) - 1)
        / (((((10 : Nat) : Int)) * (((10 : Nat) : Int)) : Int) : ℚ) + 160 = 200 ∧
    (CalcIntegral2 uniformRaster 1 10 0 0 ((10 : Nat) : Int) ((10 : Nat) : Int) 160 (fun _ => 0)
        (fun _ => 0)).1 ((((10 : Nat) : Int)) * ((10 : Nat) : Int) - 1)
        / (((((10 : Nat) : Int)) * (((10 : Nat) : Int)) : Int) : ℚ) + 160 = 200 :=
  uniform_final_cell_mean uniformRaster 1 10 0 0 10 10 160 200 (fun _ => 0) (fun _ => 0)
    (Or.inl rfl) (by decide) (by decide)
    (fun i j _ _ => by simp [roiIntensity, sample, toGrey, uniformRaster])

/-- C14: at every iteration of the interior sweep of `Isodata`, with `(cx, ry)`
the top-left pixel of the window of the pixel `(cx + kW/2, ry + kH/2)`, the
threshold is exactly midway between the local mean and the estimated
background: `threshold = (windowMean + backgroundAmplitude) / 2`, where
`windowMean` is the mean intensity of the pixel's kernel window and
`backgroundAmplitude` is the mean intensity of the ROI. -/
theorem Isodata_threshold_midpoint (imagedata : Int → Nat)
    (bytes_per_pixel bytes_per_line roiLeft roiTop : Int) (roiWidth roiHeight kW kH : Nat)
    (integral : Int → ℚ)
    (hbpp : bytes_per_pixel = 1 ∨ bytes_per_pixel = 3 ∨ bytes_per_pixel = 4)
    (hkW : 1 ≤ kW) (hkH : 1 ≤ kH) (p : SweepPos)
    (hp : p ∈ interiorSweep bytes_per_pixel bytes_per_line roiLeft roiTop roiWidth roiHeight
      kW kH) :
    ∃ cx ry : Nat, p.integral_index = ry * roiWidth + cx ∧
      p.row = ((ry + kH / 2 : Nat) : Int) ∧ p.dstPixel = ((cx + kW / 2 : Nat) : Int) ∧
      (let windowMean :=
          (∑ j ∈ Finset.range kH, ∑ i ∈ Finset.range kW,
            roiIntensity imagedata bytes_per_pixel bytes_per_line roiLeft roiTop (cx + i) (ry + j))
            / ((kW : ℚ) * kH)
       let backgroundAmplitude :=
          (∑ j ∈ Finset.range roiHeight, ∑ i ∈ Finset.range roiWidth,
            roiIntensity imagedata bytes_per_pixel bytes_per_line roiLeft roiTop i j)
            / ((roiWidth : ℚ) * roiHeight)
       IsodataThreshold
          (CalcIntegral imagedata bytes_per_pixel bytes_per_line roiLeft roiTop roiWidth
            roiHeight 160 integral)
          roiWidth roiHeight kW kH p.integral_index
        = (windowMean + backgroundAmplitude) / 2) := by
  rw [mem_interiorSweep] at hp
  obtain ⟨j, i, hj, hi, rfl⟩ := hp
  refine ⟨1 + i, 1 + j, by push_cast; ring, ?_, ?_, ?_⟩
  · simp only [shiftRight_one_natCast]; push_cast; ring
  · simp only [shiftRight_one_natCast]; push_cast; ring
  · have e : (1 + (j : Int)) * (roiWidth : Int) + 1 + (i : Int)
        = ((1 + j : Nat) : Int) * (roiWidth : Int) + ((1 + i : Nat) : Int) := by
      push_cast; ring
    simp only [e]
    rw [IsodataThreshold_means imagedata bytes_per_pixel bytes_per_line roiLeft roiTop hbpp
      roiWidth roiHeight kW kH (1 + i) (1 + j) hkW hkH (by omega) (by omega) (by omega)
      (by omega) integral]
    simp only [rectSum, Nat.zero_add]
    ring

/-- C14, at a 10×10 ROI with a 3×3 kernel, first interior iteration. -/
theorem Isodata_threshold_midpoint_witness :
    ∃ cx ry : Nat, (11 : Int) = ry * ((10 : Nat) : Int) + cx ∧
      (2 : Int) = ((ry + 3 / 2 : Nat) : Int) ∧ (2 : Int) = ((cx + 3 / 2 : Nat) : Int) ∧
      (let windowMean :=
          (∑ j ∈ Finset.range 3, ∑ i ∈ Finset.range 3,
            roiIntensity uniformRaster 1 10 0 0 (cx + i) (ry + j))
            / (((3 : Nat) : ℚ) * ((3 : Nat) : ℚ))
       let backgroundAmplitude :=
          (∑ j ∈ Finset.range 10, ∑ i ∈ Finset.range 10,
            roiIntensity uniformRaster 1 10 0 0 i j)
            / (((10 : Nat) : ℚ) * ((10 : Nat) : ℚ))
       IsodataThreshold
          (CalcIntegral uniformRaster 1 10 0 0 ((10 : Nat) : Int) ((10 : Nat) : Int) 160
            (fun _ => 0))
          ((10 : Nat) : Int) ((10 : Nat) : Int) ((3 : Nat) : Int) ((3 : Nat) : Int) 11
        = (windowMean + backgroundAmplitude) / 2) :=
  Isodata_threshold_midpoint uniformRaster 1 10 0 0 10 10 3 3 (fun _ => 0) (Or.inl rfl)
    (by decide) (by decide)
    { row := 2, x := 1, integral_index := 11, image_index := 22, dstPixel := 2 } (by decide)

/-- C15: the intensity sampled at byte offset `p` is, for `bytes_per_pixel = 1`,
the byte at `p`, and for `bytes_per_pixel = 3` or `4` the exact quotient
`(29*R + 150*G + 77*B + 128) / 256` with `R` the pixel's last byte, `G` its
second-to-last byte and `B` its third-to-last byte; two rasters that agree on
those bytes give the same intensity (for 4-byte pixels the first byte has no
influence). -/
theorem sample_luma (imagedata : Int → Nat) (p : Int) :
    sample imagedata 1 p = (imagedata p : ℚ) ∧
    sample imagedata 3 p
      = (29 * (imagedata (p + 2) : ℚ) + 150 * (imagedata (p + 1) : ℚ)
          + 77 * (imagedata (p + 0) : ℚ) + 128) / 256 ∧
    sample imagedata 4 p
      = (29 * (imagedata (p + 3) : ℚ) + 150 * (imagedata (p + 2) : ℚ)
          + 77 * (imagedata (p + 1) : ℚ) + 128) / 256 ∧
    (∀ imagedata2 : Int → Nat, imagedata2 p = imagedata p →
      sample imagedata2 1 p = sample imagedata 1 p) ∧
    (∀ imagedata2 : Int → Nat, imagedata2 (p + 2) = imagedata (p + 2) →
      imagedata2 (p + 1) = imagedata (p + 1) → imagedata2 (p + 0) = imagedata (p + 0) →
      sample imagedata2 3 p = sample imagedata 3 p) ∧
    (∀ imagedata2 : Int → Nat, imagedata2 (p + 3) = imagedata (p + 3) →
      imagedata2 (p + 2) = imagedata (p + 2) → imagedata2 (p + 1) = imagedata (p + 1) →
      sample imagedata2 4 p = sample imagedata 4 p) := by
  have h1 : ∀ f : Int → Nat, sample f 1 p = (f p : ℚ) := by
    intro f; simp [sample, toGrey]
  have h3 : ∀ f : Int → Nat, sample f 3 p
      = (29 * (f (p + 2) : ℚ) + 150 * (f (p + 1) : ℚ) + 77 * (f (p + 0) : ℚ) + 128) / 256 := by
    intro f
    simp [sample, toGrey, floatGrey]
    ring
  have h4 : ∀ f : Int → Nat, sample f 4 p
      = (29 * (f (p + 3) : ℚ) + 150 * (f (p + 2) : ℚ) + 77 * (f (p + 1) : ℚ) + 128) / 256 := by
    intro f
    simp [sample, toGrey, floatGrey]
    ring
  refine ⟨h1 _, h3 _, h4 _, ?_, ?_, ?_⟩
  · intro g hg; rw [h1, h1, hg]
  · intro g hr hg hb; rw [h3, h3, hr, hg, hb]
  · intro g hr hg hb; rw [h4, h4, hr, hg, hb]

/-! ## Degenerate kernels, scan-line counts and read bounds -/

/-- C15, at a 4-byte pixel with bytes 9, 30, 60, 90 at offset 0. -/
theorem sample_luma_witness :
    sample (fun i => if i = 0 then 9 else (i * 30).toNat) 1 0
      = (((fun i : Int => if i = 0 then 9 else (i * 30).toNat) 0 : Nat) : ℚ) ∧
    sample (fun i => if i = 0 then 9 else (i * 30).toNat) 3 0
      = (29 * (((fun i : Int => if i = 0 then 9 else (i * 30).toNat) (0 + 2) : Nat) : ℚ)
          + 150 * (((fun i : Int => if i = 0 then 9 else (i * 30).toNat) (0 + 1) : Nat) : ℚ)
          + 77 * (((fun i : Int => if i = 0 then 9 else (i * 30).toNat) (0 + 0) : Nat) : ℚ)
          + 128) / 256 ∧
    sample (fun i => if i = 0 then 9 else (i * 30).toNat) 4 0
      = (29 * (((fun i : Int => if i = 0 then 9 else (i * 30).toNat) (0 + 3) : Nat) : ℚ)
          + 150 * (((fun i : Int => if i = 0 then 9 else (i * 30).toNat) (0 + 2) : Nat) : ℚ)
          + 77 * (((fun i : Int => if i = 0 then 9 else (i * 30).toNat) (0 + 1) : Nat) : ℚ)
          + 128) / 256 :=
  ⟨(sample_luma (fun i => if i = 0 then 9 else (i * 30).toNat) 0).1,
   (sample_luma (fun i => if i = 0 then 9 else (i * 30).toNat) 0).2.1,
   (sample_luma (fun i => if i = 0 then 9 else (i * 30).toNat) 0).2.2.1⟩

/-! ## Claims about the degenerate sweep, the scan-line count and the reads -/

/-- When the kernel is at least as large as the ROI in one dimension, the loop
nest of the interior sweep has no iteration. -/
theorem interiorSweep_empty (bpp bpl roiLeft roiTop roiWidth roiHeight kW kH : Int)
    (hbig : roiWidth ≤ kW ∨ roiHeight ≤ kH) :
    interiorSweep bpp bpl roiLeft roiTop roiWidth roiHeight kW kH = [] := by
  apply List.eq_nil_iff_forall_not_mem.2
  intro p hp
  rw [mem_interiorSweep] at hp
  obtain ⟨j, i, hj, hi, -⟩ := hp
  omega

/-- C16: whenever the kernel is as large as or larger than the ROI in either
dimension (`kernelWidth ≥ roiWidth` or `kernelHeight ≥ roiHeight`), the interior
sweep of `Isodata` and of `Sauvola` performs zero work: the body of the loop
nest is executed zero times (when only the width is degenerate, the row loop
steps over rows whose column loop is empty), so no integral cell is read and no
bit is written by it; the only writes of either function are those of
`ThresholdRemainRegions`. -/
theorem interior_sweep_zero_work {K : Type} [LinearOrderedField K] (sqrtK : K → K)
    (imagedata : Int → Nat) (bytes_per_pixel bytes_per_line : Int)
    (roiLeft roiTop roiWidth roiHeight kernelWidth kernelHeight : Int)
    (integral varIntegral : Int → ℚ)
    (hbig : kernelWidth ≥ roiWidth ∨ kernelHeight ≥ roiHeight) :
    interiorSweep bytes_per_pixel bytes_per_line roiLeft roiTop roiWidth roiHeight
      kernelWidth kernelHeight = [] ∧
    IsodataWrites imagedata bytes_per_pixel bytes_per_line roiLeft roiTop roiWidth roiHeight
        kernelWidth kernelHeight integral
      = ThresholdRemainRegions imagedata bytes_per_pixel bytes_per_line roiLeft roiTop roiWidth
          roiHeight kernelWidth kernelHeight
          (IsodataRemainThreshold
            (CalcIntegral imagedata bytes_per_pixel bytes_per_line roiLeft roiTop roiWidth
              roiHeight 160 integral) roiWidth roiHeight) ∧
    SauvolaWrites sqrtK imagedata bytes_per_pixel bytes_per_line roiLeft roiTop roiWidth
        roiHeight kernelWidth kernelHeight integral varIntegral
      = ThresholdRemainRegions imagedata bytes_per_pixel bytes_per_line roiLeft roiTop roiWidth
          roiHeight kernelWidth kernelHeight
          (SauvolaRemainThreshold
            (CalcIntegral2 imagedata bytes_per_pixel bytes_per_line roiLeft roiTop roiWidth
              roiHeight 160 integral varIntegral).1 roiWidth roiHeight) := by
  have h := interiorSweep_empty bytes_per_pixel bytes_per_line roiLeft roiTop roiWidth roiHeight
    kernelWidth kernelHeight hbig
  refine ⟨h, ?_, ?_⟩
  · simp only [IsodataWrites, h, List.map_nil, List.nil_append]
  · simp only [SauvolaWrites, h, List.map_nil, List.nil_append]

/-- C16, at a 3×10 ROI with a 3×3 kernel (kernel width equal to ROI width). -/
theorem interior_sweep_zero_work_witness :
    interiorSweep 1 3 0 0 3 10 3 3 = [] ∧
    IsodataWrites uniformRaster 1 3 0 0 3 10 3 3 (fun _ => 0)
      = ThresholdRemainRegions uniformRaster 1 3 0 0 3 10 3 3
          (IsodataRemainThreshold (CalcIntegral uniformRaster 1 3 0 0 3 10 160 (fun _ => 0))
            3 10) ∧
    SauvolaWrites Real.sqrt uniformRaster 1 3 0 0 3 10 3 3 (fun _ => 0) (fun _ => 0)
      = ThresholdRemainRegions uniformRaster 1 3 0 0 3 10 3 3
          (SauvolaRemainThreshold
            (CalcIntegral2 uniformRaster 1 3 0 0 3 10 160 (fun _ => 0) (fun _ => 0)).1 3 10) :=
  interior_sweep_zero_work Real.sqrt uniformRaster 1 3 0 0 3 10 3 3 (fun _ => 0) (fun _ => 0)
    (Or.inl (by decide))

/-- C17 (at the failing input): with a 3×2 ROI and a 1×2 kernel,
`GetRemainScanLines` computes `n = 1` and allocates its arrays with one element,
but its loops store three entries (rows 0, 1 and again 1), and
`ThresholdRemainRegions` reads back only the first. -/
theorem GetRemainScanLines_stores_past_n :
    (GetRemainScanLines 0 0 3 2 1 2).n = 1 ∧
    (GetRemainScanLines 0 0 3 2 1 2).entries = [⟨0, 0, 2⟩, ⟨1, 0, 2⟩, ⟨1, 0, 2⟩] ∧
    (GetRemainScanLines 0 0 3 2 1 2).entries.length = 3 ∧
    returnedScanLines 0 0 3 2 1 2 = [⟨0, 0, 2⟩] := by
  decide

/-- C18: for every ROI and kernel with all dimensions ≥ 1, at every iteration of
the interior sweep of `Isodata` and `Sauvola` each of the four indices
`integral_index + offset` (offsets from `CalcOffsets`) at which `integral` (and
`varIntegral`) is read lies in `[0, roiWidth*roiHeight)`, and the raster pixel
sampled for the comparison is a pixel `(c, r)` of the ROI. -/
theorem interior_reads_in_bounds (bytes_per_pixel bytes_per_line roiLeft roiTop : Int)
    (roiWidth roiHeight kW kH : Nat)
    (hkW : 1 ≤ kW) (hkH : 1 ≤ kH) (p : SweepPos)
    (hp : p ∈ interiorSweep bytes_per_pixel bytes_per_line roiLeft roiTop roiWidth roiHeight
      kW kH) :
    (let o := CalcOffsets roiWidth kW kH
     (0 ≤ p.integral_index + o.offsetBR ∧
        p.integral_index + o.offsetBR < (roiWidth : Int) * roiHeight) ∧
     (0 ≤ p.integral_index + o.offsetT_1R ∧
        p.integral_index + o.offsetT_1R < (roiWidth : Int) * roiHeight) ∧
     (0 ≤ p.integral_index + o.offsetB_L_1 ∧
        p.integral_index + o.offsetB_L_1 < (roiWidth : Int) * roiHeight) ∧
     (0 ≤ p.integral_index + o.offsetT_1L_1 ∧
        p.integral_index + o.offsetT_1L_1 < (roiWidth : Int) * roiHeight)) ∧
    ∃ c r : Nat, c < roiWidth ∧ r < roiHeight ∧
      p.image_index = (roiTop + r) * bytes_per_line + (roiLeft + c) * bytes_per_pixel := by
  rw [mem_interiorSweep] at hp
  obtain ⟨j, i, hj, hi, rfl⟩ := hp
  have hW : (0 : Int) < roiWidth := by omega
  have hj0 : (0 : Int) ≤ j := Int.ofNat_nonneg _
  have hi0 : (0 : Int) ≤ i := Int.ofNat_nonneg _
  have hjW : (0 : Int) ≤ (j : Int) * roiWidth := mul_nonneg hj0 hW.le
  have hkHW : (roiWidth : Int) ≤ (kH : Int) * roiWidth := by
    have : (1 : Int) ≤ kH := by exact_mod_cast hkH
    nlinarith
  have hrow : ((j : Int) + kH + 1) * roiWidth ≤ ((roiHeight : Int) - 1) * roiWidth := by
    apply Int.mul_le_mul_of_nonneg_right _ hW.le
    omega
  constructor
  · simp only [CalcOffsets]
    refine ⟨⟨by nlinarith, by nlinarith⟩, ⟨by nlinarith, by nlinarith⟩,
      ⟨by nlinarith, by nlinarith⟩, ⟨by nlinarith, by nlinarith⟩⟩
  · refine ⟨1 + i + kW / 2, 1 + j + kH / 2, by omega, by omega, ?_⟩
    simp only [shiftRight_one_natCast]
    push_cast
    ring

/-- C18, at a 10×10 ROI with a 3×3 kernel, first interior iteration. -/
theorem interior_reads_in_bounds_witness :
    (let o := CalcOffsets ((10 : Nat) : Int) ((3 : Nat) : Int) ((3 : Nat) : Int)
     (0 ≤ (11 : Int) + o.offsetBR ∧ (11 : Int) + o.offsetBR < ((10 : Nat) : Int) * (10 : Nat)) ∧
     (0 ≤ (11 : Int) + o.offsetT_1R ∧
        (11 : Int) + o.offsetT_1R < ((10 : Nat) : Int) * (10 : Nat)) ∧
     (0 ≤ (11 : Int) + o.offsetB_L_1 ∧
        (11 : Int) + o.offsetB_L_1 < ((10 : Nat) : Int) * (10 : Nat)) ∧
     (0 ≤ (11 : Int) + o.offsetT_1L_1 ∧
        (11 : Int) + o.offsetT_1L_1 < ((10 : Nat) : Int) * (10 : Nat))) ∧
    ∃ c r : Nat, c < 10 ∧ r < 10 ∧
      (22 : Int) = (0 + (r : Int)) * 10 + (0 + (c : Int)) * 1 :=
  interior_reads_in_bounds 1 10 0 0 10 10 3 3 (by decide) (by decide)
    { row := 2, x := 1, integral_index := 11, image_index := 22, dstPixel := 2 } (by decide)

/-- C19: for every raster, ROI and kernel with `kernelArea ≥ 2`, at every
iteration of the interior sweep of `Sauvola` the value whose square root is
taken, `(windowSqSum + kernelArea*vNormalize^2)/(kernelArea - 1) - localMean^2`,
is non-negative in exact arithmetic, so `stdDev` equals the square root of that
value clipped at 0 and the threshold is
`localMean * (1 + k * (stdDev/R - 1))`. -/
theorem Sauvola_radicand_nonneg (imagedata : Int → Nat)
    (bytes_per_pixel bytes_per_line roiLeft roiTop : Int) (roiWidth roiHeight kW kH : Nat)
    (integral varIntegral : Int → ℚ)
    (hbpp : bytes_per_pixel = 1 ∨ bytes_per_pixel = 3 ∨ bytes_per_pixel = 4)
    (hk : 2 ≤ kW * kH) (p : SweepPos)
    (hp : p ∈ interiorSweep bytes_per_pixel bytes_per_line roiLeft roiTop roiWidth roiHeight
      kW kH) :
    (let T := CalcIntegral2 imagedata bytes_per_pixel bytes_per_line roiLeft roiTop roiWidth
        roiHeight 160 integral varIntegral
     let windowSqSum := cornerSum T.2 (CalcOffsets roiWidth kW kH) p.integral_index
     let localMean := SauvolaLocalMean T.1 roiWidth kW kH p.integral_index
     let value := (windowSqSum + ((kW : ℚ) * kH) * 160 ^ 2) / ((kW : ℚ) * kH - 1)
        - localMean ^ 2
     value = SauvolaRadicand T.1 T.2 roiWidth kW kH p.integral_index ∧
     0 ≤ value ∧
     Real.sqrt ((value : ℚ) : ℝ) = Real.sqrt (max ((value : ℚ) : ℝ) 0) ∧
     SauvolaThreshold Real.sqrt T.1 T.2 roiWidth kW kH p.integral_index
      = ((localMean : ℚ) : ℝ)
          * (1 + 0.34 * (Real.sqrt (max ((value : ℚ) : ℝ) 0) / 128 - 1))) := by
  rw [mem_interiorSweep] at hp
  obtain ⟨j, i, hj, hi, rfl⟩ := hp
  have e : (1 + (j : Int)) * (roiWidth : Int) + 1 + (i : Int)
      = ((1 + j : Nat) : Int) * (roiWidth : Int) + ((1 + i : Nat) : Int) := by
    push_cast; ring
  simp only [e]
  obtain ⟨hm, hr⟩ := Sauvola_stats imagedata bytes_per_pixel bytes_per_line roiLeft roiTop hbpp
    roiWidth roiHeight kW kH (1 + i) (1 + j) hk (by omega) (by omega) (by omega) (by omega)
    integral varIntegral
  have hkq : (2 : ℚ) ≤ (kW : ℚ) * kH := by exact_mod_cast hk
  have hval : (cornerSum
      (CalcIntegral2 imagedata bytes_per_pixel bytes_per_line roiLeft roiTop roiWidth
        roiHeight 160 integral varIntegral).2 (CalcOffsets roiWidth kW kH)
      (((1 + j : Nat) : Int) * (roiWidth : Int) + ((1 + i : Nat) : Int))
        + ((kW : ℚ) * kH) * 160 ^ 2) / ((kW : ℚ) * kH - 1)
      - SauvolaLocalMean
        (CalcIntegral2 imagedata bytes_per_pixel bytes_per_line roiLeft roiTop roiWidth
          roiHeight 160 integral varIntegral).1 roiWidth kW kH
        (((1 + j : Nat) : Int) * (roiWidth : Int) + ((1 + i : Nat) : Int)) ^ 2
      = SauvolaRadicand
        (CalcIntegral2 imagedata bytes_per_pixel bytes_per_line roiLeft roiTop roiWidth
          roiHeight 160 integral varIntegral).1
        (CalcIntegral2 imagedata bytes_per_pixel bytes_per_line roiLeft roiTop roiWidth
          roiHeight 160 integral varIntegral).2 roiWidth kW kH
        (((1 + j : Nat) : Int) * (roiWidth : Int) + ((1 + i : Nat) : Int)) := by
    simp only [SauvolaRadicand, SauvolaLocalVar]
    push_cast
    have e1 : ((kW : ℚ) * kH - 1.0) = (kW : ℚ) * kH - 1 := by norm_num
    rw [e1]
    ring
  have hnn : (0 : ℚ) ≤ SauvolaRadicand
      (CalcIntegral2 imagedata bytes_per_pixel bytes_per_line roiLeft roiTop roiWidth
        roiHeight 160 integral varIntegral).1
      (CalcIntegral2 imagedata bytes_per_pixel bytes_per_line roiLeft roiTop roiWidth
        roiHeight 160 integral varIntegral).2 roiWidth kW kH
      (((1 + j : Nat) : Int) * (roiWidth : Int) + ((1 + i : Nat) : Int)) := by
    rw [hr]
    apply div_nonneg (sq_nonneg _)
    linarith
  simp only [hval]
  have hnnR : (0 : ℝ) ≤ ((SauvolaRadicand
      (CalcIntegral2 imagedata bytes_per_pixel bytes_per_line roiLeft roiTop roiWidth
        roiHeight 160 integral varIntegral).1
      (CalcIntegral2 imagedata bytes_per_pixel bytes_per_line roiLeft roiTop roiWidth
        roiHeight 160 integral varIntegral).2 roiWidth kW kH
      (((1 + j : Nat) : Int) * (roiWidth : Int) + ((1 + i : Nat) : Int)) : ℚ) : ℝ) := by
    exact_mod_cast hnn
  refine ⟨trivial, hnn, by rw [max_eq_left hnnR], ?_⟩
  rw [max_eq_left hnnR]
  simp only [SauvolaThreshold]
  ring

/-- C19 at the first interior position of a uniform 10×10 ROI with a 3×3 kernel. -/
theorem Sauvola_radicand_nonneg_witness :
    (let T := CalcIntegral2 uniformRaster 1 10 0 0 ((10 : Nat) : Int) ((10 : Nat) : Int) 160
        (fun _ => 0) (fun _ => 0)
     let windowSqSum := cornerSum T.2
        (CalcOffsets ((10 : Nat) : Int) ((3 : Nat) : Int) ((3 : Nat) : Int)) 11
     let localMean := SauvolaLocalMean T.1 ((10 : Nat) : Int) ((3 : Nat) : Int) ((3 : Nat) : Int) 11
     let value := (windowSqSum + (((3 : Nat) : ℚ) * ((3 : Nat) : ℚ)) * 160 ^ 2)
          / (((3 : Nat) : ℚ) * ((3 : Nat) : ℚ) - 1)
        - localMean ^ 2
     value = SauvolaRadicand T.1 T.2 ((10 : Nat) : Int) ((3 : Nat) : Int) ((3 : Nat) : Int) 11 ∧
     0 ≤ value ∧
     Real.sqrt ((value : ℚ) : ℝ) = Real.sqrt (max ((value : ℚ) : ℝ) 0) ∧
     SauvolaThreshold Real.sqrt T.1 T.2 ((10 : Nat) : Int) ((3 : Nat) : Int) ((3 : Nat) : Int) 11
      = ((localMean : ℚ) : ℝ)
          * (1 + 0.34 * (Real.sqrt (max ((value : ℚ) : ℝ) 0) / 128 - 1))) :=
  Sauvola_radicand_nonneg uniformRaster 1 10 0 0 10 10 3 3 (fun _ => 0) (fun _ => 0)
    (Or.inl rfl) (by decide)
    { row := 2, x := 1, integral_index := 11, image_index := 22, dstPixel := 2 } (by decide)

/-! ## Counting the written pixels -/

/-! ## Counting the destination pixels -/

/-- A run of `n` pixels of row `r0` starting at column `c0` holds the pixel
`(r, c)` once if it lies in the run and not at all otherwise. -/
theorem count_run (n : Nat) (r0 c0 r c : Int) :
    ((List.range n).map fun (i : Nat) => (r0, c0 + (i : Int))).count (r, c)
      = if r = r0 ∧ c0 ≤ c ∧ c < c0 + n then 1 else 0 := by
  induction n with
  | zero =>
    simp only [List.range_zero, List.map_nil, List.count_nil]
    rw [if_neg]
    push_cast
    omega
  | succ n ih =>
    rw [List.range_succ, List.map_append, List.count_append, ih, List.map_singleton,
      List.count_singleton]
    simp only [beq_iff_eq, Prod.mk.injEq]
    push_cast
    split_ifs <;> omega

theorem count_run_of (f : Nat → Int × Int) (n : Nat) (r0 c0 r c : Int)
    (hf : ∀ i : Nat, f i = (r0, c0 + (i : Int))) :
    ((List.range n).map f).count (r, c)
      = if r = r0 ∧ c0 ≤ c ∧ c < c0 + n then 1 else 0 := by
  rw [← count_run n r0 c0 r c]
  congr 1
  exact List.map_congr_left fun i _ => hf i

/-- Rows `r0, r0+1, ..` whose pixels are chosen by a condition `P` on the
column alone. -/
theorem count_rows (g : Nat → List (Int × Int)) (x : Int × Int) (r0 r : Int)
    (P : Prop) [Decidable P]
    (hg : ∀ j : Nat, (g j).count x = if r = r0 + (j : Int) ∧ P then 1 else 0) (m : Nat) :
    ((List.range m).flatMap g).count x
      = if r0 ≤ r ∧ r < r0 + (m : Int) ∧ P then 1 else 0 := by
  induction m with
  | zero =>
    simp only [List.range_zero, List.flatMap_nil, List.count_nil]
    rw [if_neg]
    push_cast
    omega
  | succ m ih =>
    rw [List.range_succ, List.flatMap_append, List.count_append, ih, List.flatMap_singleton,
      hg m]
    clear ih hg
    push_cast
    by_cases hP : P
    · simp only [hP, and_true]
      split_ifs <;> omega
    · simp only [hP, and_false, if_false]

theorem count_scanLinePixels (roiLeft roiTop : Int) (sl : ScanLine) (r c : Int) :
    (scanLinePixels roiLeft roiTop sl).count (r, c)
      = if r = sl.y - roiTop ∧ sl.x0 - roiLeft ≤ c
          ∧ c < sl.x0 - roiLeft + ((sl.x1 + 1 - sl.x0).toNat : Int) then 1 else 0 :=
  count_run _ _ _ r c

/-- How often the interior sweep writes the pixel in row `r`, column `c`. -/
theorem count_interiorPixels (bpp bpl roiLeft roiTop : Int) (W H kW kH : Nat) (r c : Int) :
    (interiorPixels bpp bpl roiLeft roiTop W H kW kH).count (r, c)
      = if (1 + ((kH / 2 : Nat) : Int) ≤ r ∧ r < (H : Int) - kH + ((kH / 2 : Nat) : Int))
          ∧ (1 + ((kW / 2 : Nat) : Int) ≤ c ∧ c < (W : Int) - kW + ((kW / 2 : Nat) : Int))
        then 1 else 0 := by
  unfold interiorPixels interiorSweep
  simp only [List.map_flatMap, sweepRow_eq, List.map_map, Function.comp, shiftRight_one_natCast]
  rw [count_rows _ (r, c) (1 + ((kH / 2 : Nat) : Int)) r
    (1 + ((kW / 2 : Nat) : Int) ≤ c ∧ c < (W : Int) - kW + ((kW / 2 : Nat) : Int))]
  · apply if_congr _ rfl rfl
    constructor
    · rintro ⟨h1, h2, h3⟩
      exact ⟨⟨h1, by omega⟩, h3⟩
    · rintro ⟨⟨h1, h2⟩, h3⟩
      exact ⟨h1, by omega, h3⟩
  · intro j
    rw [count_run_of _ _ (1 + ((kH / 2 : Nat) : Int) + (j : Int)) (1 + ((kW / 2 : Nat) : Int))
      r c (fun i => by
        simp only [Function.comp, Prod.mk.injEq]
        exact ⟨by ring, by ring⟩)]
    apply if_congr _ rfl rfl
    constructor
    · rintro ⟨h1, h2, h3⟩
      exact ⟨by omega, by omega, by omega⟩
    · rintro ⟨h1, h2, h3⟩
      exact ⟨by omega, by omega, by omega⟩

/-- How often the segments returned by `GetRemainScanLines` hold the pixel in
row `r`, column `c`, when the kernel is strictly smaller than the ROI. -/
theorem count_remainPixels (roiLeft roiTop : Int) (W H kW kH : Nat)
    (hW : kW < W) (hH : kH < H) (r c : Int) :
    (remainPixels roiLeft roiTop W H kW kH).count (r, c)
      = (if 0 ≤ r ∧ r < ((kH / 2 + 1 : Nat) : Int) ∧ (0 ≤ c ∧ c < (W : Int)) then 1 else 0)
        + (if ((kH / 2 + 1 : Nat) : Int) ≤ r ∧ r < (H : Int) - ((kH / 2 : Nat) : Int)
            ∧ ((0 ≤ c ∧ c ≤ ((kW / 2 : Nat) : Int))
              ∨ ((W : Int) - ((kW / 2 : Nat) : Int) ≤ c ∧ c < (W : Int))) then 1 else 0)
        + (if (H : Int) - ((kH / 2 : Nat) : Int) ≤ r ∧ r < (H : Int)
            ∧ (0 ≤ c ∧ c < (W : Int)) then 1 else 0) := by
  unfold remainPixels
  rw [returnedScanLines_bands roiLeft roiTop W H kW kH hW hH]
  simp only [List.flatMap_append, List.count_append, List.flatMap_map, List.flatMap_assoc,
    List.flatMap_cons, List.flatMap_nil, List.append_nil]
  congr 1
  · congr 1
    · rw [count_rows _ (r, c) 0 r (0 ≤ c ∧ c < (W : Int))]
      · apply if_congr _ rfl rfl
        constructor
        · rintro ⟨h1, h2, h3⟩
          exact ⟨h1, by omega, h3⟩
        · rintro ⟨h1, h2, h3⟩
          exact ⟨h1, by omega, h3⟩
      · intro j
        rw [count_scanLinePixels]
        apply if_congr _ rfl rfl
        simp only
        constructor
        · rintro ⟨h1, h2, h3⟩
          exact ⟨by omega, by omega, by omega⟩
        · rintro ⟨h1, h2, h3⟩
          exact ⟨by omega, by omega, by omega⟩
    · rw [count_rows _ (r, c) ((kH / 2 + 1 : Nat) : Int) r
        ((0 ≤ c ∧ c ≤ ((kW / 2 : Nat) : Int))
          ∨ ((W : Int) - ((kW / 2 : Nat) : Int) ≤ c ∧ c < (W : Int)))]
      · apply if_congr _ rfl rfl
        constructor
        · rintro ⟨h1, h2, h3⟩
          exact ⟨h1, by omega, h3⟩
        · rintro ⟨h1, h2, h3⟩
          exact ⟨h1, by omega, h3⟩
      · intro j
        rw [List.count_append, count_scanLinePixels, count_scanLinePixels]
        simp only
        split_ifs <;> omega
  · rw [count_rows _ (r, c) ((H : Int) - ((kH / 2 : Nat) : Int)) r (0 ≤ c ∧ c < (W : Int))]
    · apply if_congr _ rfl rfl
      constructor
      · rintro ⟨h1, h2, h3⟩
        exact ⟨h1, by omega, h3⟩
      · rintro ⟨h1, h2, h3⟩
        exact ⟨h1, by omega, h3⟩
    · intro j
      rw [count_scanLinePixels]
      apply if_congr _ rfl rfl
      simp only
      constructor
      · rintro ⟨h1, h2, h3⟩
        exact ⟨by omega, by omega, by omega⟩
      · rintro ⟨h1, h2, h3⟩
        exact ⟨by omega, by omega, by omega⟩

/-! ## Positions written by the two methods -/

/-! ## Positions of the writes of `Isodata` and `Sauvola` -/

theorem ThresholdRemainRegions_positions (imagedata : Int → Nat)
    (bpp bpl roiLeft roiTop roiWidth roiHeight kW kH : Int) (threshold : ℚ) :
    (ThresholdRemainRegions imagedata bpp bpl roiLeft roiTop roiWidth roiHeight kW kH
        threshold).map BitWrite.pos
      = remainPixels roiLeft roiTop roiWidth roiHeight kW kH := by
  unfold ThresholdRemainRegions remainPixels
  rw [List.map_flatMap]
  apply List.flatMap_congr
  intro sl _
  simp only [remainRow_eq, List.map_map, scanLinePixels]
  apply List.map_congr_left
  intro k _
  rfl

theorem IsodataWrites_positions (imagedata : Int → Nat)
    (bpp bpl roiLeft roiTop roiWidth roiHeight kW kH : Int) (integral : Int → ℚ) :
    (IsodataWrites imagedata bpp bpl roiLeft roiTop roiWidth roiHeight kW kH integral).map
        BitWrite.pos
      = interiorPixels bpp bpl roiLeft roiTop roiWidth roiHeight kW kH
        ++ remainPixels roiLeft roiTop roiWidth roiHeight kW kH := by
  unfold IsodataWrites
  simp only [List.map_append, ThresholdRemainRegions_positions, List.map_map]
  rfl

theorem SauvolaWrites_positions {K : Type} [LinearOrderedField K] (sqrtK : K → K)
    (imagedata : Int → Nat)
    (bpp bpl roiLeft roiTop roiWidth roiHeight kW kH : Int) (integral varIntegral : Int → ℚ) :
    (SauvolaWrites sqrtK imagedata bpp bpl roiLeft roiTop roiWidth roiHeight kW kH integral
        varIntegral).map BitWrite.pos
      = interiorPixels bpp bpl roiLeft roiTop roiWidth roiHeight kW kH
        ++ remainPixels roiLeft roiTop roiWidth roiHeight kW kH := by
  unfold SauvolaWrites
  simp only [List.map_append, ThresholdRemainRegions_positions, List.map_map]
  rfl

/-- Every destination pixel of the interior sweep and of the returned scan
lines lies inside the ROI. -/
theorem written_pixels_inside (bpp bpl roiLeft roiTop roiWidth roiHeight kW kH : Int)
    (hkW : 1 ≤ kW) (hkH : 1 ≤ kH) (q : Int × Int)
    (hq : q ∈ interiorPixels bpp bpl roiLeft roiTop roiWidth roiHeight kW kH
      ++ remainPixels roiLeft roiTop roiWidth roiHeight kW kH) :
    0 ≤ q.1 ∧ q.1 < roiHeight ∧ 0 ≤ q.2 ∧ q.2 < roiWidth := by
  rw [List.mem_append] at hq
  rcases hq with hq | hq
  · unfold interiorPixels at hq
    rw [List.mem_map] at hq
    obtain ⟨p, hp, rfl⟩ := hq
    rw [mem_interiorSweep] at hp
    obtain ⟨j, i, hj, hi, rfl⟩ := hp
    simp only [shiftRight_one]
    omega
  · unfold remainPixels at hq
    rw [List.mem_flatMap] at hq
    obtain ⟨sl, hsl, hq⟩ := hq
    obtain ⟨h1, h2, h3, h4⟩ := returnedScanLines_inside roiLeft roiTop roiWidth roiHeight kW kH
      hkW hkH sl hsl
    unfold scanLinePixels at hq
    rw [List.mem_map] at hq
    obtain ⟨k, hk, rfl⟩ := hq
    rw [List.mem_range] at hk
    simp only
    omega

/-- C20: for every kernel whose width and height are both even and every ROI
with `roiWidth > kernelWidth` and `roiHeight > kernelHeight`, the destination
pixels of the interior sweep and the pixels of the segments of
`GetRemainScanLines` partition the ROI: each ROI pixel `(r, c)` occurs exactly
once among them, hence is written exactly once by `Isodata` and by `Sauvola`. -/
theorem even_kernel_partition {K : Type} [LinearOrderedField K] (sqrtK : K → K)
    (imagedata : Int → Nat) (bytes_per_pixel bytes_per_line roiLeft roiTop : Int)
    (roiWidth roiHeight kW kH : Nat) (integral varIntegral : Int → ℚ)
    (hkWe : kW % 2 = 0) (hkHe : kH % 2 = 0) (hW : kW < roiWidth) (hH : kH < roiHeight)
    (r c : Nat) (hr : r < roiHeight) (hc : c < roiWidth) :
    writeCount bytes_per_pixel bytes_per_line roiLeft roiTop roiWidth roiHeight kW kH r c = 1 ∧
    ((IsodataWrites imagedata bytes_per_pixel bytes_per_line roiLeft roiTop roiWidth roiHeight
        kW kH integral).map BitWrite.pos).count ((r : Int), (c : Int)) = 1 ∧
    ((SauvolaWrites sqrtK imagedata bytes_per_pixel bytes_per_line roiLeft roiTop roiWidth
        roiHeight kW kH integral varIntegral).map BitWrite.pos).count ((r : Int), (c : Int))
      = 1 := by
  have h : (interiorPixels bytes_per_pixel bytes_per_line roiLeft roiTop roiWidth roiHeight kW kH
      ++ remainPixels roiLeft roiTop roiWidth roiHeight kW kH).count ((r : Int), (c : Int))
      = 1 := by
    rw [List.count_append, count_interiorPixels, count_remainPixels _ _ _ _ _ _ hW hH]
    split_ifs <;> omega
  refine ⟨h, ?_, ?_⟩
  · rw [IsodataWrites_positions]; exact h
  · rw [SauvolaWrites_positions]; exact h

/-- C20, at a 10×10 ROI with a 4×4 kernel, pixel row 7, column 7. -/
theorem even_kernel_partition_witness :
    writeCount 1 10 0 0 ((10 : Nat) : Int) ((10 : Nat) : Int) ((4 : Nat) : Int) ((4 : Nat) : Int)
      ((7 : Nat) : Int) ((7 : Nat) : Int) = 1 ∧
    ((IsodataWrites uniformRaster 1 10 0 0 ((10 : Nat) : Int) ((10 : Nat) : Int)
        ((4 : Nat) : Int) ((4 : Nat) : Int) (fun _ => 0)).map BitWrite.pos).count
      (((7 : Nat) : Int), ((7 : Nat) : Int)) = 1 ∧
    ((SauvolaWrites Real.sqrt uniformRaster 1 10 0 0 ((10 : Nat) : Int) ((10 : Nat) : Int)
        ((4 : Nat) : Int) ((4 : Nat) : Int) (fun _ => 0) (fun _ => 0)).map BitWrite.pos).count
      (((7 : Nat) : Int), ((7 : Nat) : Int)) = 1 :=
  even_kernel_partition Real.sqrt uniformRaster 1 10 0 0 10 10 4 4 (fun _ => 0) (fun _ => 0)
    (by decide) (by decide) (by decide) (by decide) 7 7 (by decide) (by decide)

/-! ## Bits of the destination bitmap -/

/-! ## Bits of the bitmap -/

theorem dataBitMask_testBit (n : Int) (b : Nat) :
    (dataBitMask n).testBit b = decide (b = dataBitIndex n) := by
  unfold dataBitMask dataBitIndex
  have h31 : (0x80000000 : Nat) = 2 ^ 31 := by norm_num
  rw [h31, Nat.testBit_shiftRight, Nat.testBit_two_pow]
  have hs : (n % 32).toNat ≤ 31 := by omega
  congr 1
  apply propext
  omega

theorem allOnes_testBit (b : Nat) (hb : b < 32) : (0xFFFFFFFF : Nat).testBit b = true := by
  have h : (0xFFFFFFFF : Nat) = 2 ^ 32 - 1 := by norm_num
  rw [h, Nat.testBit_two_pow_sub_one]
  exact decide_eq_true hb

/-- The effect of one bit write on bit `b < 32` of word `k`: the bit of the
written pixel becomes the negation of `white_result`, every other bit keeps
its value. -/
theorem applyWrite_testBit (wpl : Int) (pixdata : Int → Nat) (w : BitWrite) (k : Int) (b : Nat)
    (hb : b < 32) :
    (applyWrite wpl pixdata w k).testBit b
      = if k = w.row * wpl + w.dstPixel / 32 ∧ b = dataBitIndex w.dstPixel
        then !w.white_result else (pixdata k).testBit b := by
  unfold applyWrite
  by_cases hk : k = w.row * wpl + w.dstPixel / 32
  · subst hk
    cases hw : w.white_result
    · simp only [Bool.false_eq_true, if_false, SET_DATA_BIT, Function.update_same,
        Nat.testBit_or, dataBitMask_testBit, true_and, Bool.not_false]
      by_cases hbb : b = dataBitIndex w.dstPixel
      · simp [hbb]
      · simp [hbb]
    · simp only [if_true, CLEAR_DATA_BIT, Function.update_same, Nat.testBit_and,
        Nat.testBit_xor, dataBitMask_testBit, allOnes_testBit b hb, true_and, Bool.not_true]
      by_cases hbb : b = dataBitIndex w.dstPixel
      · simp [hbb]
      · simp [hbb]
  · have hne : ¬ (k = w.row * wpl + w.dstPixel / 32 ∧ b = dataBitIndex w.dstPixel) :=
      fun h => hk h.1
    rw [if_neg hne]
    cases hw : w.white_result
    · simp only [Bool.false_eq_true, if_false, SET_DATA_BIT, Function.update_noteq hk]
    · simp only [if_true, CLEAR_DATA_BIT, Function.update_noteq hk]

/-- Frame: a bit that is the bit of no written pixel keeps its value. -/
theorem applyWrites_testBit_frame (wpl : Int) (ws : List BitWrite) (k : Int) (b : Nat)
    (hb : b < 32)
    (hws : ∀ w ∈ ws, ¬ (k = w.row * wpl + w.dstPixel / 32 ∧ b = dataBitIndex w.dstPixel)) :
    ∀ pixdata : Int → Nat, (applyWrites wpl pixdata ws k).testBit b = (pixdata k).testBit b := by
  induction ws with
  | nil => intro pixdata; rfl
  | cons w ws ih =>
    intro pixdata
    show (applyWrites wpl (applyWrite wpl pixdata w) ws k).testBit b = _
    rw [ih (fun w' hw' => hws w' (List.mem_cons_of_mem _ hw')), applyWrite_testBit _ _ _ _ _ hb,
      if_neg (hws w (List.mem_cons_self _ _))]

/-- A bit that is the bit of some written pixel, all of whose writes carry the
same `white_result`, ends as the negation of that value. -/
theorem applyWrites_testBit_written (wpl : Int) (ws : List BitWrite) (k : Int) (b : Nat)
    (hb : b < 32) (v : Bool)
    (hall : ∀ w ∈ ws, (k = w.row * wpl + w.dstPixel / 32 ∧ b = dataBitIndex w.dstPixel) →
      w.white_result = v)
    (hex : ∃ w ∈ ws, k = w.row * wpl + w.dstPixel / 32 ∧ b = dataBitIndex w.dstPixel) :
    ∀ pixdata : Int → Nat, (applyWrites wpl pixdata ws k).testBit b = !v := by
  induction ws with
  | nil =>
    obtain ⟨w, hw, -⟩ := hex
    exact absurd hw (List.not_mem_nil _)
  | cons w ws ih =>
    intro pixdata
    show (applyWrites wpl (applyWrite wpl pixdata w) ws k).testBit b = _
    by_cases hlater : ∃ w' ∈ ws,
        k = w'.row * wpl + w'.dstPixel / 32 ∧ b = dataBitIndex w'.dstPixel
    · exact ih (fun w' hw' => hall w' (List.mem_cons_of_mem _ hw')) hlater _
    · have hnone : ∀ w' ∈ ws,
          ¬ (k = w'.row * wpl + w'.dstPixel / 32 ∧ b = dataBitIndex w'.dstPixel) :=
        fun w' hw' h => hlater ⟨w', hw', h⟩
      obtain ⟨w0, hw0, ht⟩ := hex
      have hw0eq : w0 = w := by
        rcases List.mem_cons.1 hw0 with h | h
        · exact h
        · exact absurd ht (hnone w0 h)
      subst hw0eq
      rw [applyWrites_testBit_frame wpl ws k b hb hnone, applyWrite_testBit _ _ _ _ _ hb,
        if_pos ht, hall w0 (List.mem_cons_self _ _) ht]

/-- C12: for every ROI and every kernel (width, height ≥ 1), every bit position
that `Isodata` or `Sauvola` writes, in the interior sweep or in
`ThresholdRemainRegions` over the segments of `GetRemainScanLines`, lies inside
the ROI (`0 ≤ row < roiHeight`, `0 ≤ column < roiWidth`), and every bit of the
bitmap that is not the bit of a ROI pixel is unchanged. -/
theorem writes_inside_roi {K : Type} [LinearOrderedField K] (sqrtK : K → K)
    (imagedata : Int → Nat) (bytes_per_pixel bytes_per_line : Int)
    (roiLeft roiTop roiWidth roiHeight kernelWidth kernelHeight : Int)
    (integral varIntegral : Int → ℚ)
    (hkW : 1 ≤ kernelWidth) (hkH : 1 ≤ kernelHeight) :
    (∀ w ∈ IsodataWrites imagedata bytes_per_pixel bytes_per_line roiLeft roiTop roiWidth
        roiHeight kernelWidth kernelHeight integral,
      0 ≤ w.row ∧ w.row < roiHeight ∧ 0 ≤ w.dstPixel ∧ w.dstPixel < roiWidth) ∧
    (∀ w ∈ SauvolaWrites sqrtK imagedata bytes_per_pixel bytes_per_line roiLeft roiTop roiWidth
        roiHeight kernelWidth kernelHeight integral varIntegral,
      0 ≤ w.row ∧ w.row < roiHeight ∧ 0 ≤ w.dstPixel ∧ w.dstPixel < roiWidth) ∧
    (∀ (pixdata : Int → Nat) (wpl k : Int) (b : Nat), b < 32 →
      (∀ r c : Int, 0 ≤ r → r < roiHeight → 0 ≤ c → c < roiWidth →
        ¬ (k = r * wpl + c / 32 ∧ b = dataBitIndex c)) →
      (Isodata imagedata bytes_per_pixel bytes_per_line roiLeft roiTop roiWidth roiHeight
          kernelWidth kernelHeight pixdata wpl integral k).testBit b
        = (pixdata k).testBit b) ∧
    (∀ (pixdata : Int → Nat) (wpl k : Int) (b : Nat), b < 32 →
      (∀ r c : Int, 0 ≤ r → r < roiHeight → 0 ≤ c → c < roiWidth →
        ¬ (k = r * wpl + c / 32 ∧ b = dataBitIndex c)) →
      (Sauvola sqrtK imagedata bytes_per_pixel bytes_per_line roiLeft roiTop roiWidth roiHeight
          kernelWidth kernelHeight pixdata wpl integral varIntegral k).testBit b
        = (pixdata k).testBit b) := by
  have hI : ∀ w ∈ IsodataWrites imagedata bytes_per_pixel bytes_per_line roiLeft roiTop roiWidth
      roiHeight kernelWidth kernelHeight integral,
      0 ≤ w.row ∧ w.row < roiHeight ∧ 0 ≤ w.dstPixel ∧ w.dstPixel < roiWidth := by
    intro w hw
    have hpos : w.pos ∈ (IsodataWrites imagedata bytes_per_pixel bytes_per_line roiLeft roiTop
        roiWidth roiHeight kernelWidth kernelHeight integral).map BitWrite.pos :=
      List.mem_map_of_mem _ hw
    rw [IsodataWrites_positions] at hpos
    exact written_pixels_inside _ _ _ _ _ _ _ _ hkW hkH _ hpos
  have hS : ∀ w ∈ SauvolaWrites sqrtK imagedata bytes_per_pixel bytes_per_line roiLeft roiTop
      roiWidth roiHeight kernelWidth kernelHeight integral varIntegral,
      0 ≤ w.row ∧ w.row < roiHeight ∧ 0 ≤ w.dstPixel ∧ w.dstPixel < roiWidth := by
    intro w hw
    have hpos : w.pos ∈ (SauvolaWrites sqrtK imagedata bytes_per_pixel bytes_per_line roiLeft
        roiTop roiWidth roiHeight kernelWidth kernelHeight integral varIntegral).map
        BitWrite.pos := List.mem_map_of_mem _ hw
    rw [SauvolaWrites_positions] at hpos
    exact written_pixels_inside _ _ _ _ _ _ _ _ hkW hkH _ hpos
  refine ⟨hI, hS, ?_, ?_⟩
  · intro pixdata wpl k b hb hout
    unfold Isodata
    apply applyWrites_testBit_frame wpl _ k b hb
    intro w hw
    obtain ⟨h1, h2, h3, h4⟩ := hI w hw
    exact hout w.row w.dstPixel h1 h2 h3 h4
  · intro pixdata wpl k b hb hout
    unfold Sauvola
    apply applyWrites_testBit_frame wpl _ k b hb
    intro w hw
    obtain ⟨h1, h2, h3, h4⟩ := hS w hw
    exact hout w.row w.dstPixel h1 h2 h3 h4

/-- C12, at the 10×10 ROI with a 3×3 kernel. -/
theorem writes_inside_roi_witness :
    (∀ w ∈ IsodataWrites uniformRaster 1 10 0 0 10 10 3 3 (fun _ => 0),
      0 ≤ w.row ∧ w.row < 10 ∧ 0 ≤ w.dstPixel ∧ w.dstPixel < 10) ∧
    (∀ w ∈ SauvolaWrites Real.sqrt uniformRaster 1 10 0 0 10 10 3 3 (fun _ => 0) (fun _ => 0),
      0 ≤ w.row ∧ w.row < 10 ∧ 0 ≤ w.dstPixel ∧ w.dstPixel < 10) ∧
    (∀ (pixdata : Int → Nat) (wpl k : Int) (b : Nat), b < 32 →
      (∀ r c : Int, 0 ≤ r → r < 10 → 0 ≤ c → c < 10 →
        ¬ (k = r * wpl + c / 32 ∧ b = dataBitIndex c)) →
      (Isodata uniformRaster 1 10 0 0 10 10 3 3 pixdata wpl (fun _ => 0) k).testBit b
        = (pixdata k).testBit b) ∧
    (∀ (pixdata : Int → Nat) (wpl k : Int) (b : Nat), b < 32 →
      (∀ r c : Int, 0 ≤ r → r < 10 → 0 ≤ c → c < 10 →
        ¬ (k = r * wpl + c / 32 ∧ b = dataBitIndex c)) →
      (Sauvola Real.sqrt uniformRaster 1 10 0 0 10 10 3 3 pixdata wpl (fun _ => 0)
          (fun _ => 0) k).testBit b
        = (pixdata k).testBit b) :=
  writes_inside_roi Real.sqrt uniformRaster 1 10 0 0 10 10 3 3 (fun _ => 0) (fun _ => 0)
    (by decide) (by decide)

/-! ## The spike raster -/

/-! ## `Sauvola` on the spike raster -/

theorem sample_spikeRaster (i : Int) :
    sample spikeRaster 1 i = if i = 55 then 0 else 200 := by
  simp only [sample, toGrey, spikeRaster]
  split_ifs <;> simp_all

/-- The threshold of every interior iteration on the spike raster lies in
`(0, 200]`. -/
theorem SauvolaThreshold_spike (integral varIntegral : Int → ℚ) (j i : Nat)
    (hj : j < 6) (hi : i < 6) :
    0 < SauvolaThreshold Real.sqrt
        (CalcIntegral2 spikeRaster 1 10 0 0 10 10 160 integral varIntegral).1
        (CalcIntegral2 spikeRaster 1 10 0 0 10 10 160 integral varIntegral).2
        10 3 3 ((1 + (j : Int)) * 10 + 1 + (i : Int)) ∧
    SauvolaThreshold Real.sqrt
        (CalcIntegral2 spikeRaster 1 10 0 0 10 10 160 integral varIntegral).1
        (CalcIntegral2 spikeRaster 1 10 0 0 10 10 160 integral varIntegral).2
        10 3 3 ((1 + (j : Int)) * 10 + 1 + (i : Int)) ≤ 200 := by
  obtain ⟨hm, hr⟩ := Sauvola_stats spikeRaster 1 10 0 0 (Or.inl rfl) 10 10 3 3 (1 + i) (1 + j)
    (by decide) (by omega) (by omega) (by omega) (by omega) integral varIntegral
  have hs : sample spikeRaster 1 (0 * 10 + 0 * 1) = 200 := by
    rw [sample_spikeRaster]; norm_num
  rw [hs] at hm hr
  have e : (((1 + j : Nat) : Int)) * ((10 : Nat) : Int) + ((1 + i : Nat) : Int)
      = (1 + (j : Int)) * 10 + 1 + (i : Int) := by push_cast; ring
  rw [e] at hm hr
  simp only [Nat.cast_ofNat] at hm hr
  simp only [SauvolaThreshold]
  rw [hm, hr]
  have h5 : (((200 : ℚ) ^ 2 / ((3 : ℚ) * 3 - 1) : ℚ) : ℝ) = 5000 := by norm_num
  have h2 : ((200 : ℚ) : ℝ) = 200 := by norm_num
  rw [h5, h2]
  have hpos : (0 : ℝ) ≤ Real.sqrt 5000 := Real.sqrt_nonneg _
  have hle : Real.sqrt 5000 ≤ 128 := by
    rw [show (128 : ℝ) = Real.sqrt (128 ^ 2) by rw [Real.sqrt_sq]; norm_num]
    apply Real.sqrt_le_sqrt
    norm_num
  constructor
  · norm_num
    nlinarith
  · norm_num
    nlinarith

/-- The fallback threshold `Sauvola` passes on the spike raster is 200. -/
theorem SauvolaRemainThreshold_spike (integral varIntegral : Int → ℚ) :
    SauvolaRemainThreshold
      (CalcIntegral2 spikeRaster 1 10 0 0 10 10 160 integral varIntegral).1 10 10 = 200 := by
  have h := CalcIntegral2_last spikeRaster 1 10 0 0 160 (Or.inl rfl) 10 10 (by decide)
    (by decide) integral varIntegral
  have hs : sample spikeRaster 1 (0 * 10 + 0 * 1) = 200 := by
    rw [sample_spikeRaster]; norm_num
  rw [hs] at h
  simp only [Nat.cast_ofNat] at h
  simp only [SauvolaRemainThreshold]
  norm_num at h ⊢
  rw [h]
  norm_num

/-- The writes of `Sauvola` on the spike raster: all inside the ROI, and a
write sets its bit exactly when it is the write of the pixel `(5, 5)`. -/
theorem SauvolaWrites_spike (integral varIntegral : Int → ℚ) :
    (∀ w ∈ SauvolaWrites Real.sqrt spikeRaster 1 10 0 0 10 10 3 3 integral varIntegral,
      (0 ≤ w.row ∧ w.row < 10 ∧ 0 ≤ w.dstPixel ∧ w.dstPixel < 10) ∧
      (w.white_result = false ↔ (w.row = 5 ∧ w.dstPixel = 5))) ∧
    ∃ w ∈ SauvolaWrites Real.sqrt spikeRaster 1 10 0 0 10 10 3 3 integral varIntegral,
      w.row = 5 ∧ w.dstPixel = 5 := by
  constructor
  · intro w hw
    unfold SauvolaWrites at hw
    simp only [List.mem_append, List.mem_map] at hw
    rcases hw with ⟨p, hp, rfl⟩ | hw
    · rw [mem_interiorSweep] at hp
      obtain ⟨j, i, hj, hi, rfl⟩ := hp
      obtain ⟨hT0, hT1⟩ := SauvolaThreshold_spike integral varIntegral j i (by omega) (by omega)
      simp only [shiftRight_one, sample_spikeRaster]
      refine ⟨by omega, ?_⟩
      by_cases h55 : ((0 : Int) + (1 + (j : Int)) + 3 / 2) * 10 + (0 + (1 + (i : Int)) + 3 / 2) * 1
          = 55
      · rw [if_pos h55]
        constructor
        · intro _; omega
        · intro _
          simp only [decide_eq_false_iff_not, ge_iff_le, not_le]
          push_cast
          exact hT0
      · rw [if_neg h55]
        constructor
        · intro h
          exfalso
          simp only [decide_eq_false_iff_not, ge_iff_le, not_le] at h
          push_cast at h
          linarith
        · intro h
          omega
    · rw [SauvolaRemainThreshold_spike, mem_ThresholdRemainRegions] at hw
      obtain ⟨sl, hsl, k, hk, rfl⟩ := hw
      have hshape : ∀ s ∈ returnedScanLines 0 0 10 10 3 3,
          0 ≤ s.y ∧ s.y < 10 ∧ 0 ≤ s.x0 ∧ s.x1 < 10 ∧ (s.y = 5 → s.x1 < 5 ∨ 5 < s.x0) := by
        decide
      obtain ⟨h1, h2, h3, h4, h5⟩ := hshape sl hsl
      simp only [sample_spikeRaster]
      refine ⟨by omega, ?_⟩
      have hne : ¬ (sl.y * 10 + sl.x0 * 1 + (k : Int) * 1 = 55) := by omega
      rw [if_neg hne]
      constructor
      · intro h
        simp only [decide_eq_false_iff_not, ge_iff_le, not_le] at h
        exact absurd h (by norm_num)
      · intro h
        omega
  · have hp : ({ row := 5, x := 4, integral_index := 44, image_index := 55, dstPixel := 5 }
        : SweepPos) ∈ interiorSweep 1 10 0 0 10 10 3 3 := by decide
    unfold SauvolaWrites
    exact ⟨_, List.mem_append_left _ (List.mem_map_of_mem _ hp), rfl, rfl⟩

/-- Inside a ROI at most 32 pixels wide and with `wpl ≥ 1`, two pixels share
their bit only if they are the same pixel. -/
theorem pixel_bit_inj (wpl r c r2 c2 : Int) (hwpl : 1 ≤ wpl)
    (hc : 0 ≤ c ∧ c < 32) (hc2 : 0 ≤ c2 ∧ c2 < 32)
    (h : r * wpl + c / 32 = r2 * wpl + c2 / 32 ∧ dataBitIndex c = dataBitIndex c2) :
    r2 = r ∧ c2 = c := by
  obtain ⟨h1, h2⟩ := h
  have e1 : c / 32 = 0 := by omega
  have e2 : c2 / 32 = 0 := by omega
  rw [e1, e2, add_zero, add_zero] at h1
  have hw : wpl ≠ 0 := by omega
  refine ⟨(mul_right_cancel₀ hw h1).symm, ?_⟩
  unfold dataBitIndex at h2
  omega

/-- The bits of the bitmap after `Sauvola` on the spike raster. -/
theorem Sauvola_spike_bits (integral varIntegral : Int → ℚ) (pixdata : Int → Nat) (wpl : Int)
    (hwpl : 1 ≤ wpl) (hz : ∀ k, pixdata k = 0) (r c : Int)
    (hr : 0 ≤ r ∧ r < 10) (hc : 0 ≤ c ∧ c < 10) :
    (Sauvola Real.sqrt spikeRaster 1 10 0 0 10 10 3 3 pixdata wpl integral varIntegral
        (r * wpl + c / 32)).testBit (dataBitIndex c)
      = decide (r = 5 ∧ c = 5) := by
  obtain ⟨hall, hex⟩ := SauvolaWrites_spike integral varIntegral
  have hb : dataBitIndex c < 32 := by unfold dataBitIndex; omega
  have htarget : ∀ w ∈ SauvolaWrites Real.sqrt spikeRaster 1 10 0 0 10 10 3 3 integral
      varIntegral,
      (r * wpl + c / 32 = w.row * wpl + w.dstPixel / 32 ∧ dataBitIndex c = dataBitIndex w.dstPixel)
        → w.row = r ∧ w.dstPixel = c := by
    intro w hw h
    obtain ⟨⟨h1, h2, h3, h4⟩, -⟩ := hall w hw
    exact pixel_bit_inj wpl r c w.row w.dstPixel hwpl ⟨hc.1, by omega⟩ ⟨h3, by omega⟩ h
  unfold Sauvola
  by_cases h55 : r = 5 ∧ c = 5
  · rw [decide_eq_true h55]
    obtain ⟨rfl, rfl⟩ := h55
    apply applyWrites_testBit_written wpl _ _ _ hb false
    · intro w hw h
      exact ((hall w hw).2).2 (htarget w hw h)
    · obtain ⟨w, hw, h1, h2⟩ := hex
      exact ⟨w, hw, by rw [h1, h2], by rw [h2]⟩
  · rw [decide_eq_false h55]
    by_cases hex2 : ∃ w ∈ SauvolaWrites Real.sqrt spikeRaster 1 10 0 0 10 10 3 3 integral
        varIntegral,
        r * wpl + c / 32 = w.row * wpl + w.dstPixel / 32
          ∧ dataBitIndex c = dataBitIndex w.dstPixel
    · have := applyWrites_testBit_written wpl _ (r * wpl + c / 32) (dataBitIndex c) hb true
        (fun w hw h => by
          obtain ⟨h1, h2⟩ := htarget w hw h
          cases hv : w.white_result
          · exact absurd (by rw [← h1, ← h2]; exact ((hall w hw).2).1 hv) h55
          · rfl)
        hex2 pixdata
      simpa using this
    · rw [applyWrites_testBit_frame wpl _ _ _ hb (fun w hw h => hex2 ⟨w, hw, h⟩), hz,
        Nat.zero_testBit]

/-- C11: for the 10×10 ROI with `bytes_per_pixel = 1`, every pixel 200 except a
single pixel of intensity 0 at ROI position (5,5), kernel 3×3 and a bitmap that
is all-cleared before the call, `Sauvola` (`k = 0.34`, `R = 128`, real square
root) sets the bit of pixel (5,5) and leaves cleared the bit of every pixel
outside the 3×3 kernel footprint around (5,5); in fact the bit of every other
ROI pixel is cleared. -/
theorem Sauvola_spike_sets_centre (integral varIntegral : Int → ℚ) (pixdata : Int → Nat)
    (wpl : Int) (hwpl : 1 ≤ wpl) (hz : ∀ k, pixdata k = 0) :
    (∀ i j : Nat, i < 10 → j < 10 →
      roiIntensity spikeRaster 1 10 0 0 i j = if i = 5 ∧ j = 5 then 0 else 200) ∧
    (Sauvola Real.sqrt spikeRaster 1 10 0 0 10 10 3 3 pixdata wpl integral varIntegral
        (5 * wpl + 5 / 32)).testBit (dataBitIndex 5) = true ∧
    (∀ r c : Int, 0 ≤ r → r < 10 → 0 ≤ c → c < 10 →
      ¬ (4 ≤ r ∧ r ≤ 6 ∧ 4 ≤ c ∧ c ≤ 6) →
      (Sauvola Real.sqrt spikeRaster 1 10 0 0 10 10 3 3 pixdata wpl integral varIntegral
        (r * wpl + c / 32)).testBit (dataBitIndex c) = false) ∧
    (∀ r c : Int, 0 ≤ r → r < 10 → 0 ≤ c → c < 10 → ¬ (r = 5 ∧ c = 5) →
      (Sauvola Real.sqrt spikeRaster 1 10 0 0 10 10 3 3 pixdata wpl integral varIntegral
        (r * wpl + c / 32)).testBit (dataBitIndex c) = false) := by
  refine ⟨?_, ?_, ?_, ?_⟩
  · intro i j hi hj
    rw [roiIntensity, sample_spikeRaster]
    have e : ((0 : Int) + (j : Int)) * 10 + (0 + (i : Int)) * 1 = 55 ↔ (i = 5 ∧ j = 5) := by
      omega
    simp only [e]
  · rw [Sauvola_spike_bits integral varIntegral pixdata wpl hwpl hz 5 5 (by decide) (by decide)]
    decide
  · intro r c h1 h2 h3 h4 hout
    rw [Sauvola_spike_bits integral varIntegral pixdata wpl hwpl hz r c ⟨h1, h2⟩ ⟨h3, h4⟩]
    apply decide_eq_false
    omega
  · intro r c h1 h2 h3 h4 hne
    rw [Sauvola_spike_bits integral varIntegral pixdata wpl hwpl hz r c ⟨h1, h2⟩ ⟨h3, h4⟩]
    exact decide_eq_false hne

/-- C11, with one word per bitmap line and zero-filled buffers. -/
theorem Sauvola_spike_sets_centre_witness :
    (∀ i j : Nat, i < 10 → j < 10 →
      roiIntensity spikeRaster 1 10 0 0 i j = if i = 5 ∧ j = 5 then 0 else 200) ∧
    (Sauvola Real.sqrt spikeRaster 1 10 0 0 10 10 3 3 (fun _ => 0) 1 (fun _ => 0) (fun _ => 0)
        (5 * 1 + 5 / 32)).testBit (dataBitIndex 5) = true ∧
    (∀ r c : Int, 0 ≤ r → r < 10 → 0 ≤ c → c < 10 →
      ¬ (4 ≤ r ∧ r ≤ 6 ∧ 4 ≤ c ∧ c ≤ 6) →
      (Sauvola Real.sqrt spikeRaster 1 10 0 0 10 10 3 3 (fun _ => 0) 1 (fun _ => 0) (fun _ => 0)
        (r * 1 + c / 32)).testBit (dataBitIndex c) = false) ∧
    (∀ r c : Int, 0 ≤ r → r < 10 → 0 ≤ c → c < 10 → ¬ (r = 5 ∧ c = 5) →
      (Sauvola Real.sqrt spikeRaster 1 10 0 0 10 10 3 3 (fun _ => 0) 1 (fun _ => 0) (fun _ => 0)
        (r * 1 + c / 32)).testBit (dataBitIndex c) = false) :=
  Sauvola_spike_sets_centre (fun _ => 0) (fun _ => 0) (fun _ => 0) 1 (by decide) (fun _ => rfl)

/-! ## Shape of the boundary band for even kernels -/

/-- C8 (as stated, refuted): with a 10×10 ROI and a 4×4 kernel the returned
segments are not the symmetric shape: the bottom band has two full-width rows
(8 and 9), not three, so row 7 has a left and a right segment, and the right
segments are two columns wide (columns 8 and 9), not three.  Pixel (7,7), which
the symmetric shape puts on a full-width row of the bottom band, is a
destination pixel of the interior sweep and is written once in all. -/
theorem GetRemainScanLines_even_not_symmetric :
    returnedScanLines 0 0 10 10 4 4 ≠ symmetricScanLines 0 0 10 10 4 4 ∧
    (⟨7, 0, 9⟩ : ScanLine) ∈ symmetricScanLines 0 0 10 10 4 4 ∧
    (⟨7, 0, 9⟩ : ScanLine) ∉ returnedScanLines 0 0 10 10 4 4 ∧
    (⟨7, 0, 2⟩ : ScanLine) ∈ returnedScanLines 0 0 10 10 4 4 ∧
    (⟨7, 8, 9⟩ : ScanLine) ∈ returnedScanLines 0 0 10 10 4 4 ∧
    (⟨6, 7, 9⟩ : ScanLine) ∈ symmetricScanLines 0 0 10 10 4 4 ∧
    (⟨6, 7, 9⟩ : ScanLine) ∉ returnedScanLines 0 0 10 10 4 4 ∧
    ((7 : Int), (7 : Int)) ∈ interiorPixels 1 10 0 0 10 10 4 4 ∧
    writeCount 1 10 0 0 10 10 4 4 7 7 = 1 := by
  decide

/-- C8 (amended): when `kernelWidth` and `kernelHeight` are even,
`kernelWidth < roiWidth` and `kernelHeight < roiHeight`, the segments returned
by `GetRemainScanLines` are, in order: a top band of `⌊kernelHeight/2⌋ + 1`
full-width rows at the top of the ROI; for each of the
`roiHeight - kernelHeight - 1` rows in between a left segment of
`⌊kernelWidth/2⌋ + 1` columns (columns `0 .. ⌊kernelWidth/2⌋`) and a right
segment of `⌊kernelWidth/2⌋` columns (columns
`roiWidth - ⌊kernelWidth/2⌋ .. roiWidth - 1`); and a bottom band of
`⌊kernelHeight/2⌋` full-width rows at the bottom of the ROI.  The pixels of
these segments are exactly the ROI pixels that are not destination pixels of
the interior sweep. -/
theorem GetRemainScanLines_band_shape (bytes_per_pixel bytes_per_line roiLeft roiTop : Int)
    (roiWidth roiHeight kernelWidth kernelHeight : Nat)
    (hkWe : kernelWidth % 2 = 0) (hkHe : kernelHeight % 2 = 0)
    (hW : kernelWidth < roiWidth) (hH : kernelHeight < roiHeight) :
    returnedScanLines roiLeft roiTop roiWidth roiHeight kernelWidth kernelHeight
      = ((List.range (kernelHeight / 2 + 1)).map fun (i : Nat) =>
          ({ y := roiTop + (i : Int), x0 := roiLeft, x1 := roiLeft + roiWidth - 1 } : ScanLine))
        ++ ((List.range (roiHeight - kernelHeight - 1)).flatMap fun (i : Nat) =>
          [({ y := roiTop + ((kernelHeight / 2 + 1 + i : Nat) : Int), x0 := roiLeft
              x1 := roiLeft + ((kernelWidth / 2 : Nat) : Int) } : ScanLine),
           ({ y := roiTop + ((kernelHeight / 2 + 1 + i : Nat) : Int)
              x0 := roiLeft + roiWidth - ((kernelWidth / 2 : Nat) : Int)
              x1 := roiLeft + roiWidth - 1 } : ScanLine)])
        ++ ((List.range (kernelHeight / 2)).map fun (i : Nat) =>
          ({ y := roiTop + roiHeight - ((kernelHeight / 2 : Nat) : Int) + (i : Int)
             x0 := roiLeft, x1 := roiLeft + roiWidth - 1 } : ScanLine)) ∧
    ∀ r c : Nat, r < roiHeight → c < roiWidth →
      (((r : Int), (c : Int))
          ∈ remainPixels roiLeft roiTop roiWidth roiHeight kernelWidth kernelHeight
        ↔ ((r : Int), (c : Int))
          ∉ interiorPixels bytes_per_pixel bytes_per_line roiLeft roiTop roiWidth roiHeight
              kernelWidth kernelHeight) := by
  constructor
  · have e : roiHeight - kernelHeight - 1 = roiHeight - 2 * (kernelHeight / 2) - 1 := by omega
    rw [e]
    exact returnedScanLines_bands roiLeft roiTop roiWidth roiHeight kernelWidth kernelHeight hW hH
  · intro r c hr hc
    rw [← List.count_pos_iff, ← List.count_pos_iff, count_interiorPixels,
      count_remainPixels _ _ _ _ _ _ hW hH]
    split_ifs <;> omega

/-- C8 (amended), at a 10×10 ROI with a 4×4 kernel. -/
theorem GetRemainScanLines_band_shape_witness :
    returnedScanLines 0 0 ((10 : Nat) : Int) ((10 : Nat) : Int) ((4 : Nat) : Int)
        ((4 : Nat) : Int)
      = ((List.range (4 / 2 + 1)).map fun (i : Nat) =>
          ({ y := 0 + (i : Int), x0 := 0, x1 := 0 + ((10 : Nat) : Int) - 1 } : ScanLine))
        ++ ((List.range (10 - 4 - 1)).flatMap fun (i : Nat) =>
          [({ y := 0 + ((4 / 2 + 1 + i : Nat) : Int), x0 := 0
              x1 := 0 + ((4 / 2 : Nat) : Int) } : ScanLine),
           ({ y := 0 + ((4 / 2 + 1 + i : Nat) : Int)
              x0 := 0 + ((10 : Nat) : Int) - ((4 / 2 : Nat) : Int)
              x1 := 0 + ((10 : Nat) : Int) - 1 } : ScanLine)])
        ++ ((List.range (4 / 2)).map fun (i : Nat) =>
          ({ y := 0 + ((10 : Nat) : Int) - ((4 / 2 : Nat) : Int) + (i : Int)
             x0 := 0, x1 := 0 + ((10 : Nat) : Int) - 1 } : ScanLine)) ∧
    ∀ r c : Nat, r < 10 → c < 10 →
      (((r : Int), (c : Int))
          ∈ remainPixels 0 0 ((10 : Nat) : Int) ((10 : Nat) : Int) ((4 : Nat) : Int)
              ((4 : Nat) : Int)
        ↔ ((r : Int), (c : Int))
          ∉ interiorPixels 1 10 0 0 ((10 : Nat) : Int) ((10 : Nat) : Int) ((4 : Nat) : Int)
              ((4 : Nat) : Int)) :=
  GetRemainScanLines_band_shape 1 10 0 0 10 10 4 4 (by decide) (by decide) (by decide)
    (by decide)

end LocalAdaptiveThreshold
